import Mathlib

/-!
# FPDC: warp-level delta compression of 64-bit traces

A shallow embedding of `CompressionKernel` and `DecompressionKernel` of
`src/fpdc-sycl/kernels.h`.

Conventions of the embedding.

* `ull` values are natural numbers below `2 ^ 64`; every `ull` operation that can
  wrap is written with an explicit `% 2 ^ 64` (`sub64`, `neg64`, `add64`, `shl64`).
* `int` values (`off`, `beg`, `bcount`, `code`, `tmp`, the contents of `ibufs`) are
  integers.  Signed overflow and division by zero are undefined in C++, so the
  embedding describes the executions in which no `int` expression overflows and
  `dimensionalityd` is not 0; the theorems that bound or compare cursors take the
  chunk boundaries up to `MAX`, which keeps every cursor below `2 ^ 31`.  The bitwise
  `int` operations (`|`, `&`, `<<`, `>>`) act on the 32-bit two's complement pattern.
* Buffers are memories: `cbufd`, `fbufd : Int → Nat` (words), `dbufd : Int → Nat`
  (raw bytes, `0 .. 255`), `ibufs : Nat → Int`, `cutd : Nat → Int`.  What a buffer
  holds before the kernel starts is part of the input.
* One warp (32 lanes) runs in lock step: inside one statement every active lane reads
  before any lane writes.  A lane is active in pass `k` of the `for` loop when its
  index `i = start + lane + 32 * k` satisfies the loop guard `i < term`.
* Whether plain `char` is signed is fixed by the platform; the decoder takes it as
  the parameter `signedChar`.
-/

namespace FPDC

/-- Width of a warp, `WARPSIZE` (kernels.h, line 3). -/
def WARPSIZE : Nat := 32

/-- Largest number of words of a trace, `MAX` (kernels.h, line 2). -/
def MAX : Int := 64 * 1024 * 1024

/-! ## Machine arithmetic -/

/-- Subtraction of `ull` values, wrapping modulo `2 ^ 64`. -/
def sub64 (a b : Nat) : Nat := (a + (2 ^ 64 - b % 2 ^ 64)) % 2 ^ 64

/-- Unary minus on an `ull` value (two's complement negation). -/
def neg64 (a : Nat) : Nat := (2 ^ 64 - a % 2 ^ 64) % 2 ^ 64

/-- Addition of `ull` values, wrapping modulo `2 ^ 64`. -/
def add64 (a b : Nat) : Nat := (a + b) % 2 ^ 64

/-- Left shift of an `ull` value, the bits shifted out are lost. -/
def shl64 (a s : Nat) : Nat := (a <<< s) % 2 ^ 64

/-- Number of leading zero bits of `x` read as a word of `n` bits. -/
def clzFrom : Nat → Nat → Nat
  | 0, _ => 0
  | n + 1, x => if x < 2 ^ n then clzFrom n x + 1 else 0

/-- Count of leading zero bits of a 64-bit word, `sycl::clz`; it is 64 at 0. -/
def clz (x : Nat) : Nat := clzFrom 64 x

/-- The 32-bit pattern of an `int`. -/
def toU32 (x : Int) : Nat := (x % 2 ^ 32).toNat

/-- The `int` with a given 32-bit pattern. -/
def ofU32 (n : Nat) : Int :=
  if n % 2 ^ 32 < 2 ^ 31 then ((n % 2 ^ 32 : Nat) : Int) else ((n % 2 ^ 32 : Nat) : Int) - 2 ^ 32

/-- Bitwise or of two `int` values. -/
def intOr (a b : Int) : Int := ofU32 (toU32 a ||| toU32 b)

/-- Bitwise and of two `int` values. -/
def intAnd (a b : Int) : Int := ofU32 (toU32 a &&& toU32 b)

/-- Left shift of an `int`. -/
def intShl (a : Int) (s : Nat) : Int := ofU32 (toU32 a <<< s)

/-- Arithmetic right shift of an `int`. -/
def intSar (a : Int) (s : Nat) : Int := a / 2 ^ s

/-- Conversion of an `int` to the byte stored in a `char`. -/
def toByte (x : Int) : Nat := (x % 256).toNat

/-- A `char` read from memory and promoted to `int`. -/
def charToInt (signedChar : Bool) (b : Nat) : Int :=
  if signedChar = true ∧ 128 ≤ b then (b : Int) - 256 else (b : Int)

/-- A `char` read from memory, promoted to `int` and converted to `ull`. -/
def charToU64 (signedChar : Bool) (b : Nat) : Nat :=
  if signedChar = true ∧ 128 ≤ b then b + (2 ^ 64 - 256) else b

/-! ## Per-lane values shared by both kernels -/

/-- Prediction index within the previous subchunk (kernels.h, lines 56 and 168),
`offset = WARPSIZE - (dimensionalityd - lane % dimensionalityd) - lane`, with the truncating
`%` of C++.  For `D = 0` the code divides by zero before it reaches the loop: the value of
this function at `D = 0` describes no execution of the kernels. -/
def offset (D : Int) (lane : Nat) : Int :=
  (WARPSIZE : Int) - (D - Int.tmod (lane : Int) D) - (lane : Int)

/-- Initial value of the cursor, `off = ((start+1)/2*17)` (lines 62 and 174), with the
truncating `/` of C++.  The code computes it in `int`: this is the value of the code when it
lies in the `int` range, as it does for `-MAX ≤ start ≤ MAX` (`startOff_bound`). -/
def startOff (start : Int) : Int := Int.tdiv (start + 1) 2 * 17

/-- Start of the chunk of a warp (lines 59-60 and 171-172). -/
def chunkStart (cutd : Nat → Int) (warp : Nat) : Int :=
  if warp > 0 then cutd (warp - 1) else 0

/-- End of the chunk of a warp (lines 61 and 173). -/
def chunkTerm (cutd : Nat → Int) (warp : Nat) : Int := cutd warp

/-- Slot of a lane in the shared prefix sum array, after `iindex += WARPSIZE / 2`
(lines 48-50); `wib = lid / WARPSIZE` is the number of the warp inside its block. -/
def iindex (wib lane : Nat) : Nat := wib * (3 * WARPSIZE / 2) + lane + WARPSIZE / 2

/-- Slot of lane 31 (line 51). -/
def lastidx (wib : Nat) : Nat := (wib + 1) * (3 * WARPSIZE / 2) - 1

/-- The loop guard of lane `lane` in pass `k`: `i < term` for `i = start + lane + 32 * k`. -/
def active (start term : Int) (k lane : Nat) : Bool :=
  decide (lane < WARPSIZE ∧ start + (lane : Int) + (WARPSIZE : Int) * (k : Int) < term)

/-- Number of passes of the `for` loop that lane 0 executes; no lane executes more. -/
def numPasses (start term : Int) : Nat := ((term - start + 31) / 32).toNat

/-- Line 49/162: every lane clears `ibufs[lid / WARPSIZE * 48 + lane]`. -/
def clearScratch (wib : Nat) (ibufs : Nat → Int) : Nat → Int :=
  fun j => if wib * (3 * WARPSIZE / 2) ≤ j ∧ j < wib * (3 * WARPSIZE / 2) + WARPSIZE then 0 else ibufs j

/-- One lock-step statement `ibufs[iindex] = v` executed by the lanes selected by `act`. -/
def storeLanes (wib : Nat) (act : Nat → Bool) (v : Nat → Int) (ibufs : Nat → Int) : Nat → Int :=
  fun j =>
    if iindex wib 0 ≤ j ∧ j - iindex wib 0 < WARPSIZE ∧ act (j - iindex wib 0) = true
    then v (j - iindex wib 0) else ibufs j

/-- One lock-step statement `ibufs[iindex + 1] = v` executed by the lanes selected by `act`. -/
def storeNext (wib : Nat) (act : Nat → Bool) (v : Nat → Int) (ibufs : Nat → Int) : Nat → Int :=
  fun j =>
    if iindex wib 0 + 1 ≤ j ∧ j - (iindex wib 0 + 1) < WARPSIZE ∧ act (j - (iindex wib 0 + 1)) = true
    then v (j - (iindex wib 0 + 1)) else ibufs j

/-- One round `ibufs[iindex] += ibufs[iindex-s]` of the prefix sum: every active lane
reads both slots, then every active lane writes. -/
def scanRound (wib : Nat) (act : Nat → Bool) (s : Nat) (ibufs : Nat → Int) : Nat → Int :=
  storeLanes wib act (fun l => ibufs (iindex wib l) + ibufs (iindex wib l - s)) ibufs

/-- The five rounds of lines 82-95 (and 196-209). -/
def scan (wib : Nat) (act : Nat → Bool) (ibufs : Nat → Int) : Nat → Int :=
  scanRound wib act 16 (scanRound wib act 8 (scanRound wib act 4
    (scanRound wib act 2 (scanRound wib act 1 ibufs))))

/-! ## Compression kernel -/

/-- Registers of a lane after lines 68-76. -/
structure Delta where
  /-- The sign flag: 8 when the delta was negated, else 0. -/
  code : Int
  /-- The magnitude of the delta. -/
  diff : Nat
  /-- Number of payload bytes. -/
  bcount : Int
deriving DecidableEq

/-- Line 69: `code = (diff >> 60) & 8`. -/
def signCode (diff : Nat) : Int := (((diff >>> 60) &&& 8 : Nat) : Int)

/-- Line 75: `bcount = 8 - (sycl::clz(diff) >> 3)`. -/
def byteCount (diff : Nat) : Int := ((8 - (clz diff >>> 3) : Nat) : Int)

/-- Lines 68-76 for one element. -/
def delta (value prev : Nat) : Delta :=
  let diff := sub64 value prev
  let code := signCode diff
  let diff := if code ≠ 0 then neg64 diff else diff
  let bcount := byteCount diff
  let bcount := if bcount = 2 then 3 else bcount
  { code := code, diff := diff, bcount := bcount }

/-- Lines 105 and 107: `if (bcount >= 3) bcount--; code |= bcount;`. -/
def headerCode (d : Delta) : Int :=
  intOr d.code (if d.bcount ≥ 3 then d.bcount - 1 else d.bcount)

/-- Lines 100-103: the bytes of `diff`, low byte first, stored at `beg, beg+1, ..`
while `beg < end = beg + bcount`. -/
def payloadStores (beg : Int) (diff : Nat) (bcount : Int) : List (Int × Nat) :=
  (List.range bcount.toNat).map fun t : Nat => (beg + (t : Int), (diff >>> (8 * t)) % 256)

/-- State of one warp of the compression kernel between two passes of the loop. -/
structure CompState where
  /-- The shared prefix sum array. -/
  ibufs : Nat → Int
  /-- Register `off` of every lane. -/
  off : Nat → Int
  /-- Register `prev` of every lane. -/
  prev : Nat → Nat
  /-- The stores to `dbufd` made so far, oldest first. -/
  stores : List (Int × Nat)

/-- Payload stores of one pass (lines 98-103), lane after lane. -/
def passPayload (act : Nat → Bool) (beg : Nat → Int) (d : Nat → Delta) : List (Int × Nat) :=
  (List.range WARPSIZE).flatMap fun l =>
    if act l = true then payloadStores (beg l) (d l).diff (d l).bcount else []

/-- Header stores of one pass (lines 114-116): the odd lanes store their own nibble
and the one of their neighbour. -/
def passHeader (act : Nat → Bool) (off : Nat → Int) (code : Nat → Int) (ibufs : Nat → Int)
    (wib : Nat) : List (Int × Nat) :=
  (List.range WARPSIZE).flatMap fun l =>
    if act l = true ∧ l &&& 1 ≠ 0 then
      [(off l + ((l >>> 1 : Nat) : Int),
        toByte (intOr (ibufs (iindex wib l - 1)) (intShl (code l) 4)))]
    else []

/-- The index `i` of lane `l` in pass `k` of the loop `for (i = start + lane; i < term;
i += WARPSIZE)`. -/
def laneIndex (start : Int) (k l : Nat) : Int := start + (l : Int) + (WARPSIZE : Int) * (k : Int)

/-- Lines 68-76 of one pass: the registers `code`, `diff`, `bcount` of lane `l`. -/
def passDelta (cbufd : Int → Nat) (start : Int) (k : Nat) (st : CompState) (l : Nat) : Delta :=
  delta (cbufd (laneIndex start k l)) (st.prev l)

/-- Lines 79-95 of one pass: `ibufs` after `ibufs[iindex] = bcount` and the five rounds. -/
def passScan (cbufd : Int → Nat) (start term : Int) (wib k : Nat) (st : CompState) : Nat → Int :=
  scan wib (active start term k)
    (storeLanes wib (active start term k) (fun l => (passDelta cbufd start k st l).bcount) st.ibufs)

/-- Line 98: `beg = off + (WARPSIZE/2) + ibufs[iindex-1]`. -/
def passBeg (cbufd : Int → Nat) (start term : Int) (wib k : Nat) (st : CompState) (l : Nat) : Int :=
  st.off l + ((WARPSIZE / 2 : Nat) : Int) + passScan cbufd start term wib k st (iindex wib l - 1)

/-- Line 106: `tmp = ibufs[lastidx]`. -/
def passTmp (cbufd : Int → Nat) (start term : Int) (wib k : Nat) (st : CompState) : Int :=
  passScan cbufd start term wib k st (lastidx wib)

/-- Line 108: `ibufs` after `ibufs[iindex] = code`. -/
def passCodes (cbufd : Int → Nat) (start term : Int) (wib k : Nat) (st : CompState) : Nat → Int :=
  storeLanes wib (active start term k) (fun l => headerCode (passDelta cbufd start k st l))
    (passScan cbufd start term wib k st)

/-- One pass of the loop of lines 65-122, executed by the active lanes of the warp. -/
def compPass (D : Int) (cbufd : Int → Nat) (start term : Int) (wib k : Nat)
    (st : CompState) : CompState :=
  { ibufs := passCodes cbufd start term wib k st
    off := fun l =>
      if active start term k l = true
      then st.off l + (passTmp cbufd start term wib k st + ((WARPSIZE / 2 : Nat) : Int))
      else st.off l
    prev := fun l =>
      if active start term k l = true then cbufd (laneIndex start k l + offset D l) else st.prev l
    stores := st.stores
      ++ passPayload (active start term k) (passBeg cbufd start term wib k st)
          (passDelta cbufd start k st)
      ++ passHeader (active start term k) st.off
          (fun l => headerCode (passDelta cbufd start k st l))
          (passCodes cbufd start term wib k st) wib }

/-- State of a warp when it reaches the loop (lines 43-64). -/
def compInit (start : Int) (wib : Nat) (ibufs : Nat → Int) : CompState :=
  { ibufs := clearScratch wib ibufs
    off := fun _ => startOff start
    prev := fun _ => 0
    stores := [] }

/-- The first `n` passes of the loop. -/
def compRun (D : Int) (cbufd : Int → Nat) (start term : Int) (wib : Nat) (n : Nat)
    (st : CompState) : CompState :=
  (List.range n).foldl (fun s k => compPass D cbufd start term wib k s) st

/-- The warp `warp` of `CompressionKernel`: its state when every lane has left the loop. -/
def CompressionKernel (D : Int) (cbufd : Int → Nat) (cutd : Nat → Int) (wib warp : Nat)
    (ibufs : Nat → Int) : CompState :=
  let start := chunkStart cutd warp
  let term := chunkTerm cutd warp
  compRun D cbufd start term wib (numPasses start term) (compInit start wib ibufs)

/-- Line 125: lane 31 stores its `off` in `offd[warp]`. -/
def offdEntry (D : Int) (cbufd : Int → Nat) (cutd : Nat → Int) (wib warp : Nat)
    (ibufs : Nat → Int) : Int :=
  (CompressionKernel D cbufd cutd wib warp ibufs).off 31

/-- A memory after a list of stores, oldest first. -/
def applyStores (stores : List (Int × Nat)) (mem : Int → Nat) : Int → Nat :=
  stores.foldl (fun m s => fun a => if a = s.1 then s.2 else m a) mem

/-- The buffer `dbufd` after the warps `0 .. nwarps-1` have run one after the other;
`wpb` is the number of warps per block. -/
def compressedBytes (D : Int) (cbufd : Int → Nat) (cutd : Nat → Int) (nwarps wpb : Nat)
    (ibufs : Nat → Int) (dbufd : Int → Nat) : Int → Nat :=
  (List.range nwarps).foldl
    (fun m w => applyStores (CompressionKernel D cbufd cutd (w % wpb) w ibufs).stores m) dbufd

/-! ## Decompression kernel -/

/-- State of one warp of the decompression kernel between two passes of the loop. -/
structure DecompState where
  /-- The shared prefix sum array. -/
  ibufs : Nat → Int
  /-- Register `off` of every lane. -/
  off : Nat → Int
  /-- Register `prev` of every lane. -/
  prev : Nat → Nat
  /-- The output buffer. -/
  fbufd : Int → Nat

/-- Lines 189-190: `bcount = code & 7; if (bcount >= 2) bcount++;`. -/
def decodeCount (code : Int) : Int :=
  let bcount := intAnd code 7
  if bcount ≥ 2 then bcount + 1 else bcount

/-- Lines 215-219: the bytes `end = beg + bcount - 1` down to `beg` are shifted into
`diff`, each read through a `char`. -/
def readPayload (signedChar : Bool) (dbufd : Int → Nat) (beg : Int) (bcount : Int) : Nat :=
  (List.range bcount.toNat).reverse.foldl
    (fun (diff t : Nat) => shl64 diff 8 ||| charToU64 signedChar (dbufd (beg + (t : Int)))) 0

/-- One pass of the loop of lines 177-232, executed by the active lanes of the warp. -/
def decompPass (signedChar : Bool) (D : Int) (dbufd : Int → Nat) (start term : Int)
    (wib k : Nat) (st : DecompState) : DecompState :=
  let act := active start term k
  let even := fun l : Nat => act l && decide (l &&& 1 = 0)
  let i := fun l : Nat => laneIndex start k l
  let hdr := fun l : Nat => charToInt signedChar (dbufd (st.off l + ((l >>> 1 : Nat) : Int)))
  let ib0 := storeLanes wib even hdr st.ibufs
  let ib1 := storeNext wib even (fun l => intSar (hdr l) 4) ib0
  let off1 := fun l : Nat => st.off l + ((WARPSIZE / 2 : Nat) : Int)
  let code := fun l : Nat => ib1 (iindex wib l)
  let bcount := fun l : Nat => decodeCount (code l)
  let ib2 := storeLanes wib act bcount ib1
  let ib7 := scan wib act ib2
  let beg := fun l : Nat => off1 l + ib7 (iindex wib l - 1)
  let off2 := fun l : Nat => off1 l + ib7 (lastidx wib)
  let diff := fun l : Nat => readPayload signedChar dbufd (beg l) (bcount l)
  let diff2 := fun l : Nat => if intAnd (code l) 8 ≠ 0 then neg64 (diff l) else diff l
  let fb : Int → Nat := fun a =>
    if 0 ≤ a - i 0 ∧ act (a - i 0).toNat = true
    then add64 (st.prev (a - i 0).toNat) (diff2 (a - i 0).toNat) else st.fbufd a
  { ibufs := ib7
    off := fun l => if act l = true then off2 l else st.off l
    prev := fun l => if act l = true then fb (i l + offset D l) else st.prev l
    fbufd := fb }

/-- State of a warp when it reaches the loop (lines 156-176). -/
def decompInit (start : Int) (wib : Nat) (ibufs : Nat → Int) (fbufd : Int → Nat) : DecompState :=
  { ibufs := clearScratch wib ibufs
    off := fun _ => startOff start
    prev := fun _ => 0
    fbufd := fbufd }

/-- The first `n` passes of the loop. -/
def decompRun (signedChar : Bool) (D : Int) (dbufd : Int → Nat) (start term : Int) (wib : Nat)
    (n : Nat) (st : DecompState) : DecompState :=
  (List.range n).foldl (fun s k => decompPass signedChar D dbufd start term wib k s) st

/-- The warp `warp` of `DecompressionKernel`: its state when every lane has left the loop. -/
def DecompressionKernel (signedChar : Bool) (D : Int) (dbufd : Int → Nat) (cutd : Nat → Int)
    (wib warp : Nat) (ibufs : Nat → Int) (fbufd : Int → Nat) : DecompState :=
  let start := chunkStart cutd warp
  let term := chunkTerm cutd warp
  decompRun signedChar D dbufd start term wib (numPasses start term)
    (decompInit start wib ibufs fbufd)

/-- The buffer `fbufd` after the warps `0 .. nwarps-1` have run one after the other. -/
def decompressedWords (signedChar : Bool) (D : Int) (dbufd : Int → Nat) (cutd : Nat → Int)
    (nwarps wpb : Nat) (ibufs : Nat → Int) (fbufd : Int → Nat) : Int → Nat :=
  (List.range nwarps).foldl
    (fun m w => (DecompressionKernel signedChar D dbufd cutd (w % wpb) w ibufs m).fbufd) fbufd

/-! ## Closed forms used to describe the runs of the compression kernel -/

/-- Sum of the first `n` values of `b`. -/
def pre (b : Nat → Int) : Nat → Int
  | 0 => 0
  | n + 1 => pre b n + b n

/-- The value of register `prev` of lane `l` when pass `k` starts: 0 in the first pass
(line 64), afterwards the word `cbufd[i + offset]` fetched by line 121 in pass `k - 1`. -/
def pred (D : Int) (cbufd : Int → Nat) (start : Int) (k l : Nat) : Nat :=
  if k = 0 then 0
  else cbufd (laneIndex start (k - 1) l + offset D l)

/-- The registers of lane `l` after lines 68-76 of pass `k`. -/
def dlt (D : Int) (cbufd : Int → Nat) (start : Int) (k l : Nat) : Delta :=
  delta (cbufd (laneIndex start k l)) (pred D cbufd start k l)

/-- Number of payload bytes of the 32 lanes in pass `k`. -/
def tot (D : Int) (cbufd : Int → Nat) (start : Int) (k : Nat) : Int :=
  pre (fun l => (dlt D cbufd start k l).bcount) WARPSIZE

/-- The cursor after `k` passes in which all 32 lanes were active. -/
def cur (D : Int) (cbufd : Int → Nat) (start : Int) : Nat → Int
  | 0 => startOff start
  | k + 1 => cur D cbufd start k + (tot D cbufd start k + ((WARPSIZE / 2 : Nat) : Int))

/-- The worst-case size of the compressed buffer for the chunks `0 .. nwarps-1`:
the sum over the chunks of `chunk_length / W` rounded up, times `W/2 + 8*W`. -/
def worstCase (cutd : Nat → Int) (nwarps : Nat) : Int :=
  pre (fun w => (chunkTerm cutd w - chunkStart cutd w + 31) / 32 *
    (((WARPSIZE / 2 + 8 * WARPSIZE : Nat) : Int))) nwarps

/-! ## Concrete inputs -/

/-- A scratch array that holds 0 in every slot. -/
def zeroScratch : Nat → Int := fun _ => 0

/-- A buffer that holds 0 at every index. -/
def zeroBuf : Int → Nat := fun _ => 0

/-- The trace `[1]`. -/
def oneWord : Int → Nat := fun i => if i = 0 then 1 else 0

/-- The boundaries of the single chunk `[0, 1)`. -/
def oneCut : Nat → Int := fun _ => 1

/-- The trace `[0x010203, 0, 5, 7]`. -/
def pairTrace : Int → Nat :=
  fun i => if i = 0 then 0x010203 else if i = 2 then 5 else if i = 3 then 7 else 0

/-- The boundaries of the chunks `[0, 2)` and `[2, 4)`. -/
def pairCuts : Nat → Int := fun w => if w = 0 then 2 else 4

/-- The trace that holds 5 at every index. -/
def fives : Int → Nat := fun _ => 5

/-- The boundaries of the chunks `[0, 32)` and `[32, 65)`. -/
def tailCuts : Nat → Int := fun w => if w = 0 then 32 else 65

/-- The trace of four copies of `0x3FF0000000000000`, the double 1.0. -/
def fourOnes : Int → Nat := fun i => if 0 ≤ i ∧ i < 4 then 0x3FF0000000000000 else 0

/-- The boundaries of the single chunk `[0, 4)`. -/
def fourCut : Nat → Int := fun _ => 4

/-- The trace `[1, 2, 3, 1, 2, 3, 1, 2, 3]`, of period 3. -/
def period3 : Int → Nat := fun i => if 0 ≤ i ∧ i < 9 then (i % 3).toNat + 1 else 0

/-- The boundaries of the single chunk `[0, 9)`. -/
def nineCut : Nat → Int := fun _ => 9

/-! ## Named pieces of the header code -/

/-- Line 105: `if (bcount >= 3) bcount--;`, the byte count as it is stored in the header. -/
def storedCount (bcount : Int) : Int := if bcount ≥ 3 then bcount - 1 else bcount

/-! ## Named pieces of one pass of the decompression kernel -/

/-- Line 180: the header byte `dbufd[off + (lane >> 1)]`, read through a `char` into `code`. -/
def decHeader (signedChar : Bool) (dbufd : Int → Nat) (st : DecompState) (l : Nat) : Int :=
  charToInt signedChar (dbufd (st.off l + ((l >>> 1 : Nat) : Int)))

/-- Lines 179-183: `ibufs` after the even active lanes stored `code` in their own slot and
`code >> 4` in the slot of their neighbour. -/
def decCodes (signedChar : Bool) (dbufd : Int → Nat) (start term : Int) (wib k : Nat)
    (st : DecompState) : Nat → Int :=
  storeNext wib (fun l => active start term k l && decide (l &&& 1 = 0))
    (fun l => intSar (decHeader signedChar dbufd st l) 4)
    (storeLanes wib (fun l => active start term k l && decide (l &&& 1 = 0))
      (decHeader signedChar dbufd st) st.ibufs)

/-- The trace `[0x80, 0]`. -/
def highBit : Int → Nat := fun i => if i = 0 then 0x80 else 0

/-- The boundaries of the single chunk `[0, 2)`. -/
def twoCut : Nat → Int := fun _ => 2

/-- The boundaries of the single chunk `[0, 32)`. -/
def fullCut : Nat → Int := fun _ => 32

/-! ## The bytes of a full subchunk -/

/-- The header byte `j` of pass `k`: the nibble of lane `2j` in the low half and the nibble of
lane `2j+1` in the high half (lines 114-116). -/
def headerByte (D : Int) (cbufd : Int → Nat) (start : Int) (k j : Nat) : Nat :=
  toByte (intOr (headerCode (dlt D cbufd start k (2 * j)))
    (intShl (headerCode (dlt D cbufd start k (2 * j + 1))) 4))

/-- The address of the first payload byte of lane `l` in pass `k` (line 98). -/
def payloadAddr (D : Int) (cbufd : Int → Nat) (start : Int) (k l : Nat) : Int :=
  cur D cbufd start k + 16 + pre (fun x => (dlt D cbufd start k x).bcount) l

/-- The store `s` is one of the stores of the first `n` passes, all of 32 lanes: a payload
byte of a lane or a header byte of a pair of lanes. -/
def Emitted (D : Int) (cbufd : Int → Nat) (start : Int) (n : Nat) (s : Int × Nat) : Prop :=
  ∃ k, k < n ∧
    ((∃ l t : Nat, l < 32 ∧ (t : Int) < (dlt D cbufd start k l).bcount ∧
        s = (payloadAddr D cbufd start k l + (t : Int),
          ((dlt D cbufd start k l).diff >>> (8 * t)) % 256)) ∨
     (∃ j : Nat, j < 16 ∧
        s = (cur D cbufd start k + (j : Int), headerByte D cbufd start k j)))

/-! ## More named pieces of one pass of the decompression kernel -/

/-- Lines 189-190: the register `bcount` of lane `l`, decoded from its slot of `ibufs`. -/
def decCount (signedChar : Bool) (dbufd : Int → Nat) (start term : Int) (wib k : Nat)
    (st : DecompState) (l : Nat) : Int :=
  decodeCount (decCodes signedChar dbufd start term wib k st (iindex wib l))

/-- Lines 191-209: `ibufs` after the prefix sum over the byte counts. -/
def decScan (signedChar : Bool) (dbufd : Int → Nat) (start term : Int) (wib k : Nat)
    (st : DecompState) : Nat → Int :=
  scan wib (active start term k)
    (storeLanes wib (active start term k) (decCount signedChar dbufd start term wib k st)
      (decCodes signedChar dbufd start term wib k st))

/-- Lines 184 and 211: `off += WARPSIZE/2; beg = off + ibufs[iindex-1]` of lane `l`. -/
def decBeg (signedChar : Bool) (dbufd : Int → Nat) (start term : Int) (wib k : Nat)
    (st : DecompState) (l : Nat) : Int :=
  st.off l + ((WARPSIZE / 2 : Nat) : Int)
    + decScan signedChar dbufd start term wib k st (iindex wib l - 1)

/-- Lines 214-223: the register `diff` of lane `l` after the payload was read and the sign
applied. -/
def decDiff (signedChar : Bool) (dbufd : Int → Nat) (start term : Int) (wib k : Nat)
    (st : DecompState) (l : Nat) : Nat :=
  if intAnd (decCodes signedChar dbufd start term wib k st (iindex wib l)) 8 ≠ 0
  then neg64 (readPayload signedChar dbufd (decBeg signedChar dbufd start term wib k st l)
    (decCount signedChar dbufd start term wib k st l))
  else readPayload signedChar dbufd (decBeg signedChar dbufd start term wib k st l)
    (decCount signedChar dbufd start term wib k st l)
/-! ## Facts about the machine arithmetic -/

theorem iindex_eq (wib lane : Nat) : iindex wib lane = wib * 48 + lane + 16 := rfl

theorem lastidx_eq (wib : Nat) : lastidx wib = wib * 48 + 47 := by
  unfold lastidx WARPSIZE; omega

theorem active_iff (start term : Int) (k l : Nat) :
    active start term k l = true ↔ l < 32 ∧ start + (l : Int) + 32 * (k : Int) < term := by
  simp [active, WARPSIZE]

theorem active_lt {start term : Int} {k l : Nat} (h : active start term k l = true) : l < 32 :=
  ((active_iff start term k l).1 h).1

theorem active_down {start term : Int} {k l l' : Nat} (hl : l' ≤ l)
    (h : active start term k l = true) : active start term k l' = true := by
  rw [active_iff] at h ⊢
  omega

theorem pre_nonneg (b : Nat → Int) (hb : ∀ l, 0 ≤ b l) (n : Nat) : 0 ≤ pre b n := by
  induction n with
  | zero => simp [pre]
  | succ n ih => have := hb n; simp only [pre]; omega

theorem pre_le (b : Nat → Int) (c : Int) (hb : ∀ l, b l ≤ c) (n : Nat) : pre b n ≤ c * n := by
  induction n with
  | zero => simp [pre]
  | succ n ih =>
    have := hb n
    simp only [pre]
    push_cast
    linarith

theorem pre_mono (b : Nat → Int) (hb : ∀ l, 0 ≤ b l) {m n : Nat} (h : m ≤ n) :
    pre b m ≤ pre b n := by
  induction n with
  | zero => have : m = 0 := by omega
            subst this; exact le_refl _
  | succ n ih =>
    rcases Nat.lt_or_ge m (n + 1) with h1 | h1
    · have := ih (by omega)
      have := hb n
      simp only [pre]; omega
    · have : m = n + 1 := by omega
      subst this; exact le_refl _

theorem pre_congr (b c : Nat → Int) (n : Nat) (h : ∀ l, l < n → b l = c l) : pre b n = pre c n := by
  induction n with
  | zero => rfl
  | succ n ih =>
    simp only [pre]
    rw [ih (fun l hl => h l (by omega)), h n (by omega)]

/-! ## The prefix sum -/

theorem scanRound_pad (wib : Nat) (act : Nat → Bool) (s : Nat) (ib : Nat → Int) (j : Nat)
    (hj : j < iindex wib 0) : scanRound wib act s ib j = ib j := by
  unfold scanRound storeLanes
  rw [if_neg]
  omega

theorem scanRound_inactive (wib : Nat) (act : Nat → Bool) (s : Nat) (ib : Nat → Int) (l : Nat)
    (hl : act l = false) : scanRound wib act s ib (iindex wib l) = ib (iindex wib l) := by
  unfold scanRound storeLanes
  rw [if_neg]
  rintro ⟨_, _, h3⟩
  have : iindex wib l - iindex wib 0 = l := by simp [iindex_eq]
  rw [this, hl] at h3
  exact Bool.noConfusion h3

theorem scanRound_active (wib : Nat) (act : Nat → Bool) (s : Nat) (ib : Nat → Int) (l : Nat)
    (hl : act l = true) (h32 : l < 32) :
    scanRound wib act s ib (iindex wib l) = ib (iindex wib l) + ib (iindex wib l - s) := by
  unfold scanRound storeLanes
  have : iindex wib l - iindex wib 0 = l := by simp [iindex_eq]
  rw [if_pos]
  · rw [this]
  · rw [this]
    refine ⟨?_, ?_, hl⟩
    · simp [iindex_eq]
    · simpa [WARPSIZE] using h32

theorem scanRound_spec (wib : Nat) (act : Nat → Bool) (b : Nat → Int) (w : Nat) (ib : Nat → Int)
    (hw16 : w ≤ 16)
    (hlt : ∀ l, act l = true → l < 32)
    (hdown : ∀ l l', l' ≤ l → act l = true → act l' = true)
    (hpad : ∀ j, wib * 48 ≤ j → j < iindex wib 0 → ib j = 0)
    (hinv : ∀ l, act l = true → ib (iindex wib l) = pre b (l + 1) - pre b (l + 1 - w)) :
    (∀ j, wib * 48 ≤ j → j < iindex wib 0 → scanRound wib act w ib j = 0) ∧
    (∀ l, act l = true →
      scanRound wib act w ib (iindex wib l) = pre b (l + 1) - pre b (l + 1 - 2 * w)) := by
  refine ⟨fun j h1 h2 => by rw [scanRound_pad _ _ _ _ _ h2]; exact hpad j h1 h2, ?_⟩
  intro l hl
  rw [scanRound_active _ _ _ _ _ hl (hlt l hl), hinv l hl]
  rcases Nat.lt_or_ge l w with h | h
  · have h0 : ib (iindex wib l - w) = 0 := by
      apply hpad <;> simp only [iindex_eq] <;> omega
    have e1 : l + 1 - w = 0 := by omega
    have e2 : l + 1 - 2 * w = 0 := by omega
    rw [h0, e1, e2]; simp
  · have e0 : iindex wib l - w = iindex wib (l - w) := by simp only [iindex_eq]; omega
    rw [e0, hinv (l - w) (hdown l (l - w) (by omega) hl)]
    have e1 : l - w + 1 = l + 1 - w := by omega
    have e2 : l + 1 - w - w = l + 1 - 2 * w := by omega
    rw [e1, e2]; ring

/-- After the five rounds the slot of every active lane holds the inclusive prefix sum of
the values the active lanes started with, and the padding below lane 0 is still zero. -/
theorem scan_spec (wib : Nat) (act : Nat → Bool) (ib : Nat → Int)
    (hlt : ∀ l, act l = true → l < 32)
    (hdown : ∀ l l', l' ≤ l → act l = true → act l' = true)
    (hpad : ∀ j, wib * 48 ≤ j → j < iindex wib 0 → ib j = 0) :
    (∀ j, wib * 48 ≤ j → j < iindex wib 0 → scan wib act ib j = 0) ∧
    (∀ l, act l = true →
      scan wib act ib (iindex wib l) = pre (fun l => ib (iindex wib l)) (l + 1)) := by
  have r1 := scanRound_spec wib act (fun l => ib (iindex wib l)) 1 ib (by omega) hlt hdown hpad
    (fun l _ => by simp [pre])
  have r2 := scanRound_spec wib act (fun l => ib (iindex wib l)) 2 _ (by omega) hlt hdown r1.1 r1.2
  have r4 := scanRound_spec wib act (fun l => ib (iindex wib l)) 4 _ (by omega) hlt hdown r2.1 r2.2
  have r8 := scanRound_spec wib act (fun l => ib (iindex wib l)) 8 _ (by omega) hlt hdown r4.1 r4.2
  have r16 := scanRound_spec wib act (fun l => ib (iindex wib l)) 16 _ (by omega) hlt hdown
    r8.1 r8.2
  refine ⟨r16.1, fun l hl => ?_⟩
  have := r16.2 l hl
  have e : l + 1 - 2 * 16 = 0 := by have := hlt l hl; omega
  rw [e] at this
  simpa [scan, pre] using this

theorem scan_inactive (wib : Nat) (act : Nat → Bool) (ib : Nat → Int) (l : Nat)
    (hl : act l = false) : scan wib act ib (iindex wib l) = ib (iindex wib l) := by
  simp only [scan, scanRound_inactive _ _ _ _ _ hl]

/-! ## Facts about one element -/

theorem clzFrom_le (n x : Nat) : clzFrom n x ≤ n := by
  induction n with
  | zero => simp [clzFrom]
  | succ n ih =>
    unfold clzFrom
    split
    · omega
    · omega

theorem clzFrom_spec (n x : Nat) (hx : x < 2 ^ n) :
    x < 2 ^ (n - clzFrom n x) ∧ (clzFrom n x < n → 2 ^ (n - clzFrom n x - 1) ≤ x) := by
  induction n with
  | zero => simpa [clzFrom] using hx
  | succ n ih =>
    unfold clzFrom
    split
    · rename_i h
      have := ih h
      have e : n + 1 - (clzFrom n x + 1) = n - clzFrom n x := by omega
      rw [e]
      exact ⟨this.1, fun h' => this.2 (by omega)⟩
    · rename_i h
      exact ⟨by simpa using hx, fun _ => by simpa using Nat.le_of_not_lt h⟩

theorem pow256 (b : Nat) : 256 ^ b = 2 ^ (8 * b) := by
  rw [pow_mul]; norm_num

/-- The byte count of line 75 is at most `b` exactly when the magnitude fits `b` bytes. -/
theorem byteCount_le_iff (x b : Nat) (hx : x < 2 ^ 64) (hb : b ≤ 8) :
    byteCount x ≤ (b : Int) ↔ x < 256 ^ b := by
  have hs := clzFrom_spec 64 x hx
  have hc := clzFrom_le 64 x
  unfold byteCount clz
  rw [pow256, Nat.shiftRight_eq_div_pow]
  generalize clzFrom 64 x = c at hs hc
  constructor
  · intro h
    have h1 : 64 - c ≤ 8 * b := by omega
    exact lt_of_lt_of_le hs.1 (Nat.pow_le_pow_right (by norm_num) h1)
  · intro h
    rcases Nat.lt_or_ge c 64 with h64 | h64
    · have h2 := lt_of_le_of_lt (hs.2 h64) h
      have h3 : 64 - c - 1 < 8 * b := (Nat.pow_lt_pow_iff_right (by norm_num)).1 h2
      omega
    · omega

theorem byteCount_range (x : Nat) : 0 ≤ byteCount x ∧ byteCount x ≤ 8 := by
  unfold byteCount; omega

theorem sub64_lt (a b : Nat) : sub64 a b < 2 ^ 64 := Nat.mod_lt _ (by norm_num)

theorem neg64_lt (a : Nat) : neg64 a < 2 ^ 64 := Nat.mod_lt _ (by norm_num)

theorem sub64_self (a : Nat) : sub64 a a = 0 := by
  unfold sub64
  have := Nat.mod_lt a (show 0 < 2 ^ 64 by norm_num)
  have h := Nat.div_add_mod a (2 ^ 64)
  have : a + (2 ^ 64 - a % 2 ^ 64) = 2 ^ 64 * (a / 2 ^ 64 + 1) := by omega
  rw [this, Nat.mul_mod_right]

theorem sub64_zero (a : Nat) (h : a < 2 ^ 64) : sub64 a 0 = a := by
  unfold sub64
  simp
  omega

theorem signCode_cases (x : Nat) : signCode x = 0 ∨ signCode x = 8 := by
  unfold signCode
  have h : (x >>> 60) &&& 8 = 0 ∨ (x >>> 60) &&& 8 = 8 := by
    have := Nat.and_two_pow (x >>> 60) 3
    rw [show (2 : Nat) ^ 3 = 8 by norm_num] at this
    rw [this]
    cases (x >>> 60).testBit 3 <;> simp
  rcases h with h | h <;> simp [h]

theorem delta_diff_lt (v p : Nat) : (delta v p).diff < 2 ^ 64 := by
  unfold delta
  simp only
  split
  · exact neg64_lt _
  · exact sub64_lt _ _

theorem delta_code_cases (v p : Nat) : (delta v p).code = 0 ∨ (delta v p).code = 8 :=
  signCode_cases _

theorem delta_bcount_eq (v p : Nat) :
    (delta v p).bcount =
      if byteCount (delta v p).diff = 2 then 3 else byteCount (delta v p).diff := rfl

theorem delta_bcount_range (v p : Nat) : 0 ≤ (delta v p).bcount ∧ (delta v p).bcount ≤ 8 := by
  rw [delta_bcount_eq]
  have := byteCount_range (delta v p).diff
  split <;> omega

theorem delta_bcount_ne_two (v p : Nat) : (delta v p).bcount ≠ 2 := by
  rw [delta_bcount_eq]
  split <;> omega

theorem delta_self (v : Nat) : delta v v = { code := 0, diff := 0, bcount := 0 } := by
  unfold delta
  rw [sub64_self]
  decide

theorem dlt_bcount_range (D : Int) (cbufd : Int → Nat) (start : Int) (k l : Nat) :
    0 ≤ (dlt D cbufd start k l).bcount ∧ (dlt D cbufd start k l).bcount ≤ 8 :=
  delta_bcount_range _ _

/-! ## The prefix sum inside one pass -/

theorem storeLanes_pad (wib : Nat) (act : Nat → Bool) (v : Nat → Int) (ib : Nat → Int) (j : Nat)
    (hj : j < iindex wib 0) : storeLanes wib act v ib j = ib j := by
  unfold storeLanes
  rw [if_neg]
  omega

theorem storeLanes_active (wib : Nat) (act : Nat → Bool) (v : Nat → Int) (ib : Nat → Int) (l : Nat)
    (hl : act l = true) (h32 : l < 32) : storeLanes wib act v ib (iindex wib l) = v l := by
  unfold storeLanes
  have : iindex wib l - iindex wib 0 = l := by simp [iindex_eq]
  rw [if_pos]
  · rw [this]
  · rw [this]
    refine ⟨?_, ?_, hl⟩
    · simp [iindex_eq]
    · simpa [WARPSIZE] using h32

theorem storeLanes_inactive (wib : Nat) (act : Nat → Bool) (v : Nat → Int) (ib : Nat → Int)
    (l : Nat) (hl : act l = false) : storeLanes wib act v ib (iindex wib l) = ib (iindex wib l) := by
  unfold storeLanes
  rw [if_neg]
  rintro ⟨_, _, h3⟩
  have : iindex wib l - iindex wib 0 = l := by simp [iindex_eq]
  rw [this, hl] at h3
  exact Bool.noConfusion h3

/-- Inclusive prefix sum: after `ibufs[iindex] = bc` and the five rounds, the slot of an
active lane `l` holds `bc 0 + .. + bc l`. -/
theorem scan_store_incl (wib : Nat) (act : Nat → Bool) (bc : Nat → Int) (ib : Nat → Int)
    (hlt : ∀ l, act l = true → l < 32)
    (hdown : ∀ l l', l' ≤ l → act l = true → act l' = true)
    (hpad : ∀ j, wib * 48 ≤ j → j < iindex wib 0 → ib j = 0)
    (l : Nat) (hl : act l = true) :
    scan wib act (storeLanes wib act bc ib) (iindex wib l) = pre bc (l + 1) := by
  have hp : ∀ j, wib * 48 ≤ j → j < iindex wib 0 → storeLanes wib act bc ib j = 0 :=
    fun j h1 h2 => by rw [storeLanes_pad _ _ _ _ _ h2]; exact hpad j h1 h2
  rw [(scan_spec wib act _ hlt hdown hp).2 l hl]
  apply pre_congr
  intro l' hl'
  have ha := hdown l l' (by omega) hl
  exact storeLanes_active _ _ _ _ _ ha (hlt l' ha)

theorem scan_store_pad (wib : Nat) (act : Nat → Bool) (bc : Nat → Int) (ib : Nat → Int)
    (hlt : ∀ l, act l = true → l < 32)
    (hdown : ∀ l l', l' ≤ l → act l = true → act l' = true)
    (hpad : ∀ j, wib * 48 ≤ j → j < iindex wib 0 → ib j = 0)
    (j : Nat) (h1 : wib * 48 ≤ j) (h2 : j < iindex wib 0) :
    scan wib act (storeLanes wib act bc ib) j = 0 := by
  have hp : ∀ j, wib * 48 ≤ j → j < iindex wib 0 → storeLanes wib act bc ib j = 0 :=
    fun j h1 h2 => by rw [storeLanes_pad _ _ _ _ _ h2]; exact hpad j h1 h2
  exact (scan_spec wib act _ hlt hdown hp).1 j h1 h2

/-- Exclusive prefix sum: the slot below the one of an active lane `l` holds
`bc 0 + .. + bc (l-1)`; for lane 0 it is the zero padding. -/
theorem scan_store_excl (wib : Nat) (act : Nat → Bool) (bc : Nat → Int) (ib : Nat → Int)
    (hlt : ∀ l, act l = true → l < 32)
    (hdown : ∀ l l', l' ≤ l → act l = true → act l' = true)
    (hpad : ∀ j, wib * 48 ≤ j → j < iindex wib 0 → ib j = 0)
    (l : Nat) (hl : act l = true) :
    scan wib act (storeLanes wib act bc ib) (iindex wib l - 1) = pre bc l := by
  rcases Nat.eq_zero_or_pos l with h0 | h0
  · subst h0
    rw [scan_store_pad wib act bc ib hlt hdown hpad]
    · rfl
    · simp only [iindex_eq]; omega
    · simp only [iindex_eq]; omega
  · have e : iindex wib l - 1 = iindex wib (l - 1) := by simp only [iindex_eq]; omega
    rw [e, scan_store_incl wib act bc ib hlt hdown hpad (l - 1) (hdown l (l - 1) (by omega) hl)]
    have : l - 1 + 1 = l := by omega
    rw [this]

theorem scan_store_last (wib : Nat) (act : Nat → Bool) (bc : Nat → Int) (ib : Nat → Int)
    (hlt : ∀ l, act l = true → l < 32)
    (hdown : ∀ l l', l' ≤ l → act l = true → act l' = true)
    (hpad : ∀ j, wib * 48 ≤ j → j < iindex wib 0 → ib j = 0)
    (h31 : act 31 = true) :
    scan wib act (storeLanes wib act bc ib) (lastidx wib) = pre bc 32 := by
  have e : lastidx wib = iindex wib 31 := by rw [lastidx_eq, iindex_eq]
  rw [e, scan_store_incl wib act bc ib hlt hdown hpad 31 h31]

theorem scan_store_last_inactive (wib : Nat) (act : Nat → Bool) (bc : Nat → Int) (ib : Nat → Int)
    (h31 : act 31 = false) :
    scan wib act (storeLanes wib act bc ib) (lastidx wib) = ib (lastidx wib) := by
  have e : lastidx wib = iindex wib 31 := by rw [lastidx_eq, iindex_eq]
  rw [e, scan_inactive _ _ _ _ h31, storeLanes_inactive _ _ _ _ _ h31]

/-! ## Runs of the compression kernel -/

theorem compRun_zero (D : Int) (cbufd : Int → Nat) (start term : Int) (wib : Nat)
    (st : CompState) : compRun D cbufd start term wib 0 st = st := rfl

theorem compRun_succ (D : Int) (cbufd : Int → Nat) (start term : Int) (wib n : Nat)
    (st : CompState) :
    compRun D cbufd start term wib (n + 1) st =
      compPass D cbufd start term wib n (compRun D cbufd start term wib n st) := by
  simp [compRun, List.range_succ, List.foldl_append]

theorem clearScratch_pad (wib : Nat) (ibufs : Nat → Int) (j : Nat) (h1 : wib * 48 ≤ j)
    (h2 : j < iindex wib 0) : clearScratch wib ibufs j = 0 := by
  unfold clearScratch
  rw [if_pos]
  rw [iindex_eq] at h2
  simp only [WARPSIZE]
  omega

theorem tot_eq (D : Int) (cbufd : Int → Nat) (start : Int) (k : Nat) :
    tot D cbufd start k = pre (fun l => (dlt D cbufd start k l).bcount) 32 := rfl

/-- The state of a warp after `k` passes in which all 32 lanes were active. -/
theorem compRun_full (D : Int) (cbufd : Int → Nat) (start term : Int) (wib : Nat)
    (ibufs : Nat → Int) (k : Nat) (hk : start + 32 * (k : Int) ≤ term) :
    (∀ l, l < 32 →
      (compRun D cbufd start term wib k (compInit start wib ibufs)).off l = cur D cbufd start k) ∧
    (∀ l, l < 32 →
      (compRun D cbufd start term wib k (compInit start wib ibufs)).prev l
        = pred D cbufd start k l) ∧
    (∀ j, wib * 48 ≤ j → j < iindex wib 0 →
      (compRun D cbufd start term wib k (compInit start wib ibufs)).ibufs j = 0) := by
  induction k with
  | zero =>
    refine ⟨fun l _ => rfl, fun l _ => rfl, fun j h1 h2 => ?_⟩
    exact clearScratch_pad wib ibufs j h1 h2
  | succ k ih =>
    have ih := ih (by push_cast at hk; omega)
    obtain ⟨ihoff, ihprev, ihpad⟩ := ih
    have hact : ∀ l, l < 32 → active start term k l = true := by
      intro l hl
      rw [active_iff]
      push_cast at hk
      omega
    rw [compRun_succ]
    generalize compRun D cbufd start term wib k (compInit start wib ibufs) = st at *
    refine ⟨fun l hl => ?_, fun l hl => ?_, fun j h1 h2 => ?_⟩
    · simp only [compPass]
      rw [if_pos (hact l hl), ihoff l hl]
      unfold passTmp passScan
      rw [scan_store_last wib _ _ _ (fun l h => active_lt h)
        (fun l l' h h' => active_down h h') ihpad (hact 31 (by norm_num))]
      have e : pre (fun l => (passDelta cbufd start k st l).bcount) 32 = tot D cbufd start k := by
        rw [tot_eq]
        apply pre_congr
        intro l' hl'
        simp only [dlt, passDelta, ihprev l' hl']
      rw [e]
      rfl
    · simp only [compPass]
      rw [if_pos (hact l hl)]
      simp [pred]
    · simp only [compPass]
      unfold passCodes passScan
      rw [storeLanes_pad _ _ _ _ _ h2]
      exact scan_store_pad wib _ _ _ (fun l h => active_lt h)
        (fun l l' h h' => active_down h h') ihpad j h1 h2

/-! ## Where one pass stores -/

theorem tot_range (D : Int) (cbufd : Int → Nat) (start : Int) (k : Nat) :
    0 ≤ tot D cbufd start k ∧ tot D cbufd start k ≤ 256 := by
  rw [tot_eq]
  constructor
  · exact pre_nonneg _ (fun l => (dlt_bcount_range D cbufd start k l).1) 32
  · have := pre_le _ 8 (fun l => (dlt_bcount_range D cbufd start k l).2) 32
    norm_num at this
    exact this

theorem cur_succ (D : Int) (cbufd : Int → Nat) (start : Int) (k : Nat) :
    cur D cbufd start (k + 1) = cur D cbufd start k + (tot D cbufd start k + 16) := rfl

theorem cur_range (D : Int) (cbufd : Int → Nat) (start : Int) (k : Nat) :
    startOff start + 16 * (k : Int) ≤ cur D cbufd start k ∧
      cur D cbufd start k ≤ startOff start + 272 * (k : Int) := by
  induction k with
  | zero => simp [cur]
  | succ k ih =>
    have := tot_range D cbufd start k
    rw [cur_succ]
    push_cast
    omega

theorem mem_payloadStores {beg : Int} {diff : Nat} {bcount : Int} {s : Int × Nat}
    (h : s ∈ payloadStores beg diff bcount) :
    ∃ t : Nat, (t : Int) < bcount ∧ s = (beg + (t : Int), (diff >>> (8 * t)) % 256) := by
  unfold payloadStores at h
  rw [List.mem_map] at h
  obtain ⟨t, ht, rfl⟩ := h
  rw [List.mem_range] at ht
  exact ⟨t, by omega, rfl⟩

theorem mem_passPayload {act : Nat → Bool} {beg : Nat → Int} {d : Nat → Delta} {s : Int × Nat}
    (h : s ∈ passPayload act beg d) :
    ∃ l t : Nat, act l = true ∧ (t : Int) < (d l).bcount ∧
      s = (beg l + (t : Int), ((d l).diff >>> (8 * t)) % 256) := by
  unfold passPayload at h
  rw [List.mem_flatMap] at h
  obtain ⟨l, _, hl⟩ := h
  split at hl
  · rename_i ha
    obtain ⟨t, ht, rfl⟩ := mem_payloadStores hl
    exact ⟨l, t, ha, ht, rfl⟩
  · simp at hl

theorem mem_passHeader {act : Nat → Bool} {off : Nat → Int} {code : Nat → Int}
    {ibufs : Nat → Int} {wib : Nat} {s : Int × Nat}
    (h : s ∈ passHeader act off code ibufs wib) :
    ∃ l : Nat, act l = true ∧ l &&& 1 ≠ 0 ∧ s.1 = off l + ((l >>> 1 : Nat) : Int) := by
  unfold passHeader at h
  rw [List.mem_flatMap] at h
  obtain ⟨l, _, hl⟩ := h
  split at hl
  · rename_i ha
    simp only [List.mem_singleton] at hl
    exact ⟨l, ha.1, ha.2, by rw [hl]⟩
  · simp at hl

/-- The payload position of lane `l` in a pass whose active lanes share the cursor `c`. -/
theorem passBeg_eq (cbufd : Int → Nat) (start term : Int) (wib k : Nat) (st : CompState)
    (c : Int) (hoff : ∀ l, active start term k l = true → st.off l = c)
    (hpad : ∀ j, wib * 48 ≤ j → j < iindex wib 0 → st.ibufs j = 0)
    (l : Nat) (hl : active start term k l = true) :
    passBeg cbufd start term wib k st l
      = c + 16 + pre (fun l => (passDelta cbufd start k st l).bcount) l := by
  unfold passBeg passScan
  rw [scan_store_excl wib _ _ _ (fun l h => active_lt h) (fun l l' h h' => active_down h h')
    hpad l hl, hoff l hl]
  rfl

/-- Every store of a pass goes to the 272 bytes that start at the cursor. -/
theorem compPass_stores_range (D : Int) (cbufd : Int → Nat) (start term : Int) (wib k : Nat)
    (st : CompState) (c : Int) (hoff : ∀ l, active start term k l = true → st.off l = c)
    (hpad : ∀ j, wib * 48 ≤ j → j < iindex wib 0 → st.ibufs j = 0)
    (s : Int × Nat) (hs : s ∈ (compPass D cbufd start term wib k st).stores) :
    s ∈ st.stores ∨ (c ≤ s.1 ∧ s.1 < c + 272) := by
  simp only [compPass, List.mem_append] at hs
  rcases hs with (hs | hs) | hs
  · exact Or.inl hs
  · right
    obtain ⟨l, t, hl, ht, rfl⟩ := mem_passPayload hs
    rw [passBeg_eq cbufd start term wib k st c hoff hpad l hl]
    have h32 := active_lt hl
    have hnn := pre_nonneg (fun l => (passDelta cbufd start k st l).bcount)
      (fun l => (delta_bcount_range _ _).1) l
    have hle := pre_le (fun l => (passDelta cbufd start k st l).bcount) 8
      (fun l => (delta_bcount_range _ _).2) l
    have hb := (delta_bcount_range (cbufd (laneIndex start k l)) (st.prev l)).2
    simp only [passDelta] at ht hnn hle ⊢
    constructor
    · omega
    · omega
  · right
    obtain ⟨l, hl, _, e⟩ := mem_passHeader hs
    rw [e, hoff l hl]
    have h32 := active_lt hl
    have : l >>> 1 < 16 := by
      rw [Nat.shiftRight_eq_div_pow]; omega
    omega

theorem lt_numPasses {start term : Int} {k : Nat} (h : k < numPasses start term) :
    start + 32 * (k : Int) < term := by
  unfold numPasses at h
  omega

theorem numPasses_cast (start term : Int) (h : start ≤ term) :
    ((numPasses start term : Nat) : Int) = (term - start + 31) / 32 := by
  unfold numPasses
  omega

/-- Every store of the first `n` passes goes to the 272 bytes of one of them. -/
theorem compRun_stores_range (D : Int) (cbufd : Int → Nat) (start term : Int) (wib : Nat)
    (ibufs : Nat → Int) (n : Nat) (hn : n ≤ numPasses start term)
    (s : Int × Nat) (hs : s ∈ (compRun D cbufd start term wib n (compInit start wib ibufs)).stores) :
    ∃ k, k < n ∧ cur D cbufd start k ≤ s.1 ∧ s.1 < cur D cbufd start k + 272 := by
  induction n with
  | zero => simp [compRun_zero, compInit] at hs
  | succ n ih =>
    rw [compRun_succ] at hs
    have hlt : start + 32 * (n : Int) < term := lt_numPasses (by omega)
    obtain ⟨hoff, _, hpad⟩ := compRun_full D cbufd start term wib ibufs n (by omega)
    rcases compPass_stores_range D cbufd start term wib n _ (cur D cbufd start n)
      (fun l hl => hoff l (active_lt hl)) hpad s hs with h | h
    · obtain ⟨k, hk, hr⟩ := ih (by omega) h
      exact ⟨k, by omega, hr⟩
    · exact ⟨n, by omega, h⟩

/-- Every store of a warp goes to `[startOff start, startOff start + 272 * passes)`. -/
theorem kernel_stores_range (D : Int) (cbufd : Int → Nat) (cutd : Nat → Int) (wib warp : Nat)
    (ibufs : Nat → Int) (s : Int × Nat)
    (hs : s ∈ (CompressionKernel D cbufd cutd wib warp ibufs).stores) :
    startOff (chunkStart cutd warp) ≤ s.1 ∧
      s.1 < startOff (chunkStart cutd warp)
        + 272 * (numPasses (chunkStart cutd warp) (chunkTerm cutd warp) : Int) := by
  obtain ⟨k, hk, h1, h2⟩ := compRun_stores_range D cbufd _ _ wib ibufs _ (le_refl _) s hs
  have := cur_range D cbufd (chunkStart cutd warp) k
  constructor
  · omega
  · have : (k : Int) + 1 ≤ (numPasses (chunkStart cutd warp) (chunkTerm cutd warp) : Int) := by
      exact_mod_cast hk
    omega

/-! ## Chunk layout -/

theorem startOff_eq (start : Int) (h : 0 ≤ start) : startOff start = (start + 1) / 2 * 17 := by
  unfold startOff
  rw [Int.tdiv_eq_ediv (by omega) (by norm_num)]

theorem chunkStart_succ (cutd : Nat → Int) (w : Nat) : chunkStart cutd (w + 1) = cutd w := by
  simp [chunkStart]

/-- A non-decreasing chunking that starts at 0 has `0 ≤ start ≤ term` in every chunk. -/
theorem chunk_valid (cutd : Nat → Int) (nwarps : Nat) (h0 : 0 ≤ cutd 0)
    (hmono : ∀ j, j + 1 < nwarps → cutd j ≤ cutd (j + 1)) (w : Nat) (hw : w < nwarps) :
    0 ≤ chunkStart cutd w ∧ chunkStart cutd w ≤ chunkTerm cutd w := by
  have hnn : ∀ j, j < nwarps → 0 ≤ cutd j := by
    intro j
    induction j with
    | zero => intro _; exact h0
    | succ j ih => intro hj; have := ih (by omega); have := hmono j hj; omega
  cases w with
  | zero => simpa [chunkStart, chunkTerm] using h0
  | succ w =>
    rw [chunkStart_succ]
    exact ⟨hnn w (by omega), hmono w hw⟩

theorem startOff_mono (a b : Int) (ha : 0 ≤ a) (hab : a ≤ b) : startOff a ≤ startOff b := by
  rw [startOff_eq a ha, startOff_eq b (by omega)]
  omega

/-- The cursor of the next chunk is at most 272 bytes per pass above the one of this chunk. -/
theorem startOff_term_le (start term : Int) (h0 : 0 ≤ start) (hle : start ≤ term) :
    startOff term ≤ startOff start + (term - start + 31) / 32 * 272 := by
  rw [startOff_eq start h0, startOff_eq term (by omega)]
  omega

theorem worstCase_succ (cutd : Nat → Int) (n : Nat) :
    worstCase cutd (n + 1)
      = worstCase cutd n + (chunkTerm cutd n - chunkStart cutd n + 31) / 32 * 272 := rfl

theorem startOff_le_worstCase (cutd : Nat → Int) (nwarps : Nat) (h0 : 0 ≤ cutd 0)
    (hmono : ∀ j, j + 1 < nwarps → cutd j ≤ cutd (j + 1)) (w : Nat) (hw : w < nwarps) :
    startOff (chunkStart cutd w) ≤ worstCase cutd w := by
  induction w with
  | zero =>
    have e0 : chunkStart cutd 0 = 0 := rfl
    have e : startOff (chunkStart cutd 0) = 0 := by rw [e0]; decide
    rw [e]; exact le_refl _
  | succ w ih =>
    have ih := ih (by omega)
    have hv := chunk_valid cutd nwarps h0 hmono w (by omega)
    have := startOff_term_le _ _ hv.1 hv.2
    rw [chunkStart_succ, worstCase_succ]
    unfold chunkTerm at this ⊢
    omega

theorem worstCase_mono (cutd : Nat → Int) (nwarps : Nat) (h0 : 0 ≤ cutd 0)
    (hmono : ∀ j, j + 1 < nwarps → cutd j ≤ cutd (j + 1)) (w : Nat) (hw : w ≤ nwarps) :
    worstCase cutd w ≤ worstCase cutd nwarps := by
  induction nwarps with
  | zero => have : w = 0 := by omega
            subst this; exact le_refl _
  | succ n ih =>
    rcases Nat.lt_or_ge w (n + 1) with h | h
    · have ih := ih (fun j hj => hmono j (by omega)) (by omega)
      have hv := chunk_valid cutd (n + 1) h0 hmono n (by omega)
      rw [worstCase_succ]
      have : 0 ≤ (chunkTerm cutd n - chunkStart cutd n + 31) / 32 := by omega
      omega
    · have : w = n + 1 := by omega
      subst this; exact le_refl _

/-- The `off` of lane 31 when it leaves the loop: the cursor after the passes in which all
32 lanes were active.  A last pass with fewer active lanes does not change it. -/
theorem offdEntry_eq (D : Int) (cbufd : Int → Nat) (cutd : Nat → Int) (wib warp : Nat)
    (ibufs : Nat → Int) (hle : chunkStart cutd warp ≤ chunkTerm cutd warp) :
    offdEntry D cbufd cutd wib warp ibufs
      = cur D cbufd (chunkStart cutd warp)
          ((chunkTerm cutd warp - chunkStart cutd warp) / 32).toNat := by
  unfold offdEntry CompressionKernel
  simp only
  generalize chunkStart cutd warp = start at *
  generalize chunkTerm cutd warp = term at *
  have hfull := compRun_full D cbufd start term wib ibufs ((term - start) / 32).toNat (by omega)
  rcases Nat.lt_or_ge ((term - start) / 32).toNat (numPasses start term) with h | h
  · have e : numPasses start term = ((term - start) / 32).toNat + 1 := by
      unfold numPasses at h ⊢; omega
    rw [e, compRun_succ]
    simp only [compPass]
    rw [if_neg]
    · exact hfull.1 31 (by norm_num)
    · rw [active_iff]; omega
  · have e : numPasses start term = ((term - start) / 32).toNat := by
      unfold numPasses at h ⊢; omega
    rw [e]
    exact hfull.1 31 (by norm_num)

/-- The entry of a chunk lies between its own cursor and the cursor of the next chunk. -/
theorem offdEntry_range (D : Int) (cbufd : Int → Nat) (cutd : Nat → Int) (wib warp : Nat)
    (ibufs : Nat → Int) (h0 : 0 ≤ chunkStart cutd warp)
    (hle : chunkStart cutd warp ≤ chunkTerm cutd warp) :
    startOff (chunkStart cutd warp) ≤ offdEntry D cbufd cutd wib warp ibufs ∧
      offdEntry D cbufd cutd wib warp ibufs ≤ startOff (chunkTerm cutd warp) := by
  rw [offdEntry_eq D cbufd cutd wib warp ibufs hle]
  have hc := cur_range D cbufd (chunkStart cutd warp)
    ((chunkTerm cutd warp - chunkStart cutd warp) / 32).toNat
  rw [startOff_eq _ h0] at hc ⊢
  rw [startOff_eq (chunkTerm cutd warp) (by omega)]
  omega

/-! ## The range of the `int` cursors -/

theorem numPasses_empty (start term : Int) (h : term ≤ start) : numPasses start term = 0 := by
  unfold numPasses
  omega

theorem MAX_eq : MAX = 67108864 := by decide

/-- For a chunk start within `±MAX` the start cursor lies well inside the `int` range. -/
theorem startOff_bound (a : Int) (h1 : -MAX ≤ a) (h2 : a ≤ MAX) :
    -570425344 ≤ startOff a ∧ startOff a ≤ 570425344 := by
  rw [MAX_eq] at h1 h2
  unfold startOff
  by_cases h : 0 ≤ a + 1
  · rw [Int.tdiv_eq_ediv h (by norm_num)]
    omega
  · have e : Int.tdiv (a + 1) 2 = -((-(a + 1)) / 2) := by
      rw [← Int.tdiv_eq_ediv (by omega) (by norm_num), Int.neg_tdiv, neg_neg]
    rw [e]
    omega

/-- For boundaries within `±MAX` every store of a chunk, and with it every cursor up to the
last store, has an index inside the `int` range. -/
theorem kernel_stores_fit (D : Int) (cbufd : Int → Nat) (cutd : Nat → Int) (wib warp : Nat)
    (ibufs : Nat → Int)
    (hs1 : -MAX ≤ chunkStart cutd warp) (hs2 : chunkStart cutd warp ≤ MAX)
    (ht1 : -MAX ≤ chunkTerm cutd warp) (ht2 : chunkTerm cutd warp ≤ MAX)
    (s : Int × Nat) (hs : s ∈ (CompressionKernel D cbufd cutd wib warp ibufs).stores) :
    -570425344 ≤ s.1 ∧ s.1 < 1711276032 := by
  have hr := kernel_stores_range D cbufd cutd wib warp ibufs s hs
  have hb := startOff_bound _ hs1 hs2
  rw [MAX_eq] at hs1 hs2 ht1 ht2
  by_cases hle : chunkStart cutd warp ≤ chunkTerm cutd warp
  · rw [numPasses_cast _ _ hle] at hr
    omega
  · have hn := numPasses_empty (chunkStart cutd warp) (chunkTerm cutd warp) (by omega)
    rw [hn] at hr
    omega

/-! ## Claims about the layout of the compressed buffer -/

/-- C2: for every trace, every dimensionality `D ≥ 1` and every non-decreasing chunking that
starts at 0 and has its boundaries up to `MAX` (the largest trace of the program, which keeps
the `int` cursors from overflowing), every index of `dbufd` that `CompressionKernel` stores to
(payload and header bytes, of every chunk) is non-negative and smaller than the worst-case
size, the sum over the chunks of `chunk_length / 32` rounded up times `16 + 8 * 32`; it is
also smaller than `2 ^ 31`, so that the cursors of the code are those of the embedding. -/
theorem worst_case_no_overrun (D : Int) (cbufd : Int → Nat) (cutd : Nat → Int)
    (nwarps wib warp : Nat) (ibufs : Nat → Int) (hD : 1 ≤ D) (h0 : 0 ≤ cutd 0)
    (hmono : ∀ j, j + 1 < nwarps → cutd j ≤ cutd (j + 1))
    (hmax : ∀ j, j < nwarps → cutd j ≤ MAX) (hw : warp < nwarps)
    (s : Int × Nat) (hs : s ∈ (CompressionKernel D cbufd cutd wib warp ibufs).stores) :
    0 ≤ s.1 ∧ s.1 < worstCase cutd nwarps ∧ s.1 < 2 ^ 31 := by
  have _ := hD
  have hr := kernel_stores_range D cbufd cutd wib warp ibufs s hs
  have hv := chunk_valid cutd nwarps h0 hmono warp hw
  have h1 := startOff_le_worstCase cutd nwarps h0 hmono warp hw
  have h2 := worstCase_mono cutd nwarps h0 hmono (warp + 1) (by omega)
  rw [worstCase_succ] at h2
  rw [numPasses_cast _ _ hv.2] at hr
  have h3 : 0 ≤ startOff (chunkStart cutd warp) := by
    rw [startOff_eq _ hv.1]; omega
  have ht : chunkTerm cutd warp ≤ MAX := hmax warp hw
  have hM := MAX_eq
  have hfit := kernel_stores_fit D cbufd cutd wib warp ibufs (by omega) (by omega) (by omega) ht
    s hs
  refine ⟨by omega, by omega, ?_⟩
  have : (2 : Int) ^ 31 = 2147483648 := by norm_num
  omega

theorem pairCuts_mono : ∀ j, j + 1 < 2 → pairCuts j ≤ pairCuts (j + 1) := by
  intro j hj
  have : j = 0 := by omega
  subst this
  decide

theorem pairCuts_le_MAX : ∀ j, j < 2 → pairCuts j ≤ MAX := by
  intro j hj
  have : j = 0 ∨ j = 1 := by omega
  rcases this with rfl | rfl <;> decide

/-- C2, at the chunks `[0, 2)` and `[2, 4)` of `[0x010203, 0, 5, 7]`: the store to index 17
made for the first chunk is below the worst-case size 544. -/
theorem worst_case_no_overrun_witness :
    (0 : Int) ≤ ((17, 2) : Int × Nat).1 ∧ ((17, 2) : Int × Nat).1 < worstCase pairCuts 2 ∧
      ((17, 2) : Int × Nat).1 < 2 ^ 31 :=
  worst_case_no_overrun 1 pairTrace pairCuts 2 0 0 zeroScratch (by decide) (by decide)
    pairCuts_mono pairCuts_le_MAX (by decide) (17, 2) (by decide)

set_option maxRecDepth 100000 in
/-- C3, at the chunks `[0, 2)` and `[2, 4)` of `[0x010203, 0, 5, 7]`, a non-decreasing
chunking of a trace of four words, with `D = 1`: for the first chunk the kernel stores the
payload bytes 3, 2, 1 at the indices 16, 17, 18 and the header byte at index 0; the indices 17
and 18 are not below the cursor `((2+1)/2)*17 = 17` of the second chunk, and the second chunk
stores its header byte `0x11` at index 17 as well: the regions of the two chunks are not
disjoint. -/
theorem chunk_region_overlap :
    (CompressionKernel 1 pairTrace pairCuts 0 0 zeroScratch).stores
      = [(16, 3), (17, 2), (18, 1), (0, 2)] ∧
    (CompressionKernel 1 pairTrace pairCuts 0 1 zeroScratch).stores
      = [(33, 5), (34, 7), (17, 0x11)] ∧
    startOff (chunkTerm pairCuts 0) = 17 ∧ startOff (chunkStart pairCuts 1) = 17 ∧
    (∃ s ∈ (CompressionKernel 1 pairTrace pairCuts 0 0 zeroScratch).stores,
        ¬ s.1 < startOff (chunkTerm pairCuts 0)) ∧
    (∃ s ∈ (CompressionKernel 1 pairTrace pairCuts 0 0 zeroScratch).stores,
      ∃ s' ∈ (CompressionKernel 1 pairTrace pairCuts 0 1 zeroScratch).stores, s.1 = s'.1) := by
  decide

/-- C5: for every trace, every dimensionality and every non-decreasing sequence of chunk
boundaries that starts at 0 and stays up to `MAX` (the largest trace of the program, which
keeps the `int` cursors from overflowing), the entries that `CompressionKernel` stores in the
offset table are non-decreasing: `offd[k] ≤ offd[k+1]` for consecutive chunks; both entries
lie in `[0, 2 ^ 31)`, so that the entries of the code are those of the embedding. -/
theorem offd_monotone (D : Int) (cbufd : Int → Nat) (cutd : Nat → Int)
    (nwarps wib wib' warp : Nat) (ibufs ibufs' : Nat → Int) (h0 : 0 ≤ cutd 0)
    (hmono : ∀ j, j + 1 < nwarps → cutd j ≤ cutd (j + 1))
    (hmax : ∀ j, j < nwarps → cutd j ≤ MAX) (hw : warp + 1 < nwarps) :
    offdEntry D cbufd cutd wib warp ibufs ≤ offdEntry D cbufd cutd wib' (warp + 1) ibufs' ∧
    0 ≤ offdEntry D cbufd cutd wib warp ibufs ∧
    offdEntry D cbufd cutd wib' (warp + 1) ibufs' < 2 ^ 31 := by
  have hv := chunk_valid cutd nwarps h0 hmono warp (by omega)
  have hv' := chunk_valid cutd nwarps h0 hmono (warp + 1) hw
  have h1 := offdEntry_range D cbufd cutd wib warp ibufs hv.1 hv.2
  have h2 := offdEntry_range D cbufd cutd wib' (warp + 1) ibufs' hv'.1 hv'.2
  have ht : chunkTerm cutd (warp + 1) ≤ MAX := hmax (warp + 1) hw
  have hM := MAX_eq
  have hb := startOff_bound (chunkTerm cutd (warp + 1)) (by omega) ht
  have h3 : 0 ≤ startOff (chunkStart cutd warp) := by
    rw [startOff_eq _ hv.1]; omega
  have : (2 : Int) ^ 31 = 2147483648 := by norm_num
  rw [chunkStart_succ] at h2
  unfold chunkTerm at h1
  refine ⟨by omega, by omega, by omega⟩

/-- C5, at the chunks `[0, 2)` and `[2, 4)` of `[0x010203, 0, 5, 7]`. -/
theorem offd_monotone_witness :
    offdEntry 1 pairTrace pairCuts 0 0 zeroScratch ≤ offdEntry 1 pairTrace pairCuts 0 1 zeroScratch ∧
    0 ≤ offdEntry 1 pairTrace pairCuts 0 0 zeroScratch ∧
    offdEntry 1 pairTrace pairCuts 0 1 zeroScratch < 2 ^ 31 :=
  offd_monotone 1 pairTrace pairCuts 2 0 0 0 zeroScratch zeroScratch (by decide)
    pairCuts_mono pairCuts_le_MAX (by decide)

/-! ## Claims about the prediction -/

theorem offset_eq (D : Int) (l : Nat) (hD : 1 ≤ D) :
    offset D l = 32 - D + (l : Int) % D - (l : Int) := by
  unfold offset
  rw [Int.tmod_eq_emod (by omega) (by omega)]
  simp only [WARPSIZE]
  push_cast
  ring

theorem laneIndex_eq (start : Int) (k l : Nat) :
    laneIndex start k l = start + (l : Int) + 32 * (k : Int) := rfl

/-- The word fetched by line 121 for the next pass. -/
theorem pred_succ (D : Int) (cbufd : Int → Nat) (start : Int) (k l : Nat) (hD : 1 ≤ D) :
    pred D cbufd start (k + 1) l
      = cbufd (start + 32 * ((k : Int) + 1) + (l : Int) % D - D) := by
  unfold pred
  rw [if_neg (by omega)]
  congr 1
  rw [offset_eq D l hD, laneIndex_eq]
  have : ((k + 1 - 1 : Nat) : Int) = (k : Int) := by simp
  rw [this]
  ring

/-- Walking down a channel: if every sample on the way equals the one `d` positions
earlier, the sample of lane `l` equals the one below lane `l % d`. -/
theorem periodic_chain (d : Nat) (hd : 1 ≤ d) (c : Int → Nat) (base : Int) (l : Nat)
    (H : ∀ l', l' ≤ l → l' % d = l % d → c (base + (l' : Int)) = c (base + (l' : Int) - (d : Int))) :
    c (base + (l : Int)) = c (base + ((l % d : Nat) : Int) - (d : Int)) := by
  induction l using Nat.strong_induction_on with
  | _ l ih =>
    rcases Nat.lt_or_ge l d with h | h
    · rw [Nat.mod_eq_of_lt h]
      exact H l (le_refl _) rfl
    · have hm : (l - d) % d = l % d := by
        conv_rhs => rw [show l = l - d + d by omega]
        simp
      have h1 := H l (le_refl _) rfl
      have h2 := ih (l - d) (by omega) (fun l' hl' hmod => H l' (by omega) (by omega))
      rw [h1, ← hm, ← h2]
      congr 1
      omega

/-- The prediction of an element of a later pass is the element itself when every sample on
its channel, from the element down to lane `l % D` of its subchunk, equals the sample `D`
positions earlier. -/
theorem pred_eq_self (D : Int) (cbufd : Int → Nat) (start : Int) (k l : Nat) (hD : 1 ≤ D)
    (H : ∀ l', l' ≤ l → (l' : Int) % D = (l : Int) % D →
      cbufd (laneIndex start (k + 1) l') = cbufd (laneIndex start (k + 1) l' - D)) :
    pred D cbufd start (k + 1) l = cbufd (laneIndex start (k + 1) l) := by
  rw [pred_succ D cbufd start k l hD]
  obtain ⟨d, rfl⟩ := Int.eq_ofNat_of_zero_le (show 0 ≤ D by omega)
  have hd : 1 ≤ d := by omega
  have hc := periodic_chain d hd cbufd (start + 32 * ((k : Int) + 1)) l (by
    intro l' hl' hmod
    have := H l' hl' (by exact_mod_cast congrArg (fun n : Nat => (n : Int)) hmod)
    rw [laneIndex_eq] at this
    push_cast at this
    rw [show start + 32 * ((k : Int) + 1) + (l' : Int) = start + (l' : Int) + 32 * ((k : Int) + 1) by ring]
    exact this)
  rw [laneIndex_eq]
  push_cast
  rw [show start + (l : Int) + 32 * ((k : Int) + 1) = start + 32 * ((k : Int) + 1) + (l : Int) by ring,
    hc]
  congr 1

theorem pre_zero (b : Nat → Int) (n : Nat) (h : ∀ l, l < n → b l = 0) : pre b n = 0 := by
  induction n with
  | zero => rfl
  | succ n ih =>
    simp only [pre]
    rw [ih (fun l hl => h l (by omega)), h n (by omega)]
    rfl

theorem zeroDelta_header : headerCode { code := 0, diff := 0, bcount := 0 } = 0 := by decide

theorem active_full {start term : Int} {k : Nat} (h : active start term k 31 = true) :
    start + 32 * ((k : Int) + 1) ≤ term := by
  rw [active_iff] at h
  omega

/-- In a pass after the first, a lane whose channel repeats with period `D` inside the
subchunk finds its own value in `prev`, so its delta is zero. -/
theorem passDelta_zero (D : Int) (cbufd : Int → Nat) (start term : Int) (wib : Nat)
    (ibufs : Nat → Int) (k l : Nat) (hD : 1 ≤ D) (hl : active start term (k + 1) l = true)
    (H : ∀ l', l' ≤ l → (l' : Int) % D = (l : Int) % D →
      cbufd (laneIndex start (k + 1) l') = cbufd (laneIndex start (k + 1) l' - D)) :
    passDelta cbufd start (k + 1)
      (compRun D cbufd start term wib (k + 1) (compInit start wib ibufs)) l
      = { code := 0, diff := 0, bcount := 0 } := by
  have hlt := active_lt hl
  have hk : start + 32 * ((k + 1 : Nat) : Int) ≤ term := by
    rw [active_iff] at hl
    push_cast at hl ⊢
    omega
  have hfull := compRun_full D cbufd start term wib ibufs (k + 1) hk
  unfold passDelta
  rw [hfull.2.1 l hlt, pred_eq_self D cbufd start k l hD H]
  exact delta_self _

/-- C7, as stated, fails: in the chunk `[32, 65)` of the constant trace, `D = 1`, every sample
equals the one before it, and the second subchunk is the single element 64.  Lane 0 adds
`tmp + 16` to its cursor, where `tmp = ibufs[lastidx]` is the header code 1 that lane 31 left
there in the first subchunk: the cursor advances by 17, not by 16. -/
theorem zero_delta_tail_cursor :
    (∀ i : Int, fives i = fives (i - 1)) ∧
    active (chunkStart tailCuts 1) (chunkTerm tailCuts 1) 1 0 = true ∧
    (compRun 1 fives (chunkStart tailCuts 1) (chunkTerm tailCuts 1) 0 2
        (compInit (chunkStart tailCuts 1) 0 zeroScratch)).off 0
      = (compRun 1 fives (chunkStart tailCuts 1) (chunkTerm tailCuts 1) 0 1
        (compInit (chunkStart tailCuts 1) 0 zeroScratch)).off 0 + 17 := by
  refine ⟨fun _ => rfl, ?_, ?_⟩
  · decide
  · decide

/-- C7, amended: for `1 ≤ D ≤ 32`, every chunk and every subchunk of it after the first, if
every sample of that subchunk equals the value `D` positions earlier, then every element of
the subchunk gets delta 0, byte count 0 and header nibble 0 and no payload byte is stored for
it; and when the subchunk is full (all 32 lanes active) the cursor of every lane advances by
exactly 16. -/
theorem zero_delta_subchunk (D : Int) (cbufd : Int → Nat) (start term : Int) (wib : Nat)
    (ibufs : Nat → Int) (k : Nat) (hD : 1 ≤ D) (hD32 : D ≤ 32)
    (hper : ∀ l, active start term (k + 1) l = true →
      cbufd (laneIndex start (k + 1) l) = cbufd (laneIndex start (k + 1) l - D)) :
    (∀ l, active start term (k + 1) l = true →
      passDelta cbufd start (k + 1)
          (compRun D cbufd start term wib (k + 1) (compInit start wib ibufs)) l
        = { code := 0, diff := 0, bcount := 0 } ∧
      headerCode (passDelta cbufd start (k + 1)
          (compRun D cbufd start term wib (k + 1) (compInit start wib ibufs)) l) = 0 ∧
      payloadStores
          (passBeg cbufd start term wib (k + 1)
            (compRun D cbufd start term wib (k + 1) (compInit start wib ibufs)) l)
          (passDelta cbufd start (k + 1)
            (compRun D cbufd start term wib (k + 1) (compInit start wib ibufs)) l).diff
          (passDelta cbufd start (k + 1)
            (compRun D cbufd start term wib (k + 1) (compInit start wib ibufs)) l).bcount = []) ∧
    (active start term (k + 1) 31 = true → ∀ l, l < 32 →
      (compRun D cbufd start term wib (k + 2) (compInit start wib ibufs)).off l
        = (compRun D cbufd start term wib (k + 1) (compInit start wib ibufs)).off l + 16) := by
  have _ := hD32
  have hz : ∀ l, active start term (k + 1) l = true →
      passDelta cbufd start (k + 1)
          (compRun D cbufd start term wib (k + 1) (compInit start wib ibufs)) l
        = { code := 0, diff := 0, bcount := 0 } := fun l hl =>
    passDelta_zero D cbufd start term wib ibufs k l hD hl
      (fun l' hl' _ => hper l' (active_down hl' hl))
  refine ⟨fun l hl => ?_, fun h31 l hl => ?_⟩
  · rw [hz l hl]
    exact ⟨rfl, zeroDelta_header, rfl⟩
  · have hact : ∀ l, l < 32 → active start term (k + 1) l = true :=
      fun l hl => active_down (by omega) h31
    have hk : start + 32 * ((k + 1 : Nat) : Int) ≤ term := by
      have := active_full h31
      push_cast at this ⊢
      omega
    have hfull := compRun_full D cbufd start term wib ibufs (k + 1) hk
    rw [show k + 2 = (k + 1) + 1 from rfl, compRun_succ]
    simp only [compPass]
    rw [if_pos (hact l hl)]
    unfold passTmp passScan
    rw [scan_store_last wib _ _ _ (fun l h => active_lt h) (fun l l' h h' => active_down h h')
      hfull.2.2 h31]
    rw [pre_zero _ 32 (fun l' hl' => by rw [hz l' (hact l' hl')])]
    rfl

/-- C7 amended, at the chunk `[0, 64)` of the constant trace with `D = 1`: lane 0 of the
second subchunk has delta 0 and its cursor advances by 16. -/
theorem zero_delta_subchunk_witness :
    (∀ l, active 0 64 (0 + 1) l = true →
      passDelta fives 0 (0 + 1) (compRun 1 fives 0 64 0 (0 + 1) (compInit 0 0 zeroScratch)) l
        = { code := 0, diff := 0, bcount := 0 } ∧
      headerCode (passDelta fives 0 (0 + 1)
          (compRun 1 fives 0 64 0 (0 + 1) (compInit 0 0 zeroScratch)) l) = 0 ∧
      payloadStores
          (passBeg fives 0 64 0 (0 + 1) (compRun 1 fives 0 64 0 (0 + 1) (compInit 0 0 zeroScratch)) l)
          (passDelta fives 0 (0 + 1)
            (compRun 1 fives 0 64 0 (0 + 1) (compInit 0 0 zeroScratch)) l).diff
          (passDelta fives 0 (0 + 1)
            (compRun 1 fives 0 64 0 (0 + 1) (compInit 0 0 zeroScratch)) l).bcount = []) ∧
    (active 0 64 (0 + 1) 31 = true → ∀ l, l < 32 →
      (compRun 1 fives 0 64 0 (0 + 2) (compInit 0 0 zeroScratch)).off l
        = (compRun 1 fives 0 64 0 (0 + 1) (compInit 0 0 zeroScratch)).off l + 16) :=
  zero_delta_subchunk 1 fives 0 64 0 zeroScratch 0 (by decide) (by decide) (fun _ _ => rfl)

/-- C9, as stated, fails: with `D = 3` and the nine samples `1, 2, 3, 1, 2, 3, 1, 2, 3` in one
chunk, element 3 is a lane of the first subchunk; its prediction is 0, not the sample 3
positions earlier, so its delta is 1 and its byte count is 1. -/
theorem period3_first_subchunk :
    (∀ i : Int, 3 ≤ i → i < 9 → period3 i = period3 (i - 3)) ∧
    active (chunkStart nineCut 0) (chunkTerm nineCut 0) 0 3 = true ∧
    (compInit (chunkStart nineCut 0) 0 zeroScratch).prev 3 = 0 ∧
    passDelta period3 (chunkStart nineCut 0) 0 (compInit (chunkStart nineCut 0) 0 zeroScratch) 3
      = { code := 0, diff := 1, bcount := 1 } := by
  refine ⟨?_, by decide, rfl, by decide⟩
  intro i h1 h2
  have : i = 3 ∨ i = 4 ∨ i = 5 ∨ i = 6 ∨ i = 7 ∨ i = 8 := by omega
  rcases this with h | h | h | h | h | h <;> subst h <;> decide

/-- C9, amended: for every `D ≥ 1` and a chunk `[start, term)` whose values satisfy
`value[i] = value[i-D]` for all `i` of the chunk with `i ≥ start + D`, every element of the
second and later subchunks (index `≥ start + 32`) whose index is also `≥ start + D` is
encoded with delta 0 and byte count 0, because its prediction is a sample of its own channel
in the preceding subchunk; the elements of the first subchunk are encoded against
prediction 0. -/
theorem periodic_chunk_zero_delta (D : Int) (cbufd : Int → Nat) (start term : Int) (wib : Nat)
    (ibufs : Nat → Int) (k l : Nat) (hD : 1 ≤ D)
    (hper : ∀ i, start + D ≤ i → i < term → cbufd i = cbufd (i - D))
    (hl : active start term (k + 1) l = true) (hi : start + D ≤ laneIndex start (k + 1) l) :
    passDelta cbufd start (k + 1)
        (compRun D cbufd start term wib (k + 1) (compInit start wib ibufs)) l
      = { code := 0, diff := 0, bcount := 0 } ∧
    ∀ l', passDelta cbufd start 0 (compInit start wib ibufs) l'
      = delta (cbufd (laneIndex start 0 l')) 0 := by
  refine ⟨?_, fun _ => rfl⟩
  apply passDelta_zero D cbufd start term wib ibufs k l hD hl
  intro l' hl' hmod
  have ha := (active_iff _ _ _ _).1 (active_down hl' hl)
  have hlt := active_lt hl
  apply hper
  · rw [laneIndex_eq] at hi ⊢
    rcases le_or_lt D 32 with h32 | h32
    · push_cast; omega
    · have e1 : (l' : Int) % D = l' := Int.emod_eq_of_lt (by omega) (by omega)
      have e2 : (l : Int) % D = l := Int.emod_eq_of_lt (by omega) (by omega)
      rw [e1, e2] at hmod
      have : l' = l := by exact_mod_cast hmod
      subst this
      exact hi
  · rw [laneIndex_eq]
    push_cast
    omega

/-- C9 amended, at the chunk `[0, 64)` of the constant trace with `D = 3`: element 32. -/
theorem periodic_chunk_zero_delta_witness :
    passDelta fives 0 (0 + 1) (compRun 3 fives 0 64 0 (0 + 1) (compInit 0 0 zeroScratch)) 0
      = { code := 0, diff := 0, bcount := 0 } ∧
    ∀ l', passDelta fives 0 0 (compInit 0 0 zeroScratch) l'
      = delta (fives (laneIndex 0 0 l')) 0 :=
  periodic_chunk_zero_delta 3 fives 0 64 0 zeroScratch 0 0 (by decide) (fun _ _ _ => rfl)
    (by decide) (by decide)

/-- C8, as stated, fails: with `D = 1` and four copies of `0x3FF0000000000000` in the chunk
`[0, 4)`, elements 1, 2 and 3 are lanes of the first subchunk, so their prediction is 0 and
not the preceding value: each of them has the full value as delta and byte count 8. -/
theorem four_ones_prediction :
    active (chunkStart fourCut 0) (chunkTerm fourCut 0) 0 1 = true ∧
    fourOnes 0 = 0x3FF0000000000000 ∧
    (compInit (chunkStart fourCut 0) 0 zeroScratch).prev 1 = 0 ∧
    passDelta fourOnes (chunkStart fourCut 0) 0 (compInit (chunkStart fourCut 0) 0 zeroScratch) 1
      = { code := 0, diff := 0x3FF0000000000000, bcount := 8 } := by
  decide

set_option maxRecDepth 100000 in
/-- C8, amended: for the trace of four copies of `0x3FF0000000000000` compressed with `D = 1`
as one chunk `[0, 4)`, the encoder gives each of the elements 0, 1, 2 and 3 prediction 0,
the full value as delta and byte count 8, and stores `4 * 8` payload bytes and 2 header
bytes; where plain `char` is unsigned, decompression reproduces the four original words. -/
theorem four_ones_scenario :
    numPasses (chunkStart fourCut 0) (chunkTerm fourCut 0) = 1 ∧
    (∀ l : Fin 4,
      (compInit (chunkStart fourCut 0) 0 zeroScratch).prev l.val = 0 ∧
      passDelta fourOnes (chunkStart fourCut 0) 0
          (compInit (chunkStart fourCut 0) 0 zeroScratch) l.val
        = { code := 0, diff := 0x3FF0000000000000, bcount := 8 }) ∧
    (CompressionKernel 1 fourOnes fourCut 0 0 zeroScratch).stores.length = 34 ∧
    (∀ i : Fin 4,
      decompressedWords false 1 (compressedBytes 1 fourOnes fourCut 1 1 zeroScratch zeroBuf)
          fourCut 1 1 zeroScratch zeroBuf (i.val : Int)
        = fourOnes (i.val : Int)) := by
  decide

/-! ## Claims about one element -/

theorem prefix_append {α : Type} {A P : List α} (B : List α) (h : ∃ r, A = P ++ r) :
    ∃ r, A ++ B = P ++ r := by
  obtain ⟨r, rfl⟩ := h
  exact ⟨r ++ B, by simp⟩

/-- The stores of a run extend the stores it started from. -/
theorem compRun_stores_prefix (D : Int) (cbufd : Int → Nat) (start term : Int) (wib n : Nat)
    (st : CompState) :
    ∃ rest, (compRun D cbufd start term wib n st).stores = st.stores ++ rest := by
  induction n with
  | zero => exact ⟨[], by simp [compRun_zero]⟩
  | succ n ih =>
    rw [compRun_succ]
    simp only [compPass]
    exact prefix_append _ (prefix_append _ ih)

theorem passPayload_head (act : Nat → Bool) (beg : Nat → Int) (d : Nat → Delta)
    (h0 : act 0 = true) :
    ∃ rest, passPayload act beg d = payloadStores (beg 0) (d 0).diff (d 0).bcount ++ rest := by
  unfold passPayload
  have : List.range WARPSIZE = 0 :: (List.range 31).map (· + 1) := by decide
  rw [this, List.flatMap_cons, if_pos h0]
  exact ⟨_, rfl⟩

/-- C10: for every trace, dimensionality and chunking, the first element of every non-empty
chunk is encoded against prediction 0: lane 0 enters the loop with `prev = 0`, its registers
after lines 68-76 are those of `value[start] - 0`, and the first stores of the warp are the
payload bytes of that magnitude, at `((start+1)/2)*17 + 16`.  Sign, byte count and payload
bytes are therefore a function of `value[start]` alone: a second trace that agrees at
`start` (whatever it holds in earlier chunks, and whatever `D` and the scratch array are)
gives the same ones. -/
theorem first_element_predicts_zero (D : Int) (cbufd : Int → Nat) (cutd : Nat → Int)
    (wib warp : Nat) (ibufs : Nat → Int)
    (hne : chunkStart cutd warp < chunkTerm cutd warp) :
    (compInit (chunkStart cutd warp) wib ibufs).prev 0 = 0 ∧
    passDelta cbufd (chunkStart cutd warp) 0 (compInit (chunkStart cutd warp) wib ibufs) 0
      = delta (cbufd (chunkStart cutd warp)) 0 ∧
    (∃ rest, (CompressionKernel D cbufd cutd wib warp ibufs).stores
      = payloadStores (startOff (chunkStart cutd warp) + 16)
          (delta (cbufd (chunkStart cutd warp)) 0).diff
          (delta (cbufd (chunkStart cutd warp)) 0).bcount ++ rest) ∧
    ∀ (D' : Int) (cbufd' : Int → Nat) (wib' : Nat) (ibufs' : Nat → Int),
      cbufd' (chunkStart cutd warp) = cbufd (chunkStart cutd warp) →
      passDelta cbufd' (chunkStart cutd warp) 0 (compInit (chunkStart cutd warp) wib' ibufs') 0
        = passDelta cbufd (chunkStart cutd warp) 0 (compInit (chunkStart cutd warp) wib ibufs) 0 ∧
      ∃ rest, (CompressionKernel D' cbufd' cutd wib' warp ibufs').stores
        = payloadStores (startOff (chunkStart cutd warp) + 16)
            (delta (cbufd (chunkStart cutd warp)) 0).diff
            (delta (cbufd (chunkStart cutd warp)) 0).bcount ++ rest := by
  have hd : ∀ (c : Int → Nat) (w : Nat) (ib : Nat → Int),
      passDelta c (chunkStart cutd warp) 0 (compInit (chunkStart cutd warp) w ib) 0
        = delta (c (chunkStart cutd warp)) 0 := by
    intro c w ib
    unfold passDelta
    congr 1
    rw [laneIndex_eq]
    simp
  have hst : ∀ (D : Int) (c : Int → Nat) (w : Nat) (ib : Nat → Int),
      ∃ rest, (CompressionKernel D c cutd w warp ib).stores
        = payloadStores (startOff (chunkStart cutd warp) + 16)
            (delta (c (chunkStart cutd warp)) 0).diff
            (delta (c (chunkStart cutd warp)) 0).bcount ++ rest := by
    intro D c w ib
    unfold CompressionKernel
    simp only
    generalize hs : chunkStart cutd warp = start at *
    generalize ht : chunkTerm cutd warp = term at *
    have hnp : numPasses start term = (numPasses start term - 1) + 1 := by
      unfold numPasses; omega
    have hact : active start term 0 0 = true := by
      rw [active_iff]; omega
    rw [hnp]
    -- the first pass
    have h1 : ∃ rest, (compRun D c start term w (0 + 1) (compInit start w ib)).stores
        = payloadStores (startOff start + 16) (delta (c start) 0).diff
            (delta (c start) 0).bcount ++ rest := by
      rw [compRun_succ, compRun_zero]
      obtain ⟨r, hr⟩ := passPayload_head (active start term 0)
        (passBeg c start term w 0 (compInit start w ib))
        (passDelta c start 0 (compInit start w ib)) hact
      have hb : passBeg c start term w 0 (compInit start w ib) 0 = startOff start + 16 := by
        rw [passBeg_eq c start term w 0 (compInit start w ib) (startOff start)
          (fun _ _ => rfl) (fun j h1 h2 => clearScratch_pad w ib j h1 h2) 0 hact]
        simp [pre]
      rw [hb, hd c w ib] at hr
      refine ⟨r ++ passHeader (active start term 0) (compInit start w ib).off
          (fun l => headerCode (passDelta c start 0 (compInit start w ib) l))
          (passCodes c start term w 0 (compInit start w ib)) w, ?_⟩
      show ([] ++ passPayload _ _ _) ++ passHeader _ _ _ _ _ = _
      rw [hr, List.nil_append, List.append_assoc]
    -- the remaining passes only append
    have hgen : ∀ n, ∃ rest, (compRun D c start term w (n + 1) (compInit start w ib)).stores
        = payloadStores (startOff start + 16) (delta (c start) 0).diff
            (delta (c start) 0).bcount ++ rest := by
      intro n
      induction n with
      | zero => exact h1
      | succ n ih =>
        rw [compRun_succ]
        simp only [compPass]
        exact prefix_append _ (prefix_append _ ih)
    exact hgen (numPasses start term - 1)
  refine ⟨rfl, hd cbufd wib ibufs, hst D cbufd wib ibufs, ?_⟩
  intro D' cbufd' wib' ibufs' heq
  refine ⟨by rw [hd, hd, heq], ?_⟩
  have := hst D' cbufd' wib' ibufs'
  rw [heq] at this
  exact this

/-- C10, at the single chunk `[0, 1)` of the trace `[1]`: lane 0 is predicted from 0 and the
first store of the warp is the payload byte of `1 - 0`. -/
theorem first_element_predicts_zero_witness :
    (compInit (chunkStart oneCut 0) 0 zeroScratch).prev 0 = 0 ∧
    passDelta oneWord (chunkStart oneCut 0) 0 (compInit (chunkStart oneCut 0) 0 zeroScratch) 0
      = delta (oneWord (chunkStart oneCut 0)) 0 ∧
    (∃ rest, (CompressionKernel 1 oneWord oneCut 0 0 zeroScratch).stores
      = payloadStores (startOff (chunkStart oneCut 0) + 16)
          (delta (oneWord (chunkStart oneCut 0)) 0).diff
          (delta (oneWord (chunkStart oneCut 0)) 0).bcount ++ rest) ∧
    ∀ (D' : Int) (cbufd' : Int → Nat) (wib' : Nat) (ibufs' : Nat → Int),
      cbufd' (chunkStart oneCut 0) = oneWord (chunkStart oneCut 0) →
      passDelta cbufd' (chunkStart oneCut 0) 0 (compInit (chunkStart oneCut 0) wib' ibufs') 0
        = passDelta oneWord (chunkStart oneCut 0) 0
            (compInit (chunkStart oneCut 0) 0 zeroScratch) 0 ∧
      ∃ rest, (CompressionKernel D' cbufd' oneCut wib' 0 ibufs').stores
        = payloadStores (startOff (chunkStart oneCut 0) + 16)
            (delta (oneWord (chunkStart oneCut 0)) 0).diff
            (delta (oneWord (chunkStart oneCut 0)) 0).bcount ++ rest :=
  first_element_predicts_zero 1 oneWord oneCut 0 0 zeroScratch (by decide)

theorem toU32_ofNat (n : Nat) : toU32 (n : Int) = n % 2 ^ 32 := by
  unfold toU32
  have h : ((n : Int) % 2 ^ 32) = ((n % 2 ^ 32 : Nat) : Int) := by push_cast; rfl
  rw [h, Int.toNat_ofNat]

theorem ofU32_small (n : Nat) (h : n < 2 ^ 31) : ofU32 n = (n : Int) := by
  unfold ofU32
  have e : n % 2 ^ 32 = n := Nat.mod_eq_of_lt (by omega)
  rw [e, if_pos h]

/-- The value of `code & 7` is the residue of `code` modulo 8, also for a negative `code`. -/
theorem intAnd_seven (code : Int) : intAnd code 7 = code % 8 := by
  unfold intAnd
  have h7 : toU32 7 = 2 ^ 3 - 1 := by decide
  rw [h7, Nat.and_pow_two_sub_one_eq_mod]
  have hlt : toU32 code % 2 ^ 3 < 2 ^ 31 := by
    have := Nat.mod_lt (toU32 code) (show 0 < 2 ^ 3 by norm_num)
    omega
  rw [ofU32_small _ hlt]
  unfold toU32
  push_cast
  omega

theorem decodeCount_cases (code : Int) :
    decodeCount code = 0 ∨ decodeCount code = 1 ∨ decodeCount code = 3 ∨ decodeCount code = 4 ∨
      decodeCount code = 5 ∨ decodeCount code = 6 ∨ decodeCount code = 7 ∨ decodeCount code = 8 := by
  unfold decodeCount
  simp only [intAnd_seven]
  split <;> omega

theorem byteCount_two (x : Nat) (h1 : 256 ≤ x) (h2 : x < 65536) : byteCount x = 2 := by
  have hx : x < 2 ^ 64 := by omega
  have hle := (byteCount_le_iff x 2 hx (by norm_num)).2 (by norm_num; omega)
  have hgt : ¬ byteCount x ≤ ((1 : Nat) : Int) := by
    rw [byteCount_le_iff x 1 hx (by norm_num)]
    norm_num
    omega
  push_cast at hle hgt
  omega

/-- C6: for every header nibble (every value of the decoder's `code`), the byte count the
decoder derives from it is never 2, it lies in `{0, 1, 3, 4, 5, 6, 7, 8}`; and for every
element whose delta magnitude needs exactly 2 significant bytes (`256 ≤ magnitude < 65536`)
the encoder has byte count 3, stores exactly 3 payload bytes, the third being 0, and its
header code (the low three bits of the nibble) is 2. -/
theorem collapse_mapping (code : Int) (value prev : Nat) (beg : Int)
    (h1 : 256 ≤ (delta value prev).diff) (h2 : (delta value prev).diff < 65536) :
    (decodeCount code ≠ 2 ∧
      (decodeCount code = 0 ∨ decodeCount code = 1 ∨ decodeCount code = 3 ∨
        decodeCount code = 4 ∨ decodeCount code = 5 ∨ decodeCount code = 6 ∨
        decodeCount code = 7 ∨ decodeCount code = 8)) ∧
    (delta value prev).bcount = 3 ∧
    payloadStores beg (delta value prev).diff (delta value prev).bcount
      = [(beg, (delta value prev).diff % 256),
         (beg + 1, (delta value prev).diff / 256 % 256),
         (beg + 2, 0)] ∧
    intAnd (headerCode (delta value prev)) 7 = 2 ∧
    decodeCount (headerCode (delta value prev)) = 3 := by
  have hc := decodeCount_cases code
  have hb : (delta value prev).bcount = 3 := by
    rw [delta_bcount_eq, byteCount_two _ h1 h2]
    rfl
  have hh : headerCode (delta value prev) = 2 ∨ headerCode (delta value prev) = 10 := by
    unfold headerCode
    rw [hb]
    rcases delta_code_cases value prev with h | h <;> rw [h]
    · left; decide
    · right; decide
  refine ⟨⟨by omega, hc⟩, hb, ?_, ?_, ?_⟩
  · rw [hb]
    have e : (delta value prev).diff >>> (8 * 2) % 256 = 0 := by
      rw [Nat.shiftRight_eq_div_pow]
      have : (delta value prev).diff / 2 ^ (8 * 2) = 0 := Nat.div_eq_of_lt (by norm_num; omega)
      rw [this]
    have e1 : (delta value prev).diff >>> (8 * 1) = (delta value prev).diff / 256 := by
      rw [Nat.shiftRight_eq_div_pow]
    simp only [payloadStores, Int.toNat_ofNat, List.range_succ, List.range_zero, List.nil_append,
      List.map_append, List.map_cons, List.map_nil, List.cons_append, Int.toNat]
    simp [e, e1]
  · rcases hh with h | h <;> rw [h] <;> decide
  · rcases hh with h | h <;> rw [h] <;> decide

/-- C6, at the delta `0x1234 - 0`: 3 payload bytes `0x34, 0x12, 0x00` and header code 2. -/
theorem collapse_mapping_witness :
    (decodeCount 2 ≠ 2 ∧
      (decodeCount 2 = 0 ∨ decodeCount 2 = 1 ∨ decodeCount 2 = 3 ∨
        decodeCount 2 = 4 ∨ decodeCount 2 = 5 ∨ decodeCount 2 = 6 ∨
        decodeCount 2 = 7 ∨ decodeCount 2 = 8)) ∧
    (delta 0x1234 0).bcount = 3 ∧
    payloadStores 16 (delta 0x1234 0).diff (delta 0x1234 0).bcount
      = [(16, (delta 0x1234 0).diff % 256),
         (16 + 1, (delta 0x1234 0).diff / 256 % 256),
         (16 + 2, 0)] ∧
    intAnd (headerCode (delta 0x1234 0)) 7 = 2 ∧
    decodeCount (headerCode (delta 0x1234 0)) = 3 :=
  collapse_mapping 2 0x1234 0 16 (by decide) (by decide)

/-! ## Chunks with a last subchunk of fewer than 32 elements -/

set_option maxRecDepth 100000 in
/-- C1, at the trace `[1]` compressed with `D = 1` as the single chunk `[0, 1)` into a buffer
that held zeros: lane 0 stores its payload byte at index 16, but no lane stores the header
byte at index 0 (only odd lanes store header bytes, and lane 1 is not active).  The decoder
reads header byte 0, derives byte count 0 and writes the word 0, whether plain `char` is
signed or not: the original word 1 is not reproduced.  A second input, the chunks `[0, 2)`
and `[2, 4)` of `[0x010203, 0, 5, 7]`, has every header byte stored and fails as well: the
header byte of the second chunk lands on a payload byte of the first (index 17), and word 0
is decoded as `0x011103`. -/
theorem round_trip_odd_tail :
    oneWord 0 = 1 ∧
    (CompressionKernel 1 oneWord oneCut 0 0 zeroScratch).stores = [(16, 1)] ∧
    decompressedWords false 1 (compressedBytes 1 oneWord oneCut 1 1 zeroScratch zeroBuf)
      oneCut 1 1 zeroScratch zeroBuf 0 = 0 ∧
    decompressedWords true 1 (compressedBytes 1 oneWord oneCut 1 1 zeroScratch zeroBuf)
      oneCut 1 1 zeroScratch zeroBuf 0 = 0 ∧
    pairTrace 0 = 0x010203 ∧
    decompressedWords false 1 (compressedBytes 1 pairTrace pairCuts 2 2 zeroScratch zeroBuf)
      pairCuts 2 2 zeroScratch zeroBuf 0 = 0x011103 ∧
    decompressedWords true 1 (compressedBytes 1 pairTrace pairCuts 2 2 zeroScratch zeroBuf)
      pairCuts 2 2 zeroScratch zeroBuf 0 = 0x011103 := by
  decide

/-- C4, at the trace `[1]` compressed as the single chunk `[0, 1)`: the chunk starts at
cursor 0 and its only subchunk has one payload byte, stored at index 16, so the claim gives
the entry `0 + (16 + 1) = 17`; lane 31 never enters the loop and stores its initial
`off = 0` in `offd[0]`. -/
theorem offd_skips_tail :
    startOff (chunkStart oneCut 0) = 0 ∧
    numPasses (chunkStart oneCut 0) (chunkTerm oneCut 0) = 1 ∧
    (CompressionKernel 1 oneWord oneCut 0 0 zeroScratch).stores = [(16, 1)] ∧
    offdEntry 1 oneWord oneCut 0 0 zeroScratch = 0 := by
  decide

/-! ## Sign, magnitude and header code of one element -/

theorem signCode_eq (x : Nat) (hx : x < 2 ^ 64) : signCode x = if 2 ^ 63 ≤ x then 8 else 0 := by
  unfold signCode
  rw [Nat.shiftRight_eq_div_pow]
  have hy : x / 2 ^ 60 < 16 := by
    rw [Nat.div_lt_iff_lt_mul (by norm_num)]
    norm_num at hx ⊢
    omega
  have hiff : 2 ^ 63 ≤ x ↔ 8 ≤ x / 2 ^ 60 := by
    rw [Nat.le_div_iff_mul_le (by norm_num)]
    norm_num
  generalize x / 2 ^ 60 = y at hy hiff
  by_cases h : 8 ≤ y
  · rw [if_pos (hiff.2 h)]
    interval_cases y <;> rfl
  · rw [if_neg (fun h' => h (hiff.1 h'))]
    interval_cases y <;> rfl

theorem headerCode_eq (d : Delta) : headerCode d = intOr d.code (storedCount d.bcount) := rfl

/-- The sign flag and the stored count occupy different bits of the nibble. -/
theorem nibble_parts (c b : Int) (hc : c = 0 ∨ c = 8) (hb0 : 0 ≤ b) (hb7 : b ≤ 7) :
    intOr c b = c + b ∧ intAnd (intOr c b) 7 = b ∧ intAnd (intOr c b) 8 = c := by
  have hb : b = 0 ∨ b = 1 ∨ b = 2 ∨ b = 3 ∨ b = 4 ∨ b = 5 ∨ b = 6 ∨ b = 7 := by omega
  rcases hc with rfl | rfl <;>
    rcases hb with rfl | rfl | rfl | rfl | rfl | rfl | rfl | rfl <;> decide

theorem storedCount_range (b : Int) (h0 : 0 ≤ b) (h8 : b ≤ 8) (h2 : b ≠ 2) :
    0 ≤ storedCount b ∧ storedCount b ≤ 7 ∧
      (if storedCount b ≥ 2 then storedCount b + 1 else storedCount b) = b := by
  unfold storedCount
  split <;> (refine ⟨by omega, by omega, ?_⟩; split <;> omega)

/-- What the header nibble of an element holds. -/
theorem headerCode_parts (v p : Nat) :
    headerCode (delta v p) = (delta v p).code + storedCount (delta v p).bcount ∧
    intAnd (headerCode (delta v p)) 7 = storedCount (delta v p).bcount ∧
    intAnd (headerCode (delta v p)) 8 = (delta v p).code ∧
    decodeCount (headerCode (delta v p)) = (delta v p).bcount := by
  have hr := delta_bcount_range v p
  have hs := storedCount_range _ hr.1 hr.2 (delta_bcount_ne_two v p)
  have hn := nibble_parts _ _ (delta_code_cases v p) hs.1 hs.2.1
  rw [headerCode_eq]
  refine ⟨hn.1, hn.2.1, hn.2.2, ?_⟩
  unfold decodeCount
  simp only [hn.2.1]
  exact hs.2.2

theorem add64_sub64 (value prev : Nat) (hv : value < 2 ^ 64) (hp : prev < 2 ^ 64) :
    add64 prev (sub64 value prev) = value := by
  unfold add64 sub64
  rw [Nat.mod_eq_of_lt hp]
  omega

theorem neg64_neg64 (a : Nat) (h : a < 2 ^ 64) : neg64 (neg64 a) = a := by
  unfold neg64
  omega

/-- C14: for all 64-bit words `value` and `prev`, with `diff = value - prev` (mod `2^64`), the
sign flag set exactly when the top bit of `diff` is set and the magnitude `mag` equal to
`-diff` in that case and to `diff` otherwise, the decoder's `prev + (sign ? -mag : mag)`
(mod `2^64`), with the sign read from bit 3 of the header nibble, equals `value`; at
`diff = 2^63` the magnitude is `2^63`, and for every other `diff` it is below `2^63`. -/
theorem sign_magnitude_round_trip (value prev : Nat) (hv : value < 2 ^ 64) (hp : prev < 2 ^ 64) :
    ((delta value prev).code = 8 ↔ 2 ^ 63 ≤ sub64 value prev) ∧
    ((delta value prev).code = 0 ↔ sub64 value prev < 2 ^ 63) ∧
    (delta value prev).diff
      = (if 2 ^ 63 ≤ sub64 value prev then neg64 (sub64 value prev) else sub64 value prev) ∧
    add64 prev (if intAnd (headerCode (delta value prev)) 8 ≠ 0
        then neg64 (delta value prev).diff else (delta value prev).diff) = value ∧
    (sub64 value prev = 2 ^ 63 → (delta value prev).diff = 2 ^ 63) ∧
    (sub64 value prev ≠ 2 ^ 63 → (delta value prev).diff < 2 ^ 63) := by
  have hd := sub64_lt value prev
  have hcode : (delta value prev).code = if 2 ^ 63 ≤ sub64 value prev then 8 else 0 :=
    signCode_eq _ hd
  have hdiff : (delta value prev).diff
      = (if 2 ^ 63 ≤ sub64 value prev then neg64 (sub64 value prev) else sub64 value prev) := by
    show (if signCode (sub64 value prev) ≠ 0 then _ else _) = _
    rw [signCode_eq _ hd]
    by_cases h : 2 ^ 63 ≤ sub64 value prev
    · simp [h]
    · simp [h]
  rw [(headerCode_parts value prev).2.2.1]
  refine ⟨?_, ?_, hdiff, ?_, ?_, ?_⟩
  · rw [hcode]; split <;> simp_all
  · rw [hcode]; split <;> simp_all
  · rw [hdiff, hcode]
    by_cases h : 2 ^ 63 ≤ sub64 value prev
    · simp only [h, if_true]
      rw [if_pos (by norm_num), neg64_neg64 _ hd]
      exact add64_sub64 value prev hv hp
    · simp only [h, if_false]
      rw [if_neg (by norm_num)]
      exact add64_sub64 value prev hv hp
  · intro h
    rw [hdiff, h]
    decide
  · intro h
    rw [hdiff]
    split
    · unfold neg64; omega
    · omega

/-- C14, at `value = 0`, `prev = 2^63`, where `diff = 2^63`. -/
theorem sign_magnitude_round_trip_witness :
    ((delta 0 (2 ^ 63)).code = 8 ↔ 2 ^ 63 ≤ sub64 0 (2 ^ 63)) ∧
    ((delta 0 (2 ^ 63)).code = 0 ↔ sub64 0 (2 ^ 63) < 2 ^ 63) ∧
    (delta 0 (2 ^ 63)).diff
      = (if 2 ^ 63 ≤ sub64 0 (2 ^ 63) then neg64 (sub64 0 (2 ^ 63)) else sub64 0 (2 ^ 63)) ∧
    add64 (2 ^ 63) (if intAnd (headerCode (delta 0 (2 ^ 63))) 8 ≠ 0
        then neg64 (delta 0 (2 ^ 63)).diff else (delta 0 (2 ^ 63)).diff) = 0 ∧
    (sub64 0 (2 ^ 63) = 2 ^ 63 → (delta 0 (2 ^ 63)).diff = 2 ^ 63) ∧
    (sub64 0 (2 ^ 63) ≠ 2 ^ 63 → (delta 0 (2 ^ 63)).diff < 2 ^ 63) :=
  sign_magnitude_round_trip 0 (2 ^ 63) (by norm_num) (by norm_num)

/-- C15: for every byte count `b` in `{0, 1, 3, 4, 5, 6, 7, 8}` the code the encoder stores
(`b` if `b < 3`, else `b - 1`) lies in `0 .. 7`, the decoder's reverse mapping (`c` if
`c < 2`, else `c + 1`) applied to it, also with the sign bit set in the nibble, returns `b`,
two such byte counts with the same stored code are equal, and every code `c` in `0 .. 7` is
the stored code of one such byte count; the byte count of every element is one of these, so
the decoder recovers it from the header nibble. -/
theorem header_code_bijection (b c : Int)
    (hb : b = 0 ∨ b = 1 ∨ b = 3 ∨ b = 4 ∨ b = 5 ∨ b = 6 ∨ b = 7 ∨ b = 8)
    (hc0 : 0 ≤ c) (hc7 : c ≤ 7) :
    (0 ≤ storedCount b ∧ storedCount b ≤ 7) ∧
    decodeCount (storedCount b) = b ∧
    decodeCount (intOr 8 (storedCount b)) = b ∧
    (∀ b' : Int, (b' = 0 ∨ b' = 1 ∨ b' = 3 ∨ b' = 4 ∨ b' = 5 ∨ b' = 6 ∨ b' = 7 ∨ b' = 8) →
      storedCount b' = storedCount b → b' = b) ∧
    (∃ b' : Int, (b' = 0 ∨ b' = 1 ∨ b' = 3 ∨ b' = 4 ∨ b' = 5 ∨ b' = 6 ∨ b' = 7 ∨ b' = 8) ∧
      storedCount b' = c ∧ decodeCount c = b') ∧
    (∀ value prev : Nat,
      headerCode (delta value prev)
        = intOr (delta value prev).code (storedCount (delta value prev).bcount) ∧
      ((delta value prev).bcount = 0 ∨ (delta value prev).bcount = 1 ∨
        (delta value prev).bcount = 3 ∨ (delta value prev).bcount = 4 ∨
        (delta value prev).bcount = 5 ∨ (delta value prev).bcount = 6 ∨
        (delta value prev).bcount = 7 ∨ (delta value prev).bcount = 8) ∧
      decodeCount (headerCode (delta value prev)) = (delta value prev).bcount) := by
  refine ⟨?_, ?_, ?_, ?_, ?_, ?_⟩
  · rcases hb with rfl | rfl | rfl | rfl | rfl | rfl | rfl | rfl <;> decide
  · rcases hb with rfl | rfl | rfl | rfl | rfl | rfl | rfl | rfl <;> decide
  · rcases hb with rfl | rfl | rfl | rfl | rfl | rfl | rfl | rfl <;> decide
  · intro b' hb' h
    unfold storedCount at h
    split at h <;> split at h <;> omega
  · have hc : c = 0 ∨ c = 1 ∨ c = 2 ∨ c = 3 ∨ c = 4 ∨ c = 5 ∨ c = 6 ∨ c = 7 := by omega
    rcases hc with rfl | rfl | rfl | rfl | rfl | rfl | rfl | rfl
    · exact ⟨0, by decide⟩
    · exact ⟨1, by decide⟩
    · exact ⟨3, by decide⟩
    · exact ⟨4, by decide⟩
    · exact ⟨5, by decide⟩
    · exact ⟨6, by decide⟩
    · exact ⟨7, by decide⟩
    · exact ⟨8, by decide⟩
  · intro value prev
    have hr := delta_bcount_range value prev
    have h2 := delta_bcount_ne_two value prev
    exact ⟨rfl, by omega, (headerCode_parts value prev).2.2.2⟩

/-- C15, at byte count 3 and code 2. -/
theorem header_code_bijection_witness :
    (0 ≤ storedCount 3 ∧ storedCount 3 ≤ 7) ∧
    decodeCount (storedCount 3) = 3 ∧
    decodeCount (intOr 8 (storedCount 3)) = 3 ∧
    (∀ b' : Int, (b' = 0 ∨ b' = 1 ∨ b' = 3 ∨ b' = 4 ∨ b' = 5 ∨ b' = 6 ∨ b' = 7 ∨ b' = 8) →
      storedCount b' = storedCount 3 → b' = 3) ∧
    (∃ b' : Int, (b' = 0 ∨ b' = 1 ∨ b' = 3 ∨ b' = 4 ∨ b' = 5 ∨ b' = 6 ∨ b' = 7 ∨ b' = 8) ∧
      storedCount b' = 2 ∧ decodeCount 2 = b') ∧
    (∀ value prev : Nat,
      headerCode (delta value prev)
        = intOr (delta value prev).code (storedCount (delta value prev).bcount) ∧
      ((delta value prev).bcount = 0 ∨ (delta value prev).bcount = 1 ∨
        (delta value prev).bcount = 3 ∨ (delta value prev).bcount = 4 ∨
        (delta value prev).bcount = 5 ∨ (delta value prev).bcount = 6 ∨
        (delta value prev).bcount = 7 ∨ (delta value prev).bcount = 8) ∧
      decodeCount (headerCode (delta value prev)) = (delta value prev).bcount) :=
  header_code_bijection 3 2 (by decide) (by decide) (by decide)

theorem byteCount_toNat (x : Nat) : ((byteCount x).toNat : Int) = byteCount x := by
  have := byteCount_range x
  omega

/-- C16: for every 64-bit magnitude `diff`, `8 - (clz(diff) >> 3)` (with `clz(0) = 64`) is the
least `n` in `0 .. 8` with `diff < 256^n`, so it is 0 exactly when `diff = 0`; and after the
collapse of 2 to 3 the byte count of an element still covers its whole magnitude,
`diff < 256^bcount`. -/
theorem byte_count_minimal (diff : Nat) (hd : diff < 2 ^ 64) :
    clz 0 = 64 ∧
    byteCount diff = ((8 - (clz diff >>> 3) : Nat) : Int) ∧
    (0 ≤ byteCount diff ∧ byteCount diff ≤ 8) ∧
    diff < 256 ^ (byteCount diff).toNat ∧
    (∀ n : Nat, n ≤ 8 → diff < 256 ^ n → byteCount diff ≤ (n : Int)) ∧
    (byteCount diff = 0 ↔ diff = 0) ∧
    (∀ value prev : Nat,
      byteCount (delta value prev).diff ≤ (delta value prev).bcount ∧
      (delta value prev).diff < 256 ^ ((delta value prev).bcount).toNat) := by
  have hr := byteCount_range diff
  have hcover : ∀ x : Nat, x < 2 ^ 64 → x < 256 ^ (byteCount x).toNat := by
    intro x hx
    have hrx := byteCount_range x
    rw [← byteCount_le_iff x (byteCount x).toNat hx (by omega), byteCount_toNat]
  refine ⟨by decide, rfl, hr, hcover diff hd, ?_, ?_, ?_⟩
  · intro n hn h
    exact (byteCount_le_iff diff n hd hn).2 h
  · constructor
    · intro h
      have := (byteCount_le_iff diff 0 hd (by norm_num)).1 (by rw [h]; rfl)
      simpa using this
    · intro h
      have := (byteCount_le_iff diff 0 hd (by norm_num)).2 (by rw [h]; norm_num)
      push_cast at this
      omega
  · intro value prev
    have hlt := delta_diff_lt value prev
    have hrx := byteCount_range (delta value prev).diff
    have hle : byteCount (delta value prev).diff ≤ (delta value prev).bcount := by
      rw [delta_bcount_eq]
      split <;> omega
    refine ⟨hle, lt_of_lt_of_le (hcover _ hlt) ?_⟩
    apply Nat.pow_le_pow_right (by norm_num)
    omega

/-- C16, at the magnitude `0x1234`: two significant bytes. -/
theorem byte_count_minimal_witness :
    clz 0 = 64 ∧
    byteCount 0x1234 = ((8 - (clz 0x1234 >>> 3) : Nat) : Int) ∧
    (0 ≤ byteCount 0x1234 ∧ byteCount 0x1234 ≤ 8) ∧
    0x1234 < 256 ^ (byteCount 0x1234).toNat ∧
    (∀ n : Nat, n ≤ 8 → 0x1234 < 256 ^ n → byteCount 0x1234 ≤ (n : Int)) ∧
    (byteCount 0x1234 = 0 ↔ 0x1234 = 0) ∧
    (∀ value prev : Nat,
      byteCount (delta value prev).diff ≤ (delta value prev).bcount ∧
      (delta value prev).diff < 256 ^ ((delta value prev).bcount).toNat) :=
  byte_count_minimal 0x1234 (by norm_num)

/-! ## The prediction index -/

theorem compPass_prev (D : Int) (cbufd : Int → Nat) (start term : Int) (wib k : Nat)
    (st : CompState) (l : Nat) (ha : active start term k l = true) :
    (compPass D cbufd start term wib k st).prev l = cbufd (laneIndex start k l + offset D l) := by
  simp only [compPass]
  rw [if_pos ha]

theorem decompPass_prev (signedChar : Bool) (D : Int) (dbufd : Int → Nat) (start term : Int)
    (wib k : Nat) (st : DecompState) (l : Nat) (ha : active start term k l = true) :
    (decompPass signedChar D dbufd start term wib k st).prev l
      = (decompPass signedChar D dbufd start term wib k st).fbufd
          (laneIndex start k l + offset D l) := by
  simp only [decompPass]
  rw [if_pos ha]

/-- C19: for `1 ≤ D ≤ 32`, every lane `l` and every subchunk of a chunk after its first, the
trace index read as the prediction of the element at index `i`, namely `(i - 32) + offset(l)`
with `offset(l) = 32 - (D - l mod D) - l`, lies among the last `D` elements of the immediately
preceding subchunk of the same chunk, is smaller than `i`, and differs from `i` by a positive
multiple of `D`; it is the index line 121 of the encoder and line 231 of the decoder fetch
`prev` from in the pass before. -/
theorem same_channel_prediction (D : Int) (start : Int) (k l : Nat)
    (hD1 : 1 ≤ D) (hD32 : D ≤ 32) (hl : l < 32) :
    laneIndex start (k + 1) l - 32 = laneIndex start k l ∧
    offset D l = 32 - (D - (l : Int) % D) - (l : Int) ∧
    (laneIndex start (k + 1) 0 - D ≤ laneIndex start k l + offset D l ∧
      laneIndex start k l + offset D l < laneIndex start (k + 1) 0) ∧
    laneIndex start k 0 ≤ laneIndex start k l + offset D l ∧
    laneIndex start k l + offset D l < laneIndex start (k + 1) l ∧
    (∃ m : Int, 1 ≤ m ∧
      laneIndex start (k + 1) l - (laneIndex start k l + offset D l) = m * D) ∧
    (∀ (cbufd : Int → Nat) (term : Int) (wib : Nat) (st : CompState),
      active start term k l = true →
      (compPass D cbufd start term wib k st).prev l = cbufd (laneIndex start k l + offset D l)) ∧
    (∀ (signedChar : Bool) (dbufd : Int → Nat) (term : Int) (wib : Nat) (st : DecompState),
      active start term k l = true →
      (decompPass signedChar D dbufd start term wib k st).prev l
        = (decompPass signedChar D dbufd start term wib k st).fbufd
            (laneIndex start k l + offset D l)) := by
  have hoff := offset_eq D l hD1
  have hm0 : 0 ≤ (l : Int) % D := Int.emod_nonneg _ (by omega)
  have hm1 : (l : Int) % D < D := Int.emod_lt_of_pos _ (by omega)
  have hdm := Int.emod_add_ediv (l : Int) D
  have hq0 : 0 ≤ (l : Int) / D := Int.ediv_nonneg (by omega) (by omega)
  refine ⟨?_, ?_, ⟨?_, ?_⟩, ?_, ?_, ?_,
    fun cbufd term wib st ha => compPass_prev D cbufd start term wib k st l ha,
    fun sc dbufd term wib st ha => decompPass_prev sc D dbufd start term wib k st l ha⟩
  · simp only [laneIndex_eq]; push_cast; ring
  · rw [hoff]; ring
  · simp only [laneIndex_eq]; push_cast; omega
  · simp only [laneIndex_eq]; push_cast; omega
  · simp only [laneIndex_eq]; push_cast; omega
  · simp only [laneIndex_eq]; push_cast; omega
  · refine ⟨(l : Int) / D + 1, by omega, ?_⟩
    simp only [laneIndex_eq]
    push_cast
    rw [hoff]
    have : D * ((l : Int) / D) = (l : Int) - (l : Int) % D := by omega
    have e : ((l : Int) / D + 1) * D = D * ((l : Int) / D) + D := by ring
    rw [e, this]
    ring

/-- C19, at `D = 3`, lane 5 of the second subchunk of a chunk that starts at 0: element 37 is
predicted from element 31. -/
theorem same_channel_prediction_witness :
    laneIndex 0 (0 + 1) 5 - 32 = laneIndex 0 0 5 ∧
    offset 3 5 = 32 - (3 - ((5 : Nat) : Int) % 3) - ((5 : Nat) : Int) ∧
    (laneIndex 0 (0 + 1) 0 - 3 ≤ laneIndex 0 0 5 + offset 3 5 ∧
      laneIndex 0 0 5 + offset 3 5 < laneIndex 0 (0 + 1) 0) ∧
    laneIndex 0 0 0 ≤ laneIndex 0 0 5 + offset 3 5 ∧
    laneIndex 0 0 5 + offset 3 5 < laneIndex 0 (0 + 1) 5 ∧
    (∃ m : Int, 1 ≤ m ∧
      laneIndex 0 (0 + 1) 5 - (laneIndex 0 0 5 + offset 3 5) = m * 3) ∧
    (∀ (cbufd : Int → Nat) (term : Int) (wib : Nat) (st : CompState),
      active 0 term 0 5 = true →
      (compPass 3 cbufd 0 term wib 0 st).prev 5 = cbufd (laneIndex 0 0 5 + offset 3 5)) ∧
    (∀ (signedChar : Bool) (dbufd : Int → Nat) (term : Int) (wib : Nat) (st : DecompState),
      active 0 term 0 5 = true →
      (decompPass signedChar 3 dbufd 0 term wib 0 st).prev 5
        = (decompPass signedChar 3 dbufd 0 term wib 0 st).fbufd
            (laneIndex 0 0 5 + offset 3 5)) :=
  same_channel_prediction 3 0 0 5 (by decide) (by decide) (by decide)

/-! ## The prefix sum primitive and its padding -/

theorem scan_below (wib : Nat) (act : Nat → Bool) (ib : Nat → Int) (j : Nat)
    (hj : j < iindex wib 0) : scan wib act ib j = ib j := by
  simp only [scan, scanRound_pad _ _ _ _ _ hj]

theorem storeLanes_above (wib : Nat) (act : Nat → Bool) (v : Nat → Int) (ib : Nat → Int) (j : Nat)
    (hj : iindex wib 0 + 32 ≤ j) : storeLanes wib act v ib j = ib j := by
  unfold storeLanes
  rw [if_neg]
  simp only [WARPSIZE]
  omega

theorem scan_above (wib : Nat) (act : Nat → Bool) (ib : Nat → Int) (j : Nat)
    (hj : iindex wib 0 + 32 ≤ j) : scan wib act ib j = ib j := by
  simp only [scan, scanRound, storeLanes_above _ _ _ _ _ hj]

theorem storeNext_pad (wib : Nat) (act : Nat → Bool) (v : Nat → Int) (ib : Nat → Int) (j : Nat)
    (hj : j < iindex wib 0) : storeNext wib act v ib j = ib j := by
  unfold storeNext
  rw [if_neg]
  omega

/-- C11: for every assignment `bc` of 32 per-lane byte counts, stored by the 32 lanes of a
group whose padding slots hold 0, after the five lock-step rounds (each lane adding the slot
1, 2, 4, 8, then 16 positions below its own, all lanes reading before any lane writes) the
slot of lane `l` holds `bc 0 + .. + bc l`, the slot at `lastidx` holds the total of all 32
lanes, no slot outside the 32 lane slots of the group is changed, and the result is the same
for any other contents of the scratch array outside the group's padding and lane slots. -/
theorem prefix_sum_primitive (wib : Nat) (act : Nat → Bool) (bc : Nat → Int)
    (ib ib' : Nat → Int) (l : Nat)
    (hact : ∀ l, act l = true ↔ l < 32)
    (hpad : ∀ j, wib * 48 ≤ j → j < iindex wib 0 → ib j = 0)
    (hpad' : ∀ j, wib * 48 ≤ j → j < iindex wib 0 → ib' j = 0)
    (hl : l < 32) :
    scan wib act (storeLanes wib act bc ib) (iindex wib l) = pre bc (l + 1) ∧
    scan wib act (storeLanes wib act bc ib) (lastidx wib) = pre bc 32 ∧
    scan wib act (storeLanes wib act bc ib') (iindex wib l)
      = scan wib act (storeLanes wib act bc ib) (iindex wib l) ∧
    (∀ j, j < iindex wib 0 ∨ iindex wib 0 + 32 ≤ j →
      scan wib act (storeLanes wib act bc ib) j = ib j) ∧
    scan wib act (storeLanes wib act bc ib)
      = scanRound wib act 16 (scanRound wib act 8 (scanRound wib act 4 (scanRound wib act 2
          (scanRound wib act 1 (storeLanes wib act bc ib))))) ∧
    (∀ (s : Nat) (b : Nat → Int),
      scanRound wib act s b (iindex wib l) = b (iindex wib l) + b (iindex wib l - s)) := by
  have hlt : ∀ l, act l = true → l < 32 := fun l h => (hact l).1 h
  have hdown : ∀ l l', l' ≤ l → act l = true → act l' = true :=
    fun l l' h h' => (hact l').2 (by have := (hact l).1 h'; omega)
  have h1 := scan_store_incl wib act bc ib hlt hdown hpad l ((hact l).2 hl)
  have h1' := scan_store_incl wib act bc ib' hlt hdown hpad' l ((hact l).2 hl)
  refine ⟨h1, scan_store_last wib act bc ib hlt hdown hpad ((hact 31).2 (by norm_num)),
    by rw [h1, h1'], ?_, rfl, fun s b => scanRound_active wib act s b l ((hact l).2 hl) hl⟩
  intro j hj
  rcases hj with hj | hj
  · rw [scan_below _ _ _ _ hj, storeLanes_pad _ _ _ _ _ hj]
  · rw [scan_above _ _ _ _ hj, storeLanes_above _ _ _ _ _ hj]

/-- C11, at group 0 with byte count 1 in every lane: lane 31 holds 32. -/
theorem prefix_sum_primitive_witness :
    scan 0 (fun l => decide (l < 32)) (storeLanes 0 (fun l => decide (l < 32)) (fun _ => 1)
      zeroScratch) (iindex 0 31) = pre (fun _ => 1) (31 + 1) ∧
    scan 0 (fun l => decide (l < 32)) (storeLanes 0 (fun l => decide (l < 32)) (fun _ => 1)
      zeroScratch) (lastidx 0) = pre (fun _ => 1) 32 ∧
    scan 0 (fun l => decide (l < 32)) (storeLanes 0 (fun l => decide (l < 32)) (fun _ => 1)
      (fun j => if j < 16 then 0 else 7)) (iindex 0 31)
      = scan 0 (fun l => decide (l < 32)) (storeLanes 0 (fun l => decide (l < 32)) (fun _ => 1)
          zeroScratch) (iindex 0 31) ∧
    (∀ j, j < iindex 0 0 ∨ iindex 0 0 + 32 ≤ j →
      scan 0 (fun l => decide (l < 32)) (storeLanes 0 (fun l => decide (l < 32)) (fun _ => 1)
        zeroScratch) j = zeroScratch j) ∧
    scan 0 (fun l => decide (l < 32)) (storeLanes 0 (fun l => decide (l < 32)) (fun _ => 1)
        zeroScratch)
      = scanRound 0 (fun l => decide (l < 32)) 16 (scanRound 0 (fun l => decide (l < 32)) 8
          (scanRound 0 (fun l => decide (l < 32)) 4 (scanRound 0 (fun l => decide (l < 32)) 2
          (scanRound 0 (fun l => decide (l < 32)) 1
            (storeLanes 0 (fun l => decide (l < 32)) (fun _ => 1) zeroScratch))))) ∧
    (∀ (s : Nat) (b : Nat → Int),
      scanRound 0 (fun l => decide (l < 32)) s b (iindex 0 31)
        = b (iindex 0 31) + b (iindex 0 31 - s)) :=
  prefix_sum_primitive 0 (fun l => decide (l < 32)) (fun _ => 1) zeroScratch
    (fun j => if j < 16 then 0 else 7) 31 (fun l => by simp) (fun _ _ _ => rfl)
    (fun j _ h => by
      have h' : j < 16 := by simpa [iindex_eq] using h
      simp [h'])
    (by decide)

theorem compPass_ibufs_below (D : Int) (cbufd : Int → Nat) (start term : Int) (wib k : Nat)
    (st : CompState) (j : Nat) (hj : j < iindex wib 0) :
    (compPass D cbufd start term wib k st).ibufs j = st.ibufs j := by
  simp only [compPass, passCodes, passScan]
  rw [storeLanes_pad _ _ _ _ _ hj, scan_below _ _ _ _ hj, storeLanes_pad _ _ _ _ _ hj]

theorem decompPass_ibufs_below (signedChar : Bool) (D : Int) (dbufd : Int → Nat)
    (start term : Int) (wib k : Nat) (st : DecompState) (j : Nat) (hj : j < iindex wib 0) :
    (decompPass signedChar D dbufd start term wib k st).ibufs j = st.ibufs j := by
  simp only [decompPass]
  rw [scan_below _ _ _ _ hj, storeLanes_pad _ _ _ _ _ hj, storeNext_pad _ _ _ _ _ hj,
    storeLanes_pad _ _ _ _ _ hj]

theorem decompRun_zero (signedChar : Bool) (D : Int) (dbufd : Int → Nat) (start term : Int)
    (wib : Nat) (st : DecompState) :
    decompRun signedChar D dbufd start term wib 0 st = st := rfl

theorem decompRun_succ (signedChar : Bool) (D : Int) (dbufd : Int → Nat) (start term : Int)
    (wib n : Nat) (st : DecompState) :
    decompRun signedChar D dbufd start term wib (n + 1) st =
      decompPass signedChar D dbufd start term wib n
        (decompRun signedChar D dbufd start term wib n st) := by
  simp [decompRun, List.range_succ, List.foldl_append]

theorem compRun_ibufs_below (D : Int) (cbufd : Int → Nat) (start term : Int) (wib n : Nat)
    (st : CompState) (j : Nat) (hj : j < iindex wib 0) :
    (compRun D cbufd start term wib n st).ibufs j = st.ibufs j := by
  induction n with
  | zero => rfl
  | succ n ih => rw [compRun_succ, compPass_ibufs_below _ _ _ _ _ _ _ _ hj, ih]

theorem decompRun_ibufs_below (signedChar : Bool) (D : Int) (dbufd : Int → Nat)
    (start term : Int) (wib n : Nat) (st : DecompState) (j : Nat) (hj : j < iindex wib 0) :
    (decompRun signedChar D dbufd start term wib n st).ibufs j = st.ibufs j := by
  induction n with
  | zero => rfl
  | succ n ih => rw [decompRun_succ, decompPass_ibufs_below _ _ _ _ _ _ _ _ _ hj, ih]

/-- C20: for every group `g = wib` and lane `l`, the scan lookups at `iindex-1`, `iindex-2`,
`iindex-4`, `iindex-8` and `iindex-16` (`iindex = 48g + 16 + l`) stay inside the group's own
48-slot region `[48g, 48g+48)`; the lower 16 slots of the region are set to 0 at kernel
start, no statement of either kernel writes a slot below `48g + 16`, so they hold 0 after
any number of passes of either kernel, and every lookup that falls below lane 0 (`l < s`)
is a lookup of one of these slots and reads 0. -/
theorem scratch_padding (wib l s : Nat) (hl : l < 32)
    (hs : s = 1 ∨ s = 2 ∨ s = 4 ∨ s = 8 ∨ s = 16) :
    iindex wib l = 48 * wib + 16 + l ∧
    (48 * wib ≤ iindex wib l - s ∧ iindex wib l - s < 48 * wib + 48) ∧
    (l < s → 48 * wib ≤ iindex wib l - s ∧ iindex wib l - s < 48 * wib + 16) ∧
    (∀ (ibufs : Nat → Int) (j : Nat), 48 * wib ≤ j → j < 48 * wib + 16 →
      clearScratch wib ibufs j = 0) ∧
    (∀ (act : Nat → Bool) (v : Nat → Int) (ib : Nat → Int) (j : Nat), j < 48 * wib + 16 →
      storeLanes wib act v ib j = ib j ∧ storeNext wib act v ib j = ib j ∧
      scanRound wib act s ib j = ib j) ∧
    (∀ (D : Int) (cbufd : Int → Nat) (start term : Int) (k : Nat) (st : CompState) (j : Nat),
      j < 48 * wib + 16 → (compPass D cbufd start term wib k st).ibufs j = st.ibufs j) ∧
    (∀ (signedChar : Bool) (D : Int) (dbufd : Int → Nat) (start term : Int) (k : Nat)
      (st : DecompState) (j : Nat),
      j < 48 * wib + 16 →
        (decompPass signedChar D dbufd start term wib k st).ibufs j = st.ibufs j) ∧
    (∀ (D : Int) (cbufd : Int → Nat) (start term : Int) (n : Nat) (ibufs : Nat → Int),
      l < s → (compRun D cbufd start term wib n (compInit start wib ibufs)).ibufs
        (iindex wib l - s) = 0) ∧
    (∀ (signedChar : Bool) (D : Int) (dbufd : Int → Nat) (start term : Int) (n : Nat)
      (ibufs : Nat → Int) (fbufd : Int → Nat),
      l < s → (decompRun signedChar D dbufd start term wib n
        (decompInit start wib ibufs fbufd)).ibufs (iindex wib l - s) = 0) ∧
    (∀ (act : Nat → Bool) (ib : Nat → Int),
      (∀ j, 48 * wib ≤ j → j < 48 * wib + 16 → ib j = 0) → l < s →
        ib (iindex wib l - s) = 0 ∧
        ∀ j, 48 * wib ≤ j → j < 48 * wib + 16 → scanRound wib act s ib j = 0) := by
  have hb : iindex wib 0 = 48 * wib + 16 := by rw [iindex_eq]; omega
  have hi : iindex wib l = 48 * wib + 16 + l := by rw [iindex_eq]; omega
  have hs16 : 1 ≤ s ∧ s ≤ 16 := by omega
  have hclear : ∀ (ibufs : Nat → Int) (j : Nat), 48 * wib ≤ j → j < 48 * wib + 16 →
      clearScratch wib ibufs j = 0 :=
    fun ibufs j h1 h2 => clearScratch_pad wib ibufs j (by omega) (by omega)
  refine ⟨hi, by omega, fun h => by omega, hclear, ?_, ?_, ?_, ?_, ?_, ?_⟩
  · intro act v ib j hj
    exact ⟨storeLanes_pad _ _ _ _ _ (by omega), storeNext_pad _ _ _ _ _ (by omega),
      scanRound_pad _ _ _ _ _ (by omega)⟩
  · intro D cbufd start term k st j hj
    exact compPass_ibufs_below _ _ _ _ _ _ _ _ (by omega)
  · intro sc D dbufd start term k st j hj
    exact decompPass_ibufs_below _ _ _ _ _ _ _ _ _ (by omega)
  · intro D cbufd start term n ibufs hls
    rw [compRun_ibufs_below _ _ _ _ _ _ _ _ (by omega)]
    exact hclear ibufs _ (by omega) (by omega)
  · intro sc D dbufd start term n ibufs fbufd hls
    rw [decompRun_ibufs_below _ _ _ _ _ _ _ _ _ (by omega)]
    exact hclear ibufs _ (by omega) (by omega)
  · intro act ib hz hls
    refine ⟨hz _ (by omega) (by omega), fun j h1 h2 => ?_⟩
    rw [scanRound_pad _ _ _ _ _ (by omega)]
    exact hz j h1 h2

/-- C20, at group 1, lane 3 and the lookup 8 slots below: slot 59, a padding slot. -/
theorem scratch_padding_witness :
    iindex 1 3 = 48 * 1 + 16 + 3 ∧
    (48 * 1 ≤ iindex 1 3 - 8 ∧ iindex 1 3 - 8 < 48 * 1 + 48) ∧
    (3 < 8 → 48 * 1 ≤ iindex 1 3 - 8 ∧ iindex 1 3 - 8 < 48 * 1 + 16) ∧
    (∀ (ibufs : Nat → Int) (j : Nat), 48 * 1 ≤ j → j < 48 * 1 + 16 →
      clearScratch 1 ibufs j = 0) ∧
    (∀ (act : Nat → Bool) (v : Nat → Int) (ib : Nat → Int) (j : Nat), j < 48 * 1 + 16 →
      storeLanes 1 act v ib j = ib j ∧ storeNext 1 act v ib j = ib j ∧
      scanRound 1 act 8 ib j = ib j) ∧
    (∀ (D : Int) (cbufd : Int → Nat) (start term : Int) (k : Nat) (st : CompState) (j : Nat),
      j < 48 * 1 + 16 → (compPass D cbufd start term 1 k st).ibufs j = st.ibufs j) ∧
    (∀ (signedChar : Bool) (D : Int) (dbufd : Int → Nat) (start term : Int) (k : Nat)
      (st : DecompState) (j : Nat),
      j < 48 * 1 + 16 →
        (decompPass signedChar D dbufd start term 1 k st).ibufs j = st.ibufs j) ∧
    (∀ (D : Int) (cbufd : Int → Nat) (start term : Int) (n : Nat) (ibufs : Nat → Int),
      3 < 8 → (compRun D cbufd start term 1 n (compInit start 1 ibufs)).ibufs
        (iindex 1 3 - 8) = 0) ∧
    (∀ (signedChar : Bool) (D : Int) (dbufd : Int → Nat) (start term : Int) (n : Nat)
      (ibufs : Nat → Int) (fbufd : Int → Nat),
      3 < 8 → (decompRun signedChar D dbufd start term 1 n
        (decompInit start 1 ibufs fbufd)).ibufs (iindex 1 3 - 8) = 0) ∧
    (∀ (act : Nat → Bool) (ib : Nat → Int),
      (∀ j, 48 * 1 ≤ j → j < 48 * 1 + 16 → ib j = 0) → 3 < 8 →
        ib (iindex 1 3 - 8) = 0 ∧
        ∀ j, 48 * 1 ≤ j → j < 48 * 1 + 16 → scanRound 1 act 8 ib j = 0) :=
  scratch_padding 1 3 8 (by decide) (by decide)

/-! ## Header bytes -/

theorem byte_pack (a b : Int) (ha0 : 0 ≤ a) (ha : a < 16) (hb0 : 0 ≤ b) (hb : b < 16) :
    toByte (intOr a (intShl b 4)) = (a + 16 * b).toNat := by
  interval_cases a <;> interval_cases b <;> rfl

/-- The value of `code & 8` is bit 3 of `code`, also for a negative `code`. -/
theorem intAnd_eight (code : Int) : intAnd code 8 = code % 16 - code % 8 := by
  unfold intAnd
  have h8 : toU32 8 = 2 ^ 3 := by decide
  rw [h8, Nat.and_two_pow, Nat.testBit_to_div_mod]
  have hu : ((toU32 code : Nat) : Int) = code % 2 ^ 32 := by
    unfold toU32
    exact Int.toNat_of_nonneg (Int.emod_nonneg _ (by norm_num))
  have h23 : (2 : Nat) ^ 3 = 8 := by norm_num
  rw [h23]
  by_cases h : toU32 code / 8 % 2 = 1
  · have e : (decide (toU32 code / 8 % 2 = 1)).toNat * 8 = 8 := by simp [h]
    rw [e, ofU32_small 8 (by norm_num)]
    norm_num at hu ⊢
    omega
  · have e : (decide (toU32 code / 8 % 2 = 1)).toNat * 8 = 0 := by simp [h]
    rw [e, ofU32_small 0 (by norm_num)]
    norm_num at hu ⊢
    omega

/-- The decoder's split of a header byte: the byte itself for the even lane, the byte
shifted right by 4 for the odd lane, whether plain `char` is signed or not. -/
theorem nibble_split (signedChar : Bool) (B : Nat) (hB : B < 256) :
    intAnd (charToInt signedChar B) 7 = ((B % 8 : Nat) : Int) ∧
    intAnd (charToInt signedChar B) 8 = ((B % 16 - B % 8 : Nat) : Int) ∧
    intAnd (intSar (charToInt signedChar B) 4) 7 = ((B / 16 % 8 : Nat) : Int) ∧
    intAnd (intSar (charToInt signedChar B) 4) 8 = ((B / 16 - B / 16 % 8 : Nat) : Int) := by
  simp only [intAnd_seven, intAnd_eight, intSar, charToInt]
  split
  · refine ⟨?_, ?_, ?_, ?_⟩ <;> (push_cast; omega)
  · refine ⟨?_, ?_, ?_, ?_⟩ <;> (push_cast; omega)

theorem passCodes_active (cbufd : Int → Nat) (start term : Int) (wib k : Nat) (st : CompState)
    (l : Nat) (hl : active start term k l = true) :
    passCodes cbufd start term wib k st (iindex wib l)
      = headerCode (passDelta cbufd start k st l) := by
  unfold passCodes
  rw [storeLanes_active _ _ _ _ _ hl (active_lt hl)]

theorem headerCode_range (v p : Nat) :
    0 ≤ headerCode (delta v p) ∧ headerCode (delta v p) < 16 := by
  have hp := headerCode_parts v p
  have hr := delta_bcount_range v p
  have hs := storedCount_range _ hr.1 hr.2 (delta_bcount_ne_two v p)
  rw [hp.1]
  rcases delta_code_cases v p with h | h <;> rw [h] <;> omega

theorem odd_lane (l : Nat) (h : l &&& 1 ≠ 0) : l % 2 = 1 := by
  rw [Nat.and_one_is_mod] at h
  omega

theorem mem_passHeader_iff {act : Nat → Bool} {off : Nat → Int} {code : Nat → Int}
    {ibufs : Nat → Int} {wib : Nat} {s : Int × Nat} :
    s ∈ passHeader act off code ibufs wib ↔
      ∃ l : Nat, l < 32 ∧ act l = true ∧ l &&& 1 ≠ 0 ∧
        s = (off l + ((l >>> 1 : Nat) : Int),
          toByte (intOr (ibufs (iindex wib l - 1)) (intShl (code l) 4))) := by
  unfold passHeader
  rw [List.mem_flatMap]
  constructor
  · rintro ⟨l, hl, hs⟩
    rw [List.mem_range] at hl
    split at hs
    · rename_i ha
      simp only [List.mem_singleton] at hs
      exact ⟨l, hl, ha.1, ha.2, hs⟩
    · simp at hs
  · rintro ⟨l, hl, ha, ho, hs⟩
    refine ⟨l, List.mem_range.2 hl, ?_⟩
    rw [if_pos ⟨ha, ho⟩]
    simp [hs]

theorem decCodes_eq (signedChar : Bool) (dbufd : Int → Nat) (start term : Int) (wib k : Nat)
    (st : DecompState) (l : Nat) (h31 : active start term k 31 = true) (hl : l < 32) :
    decCodes signedChar dbufd start term wib k st (iindex wib l)
      = if l % 2 = 0 then decHeader signedChar dbufd st l
        else intSar (decHeader signedChar dbufd st (l - 1)) 4 := by
  have hact : ∀ l, l < 32 → active start term k l = true :=
    fun l hl => active_down (by omega) h31
  unfold decCodes storeNext storeLanes
  simp only [iindex_eq, WARPSIZE, Nat.and_one_is_mod]
  by_cases hpar : l % 2 = 0
  · rw [if_pos hpar]
    rw [if_neg, if_pos]
    · congr 1
      omega
    · refine ⟨by omega, by omega, ?_⟩
      have e : wib * 48 + l + 16 - (wib * 48 + 0 + 16) = l := by omega
      rw [e, hact l hl]
      simp [hpar]
    · rintro ⟨h1, h2, h3⟩
      have e : wib * 48 + l + 16 - (wib * 48 + 0 + 16 + 1) = l - 1 := by omega
      rw [e] at h3
      have : (l - 1) % 2 = 1 := by omega
      simp [this] at h3
  · rw [if_neg hpar, if_pos]
    · congr 2
      omega
    · refine ⟨by omega, by omega, ?_⟩
      have e : wib * 48 + l + 16 - (wib * 48 + 0 + 16 + 1) = l - 1 := by omega
      rw [e, hact (l - 1) (by omega)]
      have : (l - 1) % 2 = 0 := by omega
      simp [this]

/-- C17: in every full subchunk (all 32 lanes active) with cursor `off` and for every `j` in
`0 .. 15`, the encoder stores at `off + j` the byte whose low nibble is the header
`(sign << 3) | code` of lane `2j` and whose high nibble is the header of lane `2j+1`, the
header stores of the pass are these 16 bytes, and the decoder's split of such a byte (the byte
for the even lane, the byte shifted right by 4 for the odd lane, then `& 7` and `& 8`, as
lines 179-190 and 222 do it) recovers stored code, byte count and sign of both lanes, whether
plain `char` is signed or not. -/
theorem header_nibble_packing (D : Int) (cbufd : Int → Nat) (start term : Int) (wib : Nat)
    (ibufs : Nat → Int) (k j : Nat) (signedChar : Bool)
    (h31 : active start term k 31 = true) (hj : j < 16) :
    (cur D cbufd start k + (j : Int),
        toByte (intOr
          (headerCode (passDelta cbufd start k
            (compRun D cbufd start term wib k (compInit start wib ibufs)) (2 * j)))
          (intShl (headerCode (passDelta cbufd start k
            (compRun D cbufd start term wib k (compInit start wib ibufs)) (2 * j + 1))) 4)))
      ∈ (compRun D cbufd start term wib (k + 1) (compInit start wib ibufs)).stores ∧
    (∀ s, s ∈ passHeader (active start term k)
        (compRun D cbufd start term wib k (compInit start wib ibufs)).off
        (fun l => headerCode (passDelta cbufd start k
          (compRun D cbufd start term wib k (compInit start wib ibufs)) l))
        (passCodes cbufd start term wib k
          (compRun D cbufd start term wib k (compInit start wib ibufs))) wib ↔
      ∃ j' : Nat, j' < 16 ∧ s = (cur D cbufd start k + (j' : Int),
        toByte (intOr
          (headerCode (passDelta cbufd start k
            (compRun D cbufd start term wib k (compInit start wib ibufs)) (2 * j')))
          (intShl (headerCode (passDelta cbufd start k
            (compRun D cbufd start term wib k (compInit start wib ibufs)) (2 * j' + 1))) 4)))) ∧
    (∀ a b : Nat,
      toByte (intOr (headerCode (delta a b)) (intShl (headerCode (delta a b)) 4)) < 256) ∧
    (∀ (ve pe vo po : Nat),
      toByte (intOr (headerCode (delta ve pe)) (intShl (headerCode (delta vo po)) 4)) % 16
        = (headerCode (delta ve pe)).toNat ∧
      toByte (intOr (headerCode (delta ve pe)) (intShl (headerCode (delta vo po)) 4)) / 16
        = (headerCode (delta vo po)).toNat ∧
      headerCode (delta ve pe) = intOr (delta ve pe).code (storedCount (delta ve pe).bcount) ∧
      intAnd (charToInt signedChar
          (toByte (intOr (headerCode (delta ve pe)) (intShl (headerCode (delta vo po)) 4)))) 7
        = storedCount (delta ve pe).bcount ∧
      intAnd (charToInt signedChar
          (toByte (intOr (headerCode (delta ve pe)) (intShl (headerCode (delta vo po)) 4)))) 8
        = (delta ve pe).code ∧
      decodeCount (charToInt signedChar
          (toByte (intOr (headerCode (delta ve pe)) (intShl (headerCode (delta vo po)) 4))))
        = (delta ve pe).bcount ∧
      intAnd (intSar (charToInt signedChar
          (toByte (intOr (headerCode (delta ve pe)) (intShl (headerCode (delta vo po)) 4)))) 4) 7
        = storedCount (delta vo po).bcount ∧
      intAnd (intSar (charToInt signedChar
          (toByte (intOr (headerCode (delta ve pe)) (intShl (headerCode (delta vo po)) 4)))) 4) 8
        = (delta vo po).code ∧
      decodeCount (intSar (charToInt signedChar
          (toByte (intOr (headerCode (delta ve pe)) (intShl (headerCode (delta vo po)) 4)))) 4)
        = (delta vo po).bcount) ∧
    (∀ (dbufd : Int → Nat) (st : DecompState) (l : Nat), l < 32 →
      decCodes signedChar dbufd start term wib k st (iindex wib l)
        = if l % 2 = 0 then charToInt signedChar (dbufd (st.off l + ((l >>> 1 : Nat) : Int)))
          else intSar (charToInt signedChar
            (dbufd (st.off (l - 1) + (((l - 1) >>> 1 : Nat) : Int)))) 4) := by
  have hact : ∀ l, l < 32 → active start term k l = true :=
    fun l hl => active_down (by omega) h31
  have hk : start + 32 * (k : Int) ≤ term := by
    have := active_full h31
    omega
  obtain ⟨hoff, _, _⟩ := compRun_full D cbufd start term wib ibufs k hk
  generalize hst : compRun D cbufd start term wib k (compInit start wib ibufs) = st at *
  have hmem : ∀ s, s ∈ passHeader (active start term k) st.off
        (fun l => headerCode (passDelta cbufd start k st l))
        (passCodes cbufd start term wib k st) wib ↔
      ∃ j' : Nat, j' < 16 ∧ s = (cur D cbufd start k + (j' : Int),
        toByte (intOr (headerCode (passDelta cbufd start k st (2 * j')))
          (intShl (headerCode (passDelta cbufd start k st (2 * j' + 1))) 4))) := by
    intro s
    rw [mem_passHeader_iff]
    constructor
    · rintro ⟨l, hl, _, ho, rfl⟩
      have hodd := odd_lane l ho
      refine ⟨l / 2, by omega, ?_⟩
      have e1 : iindex wib l - 1 = iindex wib (2 * (l / 2)) := by
        simp only [iindex_eq]; omega
      have e2 : 2 * (l / 2) + 1 = l := by omega
      rw [e1, passCodes_active _ _ _ _ _ _ _ (hact _ (by omega)), e2, hoff l hl,
        Nat.shiftRight_eq_div_pow]
    · rintro ⟨j', hj', rfl⟩
      refine ⟨2 * j' + 1, by omega, hact _ (by omega), ?_, ?_⟩
      · rw [Nat.and_one_is_mod]; omega
      · have e1 : iindex wib (2 * j' + 1) - 1 = iindex wib (2 * j') := by
          simp only [iindex_eq]; omega
        have e3 : (2 * j' + 1) >>> 1 = j' := by
          rw [Nat.shiftRight_eq_div_pow]; omega
        rw [e1, passCodes_active _ _ _ _ _ _ _ (hact _ (by omega)), hoff _ (by omega), e3]
  refine ⟨?_, hmem, ?_, ?_, ?_⟩
  · rw [compRun_succ, hst]
    simp only [compPass, List.mem_append]
    right
    exact (hmem _).2 ⟨j, hj, rfl⟩
  · intro a b
    unfold toByte
    omega
  · intro ve pe vo po
    have he := headerCode_range ve pe
    have ho := headerCode_range vo po
    have hpe := headerCode_parts ve pe
    have hpo := headerCode_parts vo po
    have hre := delta_bcount_range ve pe
    have hro := delta_bcount_range vo po
    have hse := storedCount_range _ hre.1 hre.2 (delta_bcount_ne_two ve pe)
    have hso := storedCount_range _ hro.1 hro.2 (delta_bcount_ne_two vo po)
    have hce := delta_code_cases ve pe
    have hco := delta_code_cases vo po
    have hB := byte_pack _ _ he.1 he.2 ho.1 ho.2
    have hlt : (headerCode (delta ve pe) + 16 * headerCode (delta vo po)).toNat < 256 := by
      omega
    have hsp := nibble_split signedChar _ hlt
    have ha := hpe.1
    have hb := hpo.1
    refine ⟨?_, ?_, rfl, ?_, ?_, ?_, ?_, ?_, ?_⟩
    · rw [hB]; omega
    · rw [hB]; omega
    · rw [hB, hsp.1]
      rcases hce with h | h <;> omega
    · rw [hB, hsp.2.1]
      rcases hce with h | h <;> omega
    · unfold decodeCount
      simp only [hB, hsp.1]
      rw [← hse.2.2]
      have e : (((headerCode (delta ve pe) + 16 * headerCode (delta vo po)).toNat % 8 : Nat) : Int)
          = storedCount (delta ve pe).bcount := by
        rcases hce with h | h <;> omega
      rw [e]
    · rw [hB, hsp.2.2.1]
      rcases hco with h | h <;> omega
    · rw [hB, hsp.2.2.2]
      rcases hco with h | h <;> omega
    · unfold decodeCount
      simp only [hB, hsp.2.2.1]
      rw [← hso.2.2]
      have e : (((headerCode (delta ve pe) + 16 * headerCode (delta vo po)).toNat / 16 % 8 : Nat) : Int)
          = storedCount (delta vo po).bcount := by
        rcases hco with h | h <;> omega
      rw [e]
  · intro dbufd st' l hl
    exact decCodes_eq signedChar dbufd start term wib k st' l h31 hl

/-- C17, at the chunk `[0, 32)` of the constant trace with `D = 1`, header byte 0, for signed
`char`: both nibbles are 1, the byte `0x11` is stored at index 0. -/
theorem header_nibble_packing_witness :
    (cur 1 fives 0 0 + (0 : Int),
        toByte (intOr
          (headerCode (passDelta fives 0 0
            (compRun 1 fives 0 32 0 0 (compInit 0 0 zeroScratch)) (2 * 0)))
          (intShl (headerCode (passDelta fives 0 0
            (compRun 1 fives 0 32 0 0 (compInit 0 0 zeroScratch)) (2 * 0 + 1))) 4)))
      ∈ (compRun 1 fives 0 32 0 (0 + 1) (compInit 0 0 zeroScratch)).stores ∧
    (∀ s, s ∈ passHeader (active 0 32 0)
        (compRun 1 fives 0 32 0 0 (compInit 0 0 zeroScratch)).off
        (fun l => headerCode (passDelta fives 0 0
          (compRun 1 fives 0 32 0 0 (compInit 0 0 zeroScratch)) l))
        (passCodes fives 0 32 0 0
          (compRun 1 fives 0 32 0 0 (compInit 0 0 zeroScratch))) 0 ↔
      ∃ j' : Nat, j' < 16 ∧ s = (cur 1 fives 0 0 + (j' : Int),
        toByte (intOr
          (headerCode (passDelta fives 0 0
            (compRun 1 fives 0 32 0 0 (compInit 0 0 zeroScratch)) (2 * j')))
          (intShl (headerCode (passDelta fives 0 0
            (compRun 1 fives 0 32 0 0 (compInit 0 0 zeroScratch)) (2 * j' + 1))) 4)))) ∧
    (∀ a b : Nat,
      toByte (intOr (headerCode (delta a b)) (intShl (headerCode (delta a b)) 4)) < 256) ∧
    (∀ (ve pe vo po : Nat),
      toByte (intOr (headerCode (delta ve pe)) (intShl (headerCode (delta vo po)) 4)) % 16
        = (headerCode (delta ve pe)).toNat ∧
      toByte (intOr (headerCode (delta ve pe)) (intShl (headerCode (delta vo po)) 4)) / 16
        = (headerCode (delta vo po)).toNat ∧
      headerCode (delta ve pe) = intOr (delta ve pe).code (storedCount (delta ve pe).bcount) ∧
      intAnd (charToInt true
          (toByte (intOr (headerCode (delta ve pe)) (intShl (headerCode (delta vo po)) 4)))) 7
        = storedCount (delta ve pe).bcount ∧
      intAnd (charToInt true
          (toByte (intOr (headerCode (delta ve pe)) (intShl (headerCode (delta vo po)) 4)))) 8
        = (delta ve pe).code ∧
      decodeCount (charToInt true
          (toByte (intOr (headerCode (delta ve pe)) (intShl (headerCode (delta vo po)) 4))))
        = (delta ve pe).bcount ∧
      intAnd (intSar (charToInt true
          (toByte (intOr (headerCode (delta ve pe)) (intShl (headerCode (delta vo po)) 4)))) 4) 7
        = storedCount (delta vo po).bcount ∧
      intAnd (intSar (charToInt true
          (toByte (intOr (headerCode (delta ve pe)) (intShl (headerCode (delta vo po)) 4)))) 4) 8
        = (delta vo po).code ∧
      decodeCount (intSar (charToInt true
          (toByte (intOr (headerCode (delta ve pe)) (intShl (headerCode (delta vo po)) 4)))) 4)
        = (delta vo po).bcount) ∧
    (∀ (dbufd : Int → Nat) (st : DecompState) (l : Nat), l < 32 →
      decCodes true dbufd 0 32 0 0 st (iindex 0 l)
        = if l % 2 = 0 then charToInt true (dbufd (st.off l + ((l >>> 1 : Nat) : Int)))
          else intSar (charToInt true
            (dbufd (st.off (l - 1) + (((l - 1) >>> 1 : Nat) : Int)))) 4) :=
  header_nibble_packing 1 fives 0 32 0 zeroScratch 0 0 true (by decide) (by decide)

/-! ## Payload bytes -/

theorem payloadStores_length (beg : Int) (diff : Nat) (bcount : Int) :
    (payloadStores beg diff bcount).length = bcount.toNat := by
  simp [payloadStores]

theorem mem_payloadStores_iff {beg : Int} {diff : Nat} {bcount : Int} {s : Int × Nat} :
    s ∈ payloadStores beg diff bcount ↔
      ∃ t : Nat, (t : Int) < bcount ∧ s = (beg + (t : Int), (diff >>> (8 * t)) % 256) := by
  constructor
  · exact mem_payloadStores
  · rintro ⟨t, ht, rfl⟩
    unfold payloadStores
    rw [List.mem_map]
    exact ⟨t, List.mem_range.2 (by omega), rfl⟩

theorem mem_passPayload_of {act : Nat → Bool} {beg : Nat → Int} {d : Nat → Delta} {s : Int × Nat}
    (l : Nat) (hl : l < 32) (ha : act l = true)
    (hs : s ∈ payloadStores (beg l) (d l).diff (d l).bcount) : s ∈ passPayload act beg d := by
  unfold passPayload
  rw [List.mem_flatMap]
  refine ⟨l, List.mem_range.2 (by simpa [WARPSIZE] using hl), ?_⟩
  rw [if_pos ha]
  exact hs

/-- C18: in every full subchunk (all 32 lanes active) with cursor `off`, lane `l` stores
exactly `byte_count(l)` bytes, at the positions `off + 16 + S(l-1)` up to
`off + 16 + S(l) - 1`, where `S(l) = pre bc (l+1)` is the inclusive prefix sum of the byte
counts and `S(-1) = pre bc 0 = 0`; the payload ranges are contiguous in lane order, the range
of a lane lies below the range of every later lane, none of them touches the 16 header bytes
`[off, off+16)`, and the cursor of every lane advances by `S(31) + 16`, at most 272. -/
theorem payload_layout (D : Int) (cbufd : Int → Nat) (start term : Int) (wib : Nat)
    (ibufs : Nat → Int) (k l l' : Nat)
    (h31 : active start term k 31 = true) (hl : l < 32) (hl' : l' < 32) :
    (compRun D cbufd start term wib k (compInit start wib ibufs)).off l = cur D cbufd start k ∧
    pre (fun x => (passDelta cbufd start k
      (compRun D cbufd start term wib k (compInit start wib ibufs)) x).bcount) 0 = 0 ∧
    passBeg cbufd start term wib k (compRun D cbufd start term wib k (compInit start wib ibufs)) l
      = cur D cbufd start k + 16 + pre (fun x => (passDelta cbufd start k
          (compRun D cbufd start term wib k (compInit start wib ibufs)) x).bcount) l ∧
    (payloadStores
        (passBeg cbufd start term wib k
          (compRun D cbufd start term wib k (compInit start wib ibufs)) l)
        (passDelta cbufd start k
          (compRun D cbufd start term wib k (compInit start wib ibufs)) l).diff
        (passDelta cbufd start k
          (compRun D cbufd start term wib k (compInit start wib ibufs)) l).bcount).length
      = ((passDelta cbufd start k
          (compRun D cbufd start term wib k (compInit start wib ibufs)) l).bcount).toNat ∧
    (∀ s, s ∈ payloadStores
        (passBeg cbufd start term wib k
          (compRun D cbufd start term wib k (compInit start wib ibufs)) l)
        (passDelta cbufd start k
          (compRun D cbufd start term wib k (compInit start wib ibufs)) l).diff
        (passDelta cbufd start k
          (compRun D cbufd start term wib k (compInit start wib ibufs)) l).bcount →
      s ∈ (compRun D cbufd start term wib (k + 1) (compInit start wib ibufs)).stores ∧
      cur D cbufd start k + 16 + pre (fun x => (passDelta cbufd start k
          (compRun D cbufd start term wib k (compInit start wib ibufs)) x).bcount) l ≤ s.1 ∧
      s.1 ≤ cur D cbufd start k + 16 + pre (fun x => (passDelta cbufd start k
          (compRun D cbufd start term wib k (compInit start wib ibufs)) x).bcount) (l + 1) - 1 ∧
      cur D cbufd start k + 16 ≤ s.1 ∧
      ∀ s', l < l' → s' ∈ payloadStores
          (passBeg cbufd start term wib k
            (compRun D cbufd start term wib k (compInit start wib ibufs)) l')
          (passDelta cbufd start k
            (compRun D cbufd start term wib k (compInit start wib ibufs)) l').diff
          (passDelta cbufd start k
            (compRun D cbufd start term wib k (compInit start wib ibufs)) l').bcount →
        s.1 < s'.1) ∧
    (∀ t : Nat, (t : Int) < (passDelta cbufd start k
        (compRun D cbufd start term wib k (compInit start wib ibufs)) l).bcount →
      (passBeg cbufd start term wib k
          (compRun D cbufd start term wib k (compInit start wib ibufs)) l + (t : Int),
        ((passDelta cbufd start k
          (compRun D cbufd start term wib k (compInit start wib ibufs)) l).diff >>> (8 * t)) % 256)
        ∈ (compRun D cbufd start term wib (k + 1) (compInit start wib ibufs)).stores) ∧
    (l + 1 < 32 → passBeg cbufd start term wib k
        (compRun D cbufd start term wib k (compInit start wib ibufs)) (l + 1)
      = passBeg cbufd start term wib k
          (compRun D cbufd start term wib k (compInit start wib ibufs)) l
        + (passDelta cbufd start k
            (compRun D cbufd start term wib k (compInit start wib ibufs)) l).bcount) ∧
    (compRun D cbufd start term wib (k + 1) (compInit start wib ibufs)).off l
      = (compRun D cbufd start term wib k (compInit start wib ibufs)).off l
        + (pre (fun x => (passDelta cbufd start k
            (compRun D cbufd start term wib k (compInit start wib ibufs)) x).bcount) 32 + 16) ∧
    (0 ≤ pre (fun x => (passDelta cbufd start k
        (compRun D cbufd start term wib k (compInit start wib ibufs)) x).bcount) 32 ∧
      pre (fun x => (passDelta cbufd start k
        (compRun D cbufd start term wib k (compInit start wib ibufs)) x).bcount) 32 + 16
        ≤ 272) := by
  have hact : ∀ l, l < 32 → active start term k l = true :=
    fun l hl => active_down (by omega) h31
  have hk : start + 32 * (k : Int) ≤ term := by
    have := active_full h31
    omega
  obtain ⟨hoff, _, hpad⟩ := compRun_full D cbufd start term wib ibufs k hk
  have hsucc := compRun_succ D cbufd start term wib k (compInit start wib ibufs)
  generalize compRun D cbufd start term wib k (compInit start wib ibufs) = st at *
  have hbeg : ∀ x, x < 32 → passBeg cbufd start term wib k st x
      = cur D cbufd start k + 16 + pre (fun x => (passDelta cbufd start k st x).bcount) x :=
    fun x hx => passBeg_eq cbufd start term wib k st (cur D cbufd start k)
      (fun l hl => hoff l (active_lt hl)) hpad x (hact x hx)
  have hnn : ∀ x, 0 ≤ (passDelta cbufd start k st x).bcount :=
    fun x => (delta_bcount_range _ _).1
  have h8 : ∀ x, (passDelta cbufd start k st x).bcount ≤ 8 :=
    fun x => (delta_bcount_range _ _).2
  have hp0 := pre_nonneg (fun x => (passDelta cbufd start k st x).bcount) hnn l
  have hp32 := pre_nonneg (fun x => (passDelta cbufd start k st x).bcount) hnn 32
  have hle32 := pre_le (fun x => (passDelta cbufd start k st x).bcount) 8 h8 32
  have hps : pre (fun x => (passDelta cbufd start k st x).bcount) (l + 1)
      = pre (fun x => (passDelta cbufd start k st x).bcount) l
        + (passDelta cbufd start k st l).bcount := rfl
  have hin : ∀ s, s ∈ payloadStores (passBeg cbufd start term wib k st l)
      (passDelta cbufd start k st l).diff (passDelta cbufd start k st l).bcount →
      s ∈ (compPass D cbufd start term wib k st).stores := by
    intro s hs
    simp only [compPass, List.mem_append]
    left; right
    exact mem_passPayload_of l hl (hact l hl) hs
  refine ⟨hoff l hl, rfl, hbeg l hl, payloadStores_length _ _ _, ?_, ?_, ?_, ?_,
    ⟨hp32, by norm_num at hle32; omega⟩⟩
  · intro s hs
    refine ⟨by rw [hsucc]; exact hin s hs, ?_⟩
    obtain ⟨t, ht, rfl⟩ := mem_payloadStores hs
    rw [hbeg l hl]
    refine ⟨by simp only; omega, by simp only; omega, by simp only; omega, ?_⟩
    intro s' hll hs'
    have hmono := pre_mono (fun x => (passDelta cbufd start k st x).bcount) hnn
      (show l + 1 ≤ l' by omega)
    obtain ⟨t', ht', rfl⟩ := mem_payloadStores hs'
    rw [hbeg l' hl']
    simp only
    omega
  · intro t ht
    rw [hsucc]
    exact hin _ (mem_payloadStores_iff.2 ⟨t, ht, rfl⟩)
  · intro h
    rw [hbeg (l + 1) h, hbeg l hl, hps]
    ring
  · rw [hsucc]
    simp only [compPass]
    rw [if_pos (hact l hl)]
    unfold passTmp passScan
    rw [scan_store_last wib _ _ _ (fun l h => active_lt h) (fun l l' h h' => active_down h h')
      hpad h31]
    rfl

/-- C18, at the chunk `[0, 32)` of the constant trace with `D = 1`, lanes 0 and 1: one payload
byte each, at indices 16 and 17. -/
theorem payload_layout_witness :
    (compRun 1 fives 0 32 0 0 (compInit 0 0 zeroScratch)).off 0 = cur 1 fives 0 0 ∧
    pre (fun x => (passDelta fives 0 0
      (compRun 1 fives 0 32 0 0 (compInit 0 0 zeroScratch)) x).bcount) 0 = 0 ∧
    passBeg fives 0 32 0 0 (compRun 1 fives 0 32 0 0 (compInit 0 0 zeroScratch)) 0
      = cur 1 fives 0 0 + 16 + pre (fun x => (passDelta fives 0 0
          (compRun 1 fives 0 32 0 0 (compInit 0 0 zeroScratch)) x).bcount) 0 ∧
    (payloadStores
        (passBeg fives 0 32 0 0
          (compRun 1 fives 0 32 0 0 (compInit 0 0 zeroScratch)) 0)
        (passDelta fives 0 0
          (compRun 1 fives 0 32 0 0 (compInit 0 0 zeroScratch)) 0).diff
        (passDelta fives 0 0
          (compRun 1 fives 0 32 0 0 (compInit 0 0 zeroScratch)) 0).bcount).length
      = ((passDelta fives 0 0
          (compRun 1 fives 0 32 0 0 (compInit 0 0 zeroScratch)) 0).bcount).toNat ∧
    (∀ s, s ∈ payloadStores
        (passBeg fives 0 32 0 0
          (compRun 1 fives 0 32 0 0 (compInit 0 0 zeroScratch)) 0)
        (passDelta fives 0 0
          (compRun 1 fives 0 32 0 0 (compInit 0 0 zeroScratch)) 0).diff
        (passDelta fives 0 0
          (compRun 1 fives 0 32 0 0 (compInit 0 0 zeroScratch)) 0).bcount →
      s ∈ (compRun 1 fives 0 32 0 (0 + 1) (compInit 0 0 zeroScratch)).stores ∧
      cur 1 fives 0 0 + 16 + pre (fun x => (passDelta fives 0 0
          (compRun 1 fives 0 32 0 0 (compInit 0 0 zeroScratch)) x).bcount) 0 ≤ s.1 ∧
      s.1 ≤ cur 1 fives 0 0 + 16 + pre (fun x => (passDelta fives 0 0
          (compRun 1 fives 0 32 0 0 (compInit 0 0 zeroScratch)) x).bcount) (0 + 1) - 1 ∧
      cur 1 fives 0 0 + 16 ≤ s.1 ∧
      ∀ s', 0 < 1 → s' ∈ payloadStores
          (passBeg fives 0 32 0 0
            (compRun 1 fives 0 32 0 0 (compInit 0 0 zeroScratch)) 1)
          (passDelta fives 0 0
            (compRun 1 fives 0 32 0 0 (compInit 0 0 zeroScratch)) 1).diff
          (passDelta fives 0 0
            (compRun 1 fives 0 32 0 0 (compInit 0 0 zeroScratch)) 1).bcount →
        s.1 < s'.1) ∧
    (∀ t : Nat, (t : Int) < (passDelta fives 0 0
        (compRun 1 fives 0 32 0 0 (compInit 0 0 zeroScratch)) 0).bcount →
      (passBeg fives 0 32 0 0
          (compRun 1 fives 0 32 0 0 (compInit 0 0 zeroScratch)) 0 + (t : Int),
        ((passDelta fives 0 0
          (compRun 1 fives 0 32 0 0 (compInit 0 0 zeroScratch)) 0).diff >>> (8 * t)) % 256)
        ∈ (compRun 1 fives 0 32 0 (0 + 1) (compInit 0 0 zeroScratch)).stores) ∧
    (0 + 1 < 32 → passBeg fives 0 32 0 0
        (compRun 1 fives 0 32 0 0 (compInit 0 0 zeroScratch)) (0 + 1)
      = passBeg fives 0 32 0 0
          (compRun 1 fives 0 32 0 0 (compInit 0 0 zeroScratch)) 0
        + (passDelta fives 0 0
            (compRun 1 fives 0 32 0 0 (compInit 0 0 zeroScratch)) 0).bcount) ∧
    (compRun 1 fives 0 32 0 (0 + 1) (compInit 0 0 zeroScratch)).off 0
      = (compRun 1 fives 0 32 0 0 (compInit 0 0 zeroScratch)).off 0
        + (pre (fun x => (passDelta fives 0 0
            (compRun 1 fives 0 32 0 0 (compInit 0 0 zeroScratch)) x).bcount) 32 + 16) ∧
    (0 ≤ pre (fun x => (passDelta fives 0 0
        (compRun 1 fives 0 32 0 0 (compInit 0 0 zeroScratch)) x).bcount) 32 ∧
      pre (fun x => (passDelta fives 0 0
        (compRun 1 fives 0 32 0 0 (compInit 0 0 zeroScratch)) x).bcount) 32 + 16
        ≤ 272) :=
  payload_layout 1 fives 0 32 0 zeroScratch 0 0 1 (by decide) (by decide) (by decide)

/-! ## Payload bytes read back -/

theorem applyStores_append (a b : List (Int × Nat)) (mem : Int → Nat) :
    applyStores (a ++ b) mem = applyStores b (applyStores a mem) := by
  simp [applyStores, List.foldl_append]

theorem payloadStores_succ (beg : Int) (diff n : Nat) :
    payloadStores beg diff ((n + 1 : Nat) : Int)
      = payloadStores beg diff (n : Int) ++ [(beg + (n : Int), (diff >>> (8 * n)) % 256)] := by
  simp [payloadStores, List.range_succ]

/-- The bytes the encoder leaves in memory for one element. -/
theorem applyStores_payload (beg : Int) (diff n : Nat) (mem : Int → Nat) (t : Nat) (ht : t < n) :
    applyStores (payloadStores beg diff (n : Int)) mem (beg + (t : Int))
      = (diff >>> (8 * t)) % 256 := by
  induction n with
  | zero => omega
  | succ n ih =>
    rw [payloadStores_succ, applyStores_append]
    simp only [applyStores, List.foldl_cons, List.foldl_nil]
    by_cases h : t = n
    · subst h
      simp
    · rw [if_neg (by omega)]
      exact ih (by omega)

theorem shl64_or_byte (acc b : Nat) (hb : b < 256) :
    shl64 acc 8 ||| b = (acc * 256 + b) % 2 ^ 64 := by
  unfold shl64
  rw [Nat.shiftLeft_eq]
  have h256 : (2 : Nat) ^ 8 = 256 := by norm_num
  have hdiv : acc * 2 ^ 8 % 2 ^ 64 = 2 ^ 8 * (acc % 2 ^ 56) := by
    rw [h256]; omega
  rw [hdiv, ← Nat.mul_add_lt_is_or (by rw [h256]; exact hb)]
  rw [h256]
  omega

theorem readPayload_fold (m : Int → Nat) (beg : Int) (diff n : Nat)
    (hm : ∀ t, t < n → m (beg + (t : Int)) = (diff >>> (8 * t)) % 256) (acc : Nat) :
    (List.range n).reverse.foldl
        (fun (d t : Nat) => shl64 d 8 ||| charToU64 false (m (beg + (t : Int)))) acc
      = (acc * 256 ^ n + diff % 256 ^ n) % 2 ^ 64 ∨ acc ≥ 2 ^ 64 := by
  induction n generalizing acc with
  | zero =>
    by_cases h : acc < 2 ^ 64
    · left
      simp only [List.range_zero, List.reverse_nil, List.foldl_nil, pow_zero, Nat.mul_one,
        Nat.mod_one, Nat.add_zero]
      exact (Nat.mod_eq_of_lt h).symm
    · right; omega
  | succ n ih =>
    by_cases hacc : acc < 2 ^ 64
    · left
      rw [List.range_succ, List.reverse_append, List.reverse_singleton, List.singleton_append,
        List.foldl_cons]
      have hb : charToU64 false (m (beg + (n : Int))) = (diff >>> (8 * n)) % 256 := by
        rw [hm n (by omega)]
        simp [charToU64]
      rw [hb, shl64_or_byte _ _ (Nat.mod_lt _ (by norm_num))]
      rcases ih (fun t ht => hm t (by omega)) ((acc * 256 + diff >>> (8 * n) % 256) % 2 ^ 64)
        with h | h
      · rw [h]
        have hd : diff >>> (8 * n) % 256 * 256 ^ n + diff % 256 ^ n = diff % 256 ^ (n + 1) := by
          have e1 : diff >>> (8 * n) = diff / 256 ^ n := by
            rw [Nat.shiftRight_eq_div_pow, pow256]
          have e2 : (256 : Nat) ^ (n + 1) = 256 ^ n * 256 := pow_succ 256 n
          rw [e1, e2, Nat.mod_mul]
          ring
        rw [← hd]
        rw [Nat.add_mod, Nat.mul_mod, Nat.mod_mod, ← Nat.mul_mod, ← Nat.add_mod]
        congr 1
        ring
      · have := Nat.mod_lt (acc * 256 + diff >>> (8 * n) % 256) (show 0 < 2 ^ 64 by norm_num)
        omega
    · right; omega

/-- Where plain `char` is unsigned, the decoder's loop reads back the magnitude the encoder
stored in `n ≤ 8` bytes. -/
theorem readPayload_unsigned (beg : Int) (diff n : Nat) (mem : Int → Nat) (hn : n ≤ 8)
    (hd : diff < 256 ^ n) :
    readPayload false (applyStores (payloadStores beg diff (n : Int)) mem) beg (n : Int)
      = diff := by
  unfold readPayload
  rw [Int.toNat_ofNat]
  rcases readPayload_fold (applyStores (payloadStores beg diff (n : Int)) mem) beg diff n
    (fun t ht => applyStores_payload beg diff n mem t ht) 0 with h | h
  · rw [h]
    have h64 : (256 : Nat) ^ n ≤ 2 ^ 64 := by
      rw [pow256]
      exact Nat.pow_le_pow_right (by norm_num) (by omega)
    rw [Nat.zero_mul, Nat.zero_add, Nat.mod_eq_of_lt hd, Nat.mod_eq_of_lt (by omega)]
  · norm_num at h

/-- C13, at byte count 1 and magnitude `0x80`, and at the trace `[0x80, 0]` compressed with
`D = 1` as the single chunk `[0, 2)`: the encoder stores the one payload byte `0x80`; the
decoder's loop `diff = (diff << 8) | dbufd[end]` reads it through plain `char`, and where
that is signed the byte is sign-extended and the loop yields `0xFFFFFFFFFFFFFF80`, which the
kernel writes as word 0.  Read through an unsigned `char` the byte gives back `0x80`. -/
theorem payload_sign_extension :
    (0x80 : Nat) < 256 ^ 1 ∧
    (delta 0x80 0).diff = 0x80 ∧ (delta 0x80 0).bcount = 1 ∧
    payloadStores 16 0x80 1 = [(16, 0x80)] ∧
    readPayload true (applyStores (payloadStores 16 0x80 1) zeroBuf) 16 1
      = 0xFFFFFFFFFFFFFF80 ∧
    readPayload false (applyStores (payloadStores 16 0x80 1) zeroBuf) 16 1 = 0x80 ∧
    highBit 0 = 0x80 ∧
    decompressedWords true 1 (compressedBytes 1 highBit twoCut 1 1 zeroScratch zeroBuf)
      twoCut 1 1 zeroScratch zeroBuf 0 = 0xFFFFFFFFFFFFFF80 ∧
    decompressedWords false 1 (compressedBytes 1 highBit twoCut 1 1 zeroScratch zeroBuf)
      twoCut 1 1 zeroScratch zeroBuf 0 = 0x80 := by
  decide

/-! ## Kernels without a configuration check -/

/-- C22: for a chunk `[start, term)` with `0 ≤ start ≤ term ≤ MAX` (a chunk of a trace of
the program, which keeps the `int` cursors from overflowing) whose length `term - start` is a
multiple of 32, every byte `CompressionKernel` stores for the chunk lies in
`[((start+1)/2)*17, ((term+1)/2)*17)`, and the chunk's entry of the offset table lies between
`((start+1)/2)*17` and `((term+1)/2)*17`, the start cursor of the next chunk; both cursors lie
in `[0, 2 ^ 31)`, so that the cursors of the code are those of the embedding. -/
theorem full_subchunks_region (D : Int) (cbufd : Int → Nat) (cutd : Nat → Int)
    (wib warp : Nat) (ibufs : Nat → Int)
    (h0 : 0 ≤ chunkStart cutd warp) (hle : chunkStart cutd warp ≤ chunkTerm cutd warp)
    (hmax : chunkTerm cutd warp ≤ MAX)
    (hfull : (chunkTerm cutd warp - chunkStart cutd warp) % 32 = 0) :
    (∀ s, s ∈ (CompressionKernel D cbufd cutd wib warp ibufs).stores →
      startOff (chunkStart cutd warp) ≤ s.1 ∧ s.1 < startOff (chunkTerm cutd warp)) ∧
    startOff (chunkStart cutd warp) ≤ offdEntry D cbufd cutd wib warp ibufs ∧
    offdEntry D cbufd cutd wib warp ibufs ≤ startOff (chunkTerm cutd warp) ∧
    startOff (chunkTerm cutd warp)
      = startOff (chunkStart cutd warp)
        + 272 * ((chunkTerm cutd warp - chunkStart cutd warp) / 32) ∧
    0 ≤ startOff (chunkStart cutd warp) ∧ startOff (chunkTerm cutd warp) < 2 ^ 31 := by
  have hr := offdEntry_range D cbufd cutd wib warp ibufs h0 hle
  have he : startOff (chunkTerm cutd warp)
      = startOff (chunkStart cutd warp)
        + 272 * ((chunkTerm cutd warp - chunkStart cutd warp) / 32) := by
    rw [startOff_eq _ h0, startOff_eq (chunkTerm cutd warp) (by omega)]
    omega
  have hM := MAX_eq
  have hb := startOff_bound (chunkTerm cutd warp) (by omega) hmax
  have h3 : 0 ≤ startOff (chunkStart cutd warp) := by
    rw [startOff_eq _ h0]; omega
  have h31 : (2 : Int) ^ 31 = 2147483648 := by norm_num
  refine ⟨?_, hr.1, hr.2, he, h3, by omega⟩
  intro s hs
  have h := kernel_stores_range D cbufd cutd wib warp ibufs s hs
  rw [numPasses_cast _ _ hle] at h
  refine ⟨h.1, ?_⟩
  rw [he]
  omega

set_option maxRecDepth 100000 in
/-- C22, at the single chunk `[0, 32)` of the trace `[0x80, 0, .., 0]`: the 17 stores lie in
`[0, 272)` and the entry of the offset table is 17. -/
theorem full_subchunks_region_witness :
    (∀ s, s ∈ (CompressionKernel 1 highBit fullCut 0 0 zeroScratch).stores →
      startOff (chunkStart fullCut 0) ≤ s.1 ∧ s.1 < startOff (chunkTerm fullCut 0)) ∧
    startOff (chunkStart fullCut 0) ≤ offdEntry 1 highBit fullCut 0 0 zeroScratch ∧
    offdEntry 1 highBit fullCut 0 0 zeroScratch ≤ startOff (chunkTerm fullCut 0) ∧
    startOff (chunkTerm fullCut 0)
      = startOff (chunkStart fullCut 0)
        + 272 * ((chunkTerm fullCut 0 - chunkStart fullCut 0) / 32) ∧
    0 ≤ startOff (chunkStart fullCut 0) ∧ startOff (chunkTerm fullCut 0) < 2 ^ 31 :=
  full_subchunks_region 1 highBit fullCut 0 0 zeroScratch (by decide) (by decide) (by decide)
    (by decide)

/-- C24: in a subchunk with `0 < n < 32` active lanes (lanes `0 .. n-1`) and cursor `off`
(the last subchunk of a chunk), the encoder stores the header byte `off + j` exactly for those
`j` with `2j + 1 < n`, since only odd active lanes store header bytes; when `n` is odd, no
byte at all is stored at `off + (n-1)/2`, where the header nibble of the last element of the
chunk (lane `n-1`) belongs, although the payload bytes of that element are stored. -/
theorem tail_header_stores (D : Int) (cbufd : Int → Nat) (start term : Int) (wib : Nat)
    (ibufs : Nat → Int) (k n j : Nat)
    (hn0 : 0 < n) (hn32 : n < 32)
    (hn : ∀ l, active start term k l = true ↔ l < n) :
    (∀ l, l < 32 →
      (compRun D cbufd start term wib k (compInit start wib ibufs)).off l
        = cur D cbufd start k) ∧
    ((∃ b, (cur D cbufd start k + (j : Int), b) ∈
        passHeader (active start term k)
          (compRun D cbufd start term wib k (compInit start wib ibufs)).off
          (fun l => headerCode (passDelta cbufd start k
            (compRun D cbufd start term wib k (compInit start wib ibufs)) l))
          (passCodes cbufd start term wib k
            (compRun D cbufd start term wib k (compInit start wib ibufs))) wib)
      ↔ 2 * j + 1 < n) ∧
    (∀ s, s ∈ passHeader (active start term k)
          (compRun D cbufd start term wib k (compInit start wib ibufs)).off
          (fun l => headerCode (passDelta cbufd start k
            (compRun D cbufd start term wib k (compInit start wib ibufs)) l))
          (passCodes cbufd start term wib k
            (compRun D cbufd start term wib k (compInit start wib ibufs))) wib →
      ∃ l, l < n ∧ l % 2 = 1 ∧ s.1 = cur D cbufd start k + ((l / 2 : Nat) : Int)) ∧
    (compRun D cbufd start term wib (k + 1) (compInit start wib ibufs)).stores
      = (compRun D cbufd start term wib k (compInit start wib ibufs)).stores
        ++ passPayload (active start term k)
            (passBeg cbufd start term wib k
              (compRun D cbufd start term wib k (compInit start wib ibufs)))
            (passDelta cbufd start k
              (compRun D cbufd start term wib k (compInit start wib ibufs)))
        ++ passHeader (active start term k)
            (compRun D cbufd start term wib k (compInit start wib ibufs)).off
            (fun l => headerCode (passDelta cbufd start k
              (compRun D cbufd start term wib k (compInit start wib ibufs)) l))
            (passCodes cbufd start term wib k
              (compRun D cbufd start term wib k (compInit start wib ibufs))) wib ∧
    (n % 2 = 1 →
      (∀ s, s ∈ passPayload (active start term k)
            (passBeg cbufd start term wib k
              (compRun D cbufd start term wib k (compInit start wib ibufs)))
            (passDelta cbufd start k
              (compRun D cbufd start term wib k (compInit start wib ibufs)))
          ++ passHeader (active start term k)
            (compRun D cbufd start term wib k (compInit start wib ibufs)).off
            (fun l => headerCode (passDelta cbufd start k
              (compRun D cbufd start term wib k (compInit start wib ibufs)) l))
            (passCodes cbufd start term wib k
              (compRun D cbufd start term wib k (compInit start wib ibufs))) wib →
        s.1 ≠ cur D cbufd start k + (((n - 1) / 2 : Nat) : Int)) ∧
      (∀ s, s ∈ payloadStores
            (passBeg cbufd start term wib k
              (compRun D cbufd start term wib k (compInit start wib ibufs)) (n - 1))
            (passDelta cbufd start k
              (compRun D cbufd start term wib k (compInit start wib ibufs)) (n - 1)).diff
            (passDelta cbufd start k
              (compRun D cbufd start term wib k (compInit start wib ibufs)) (n - 1)).bcount →
        s ∈ (compRun D cbufd start term wib (k + 1) (compInit start wib ibufs)).stores)) := by
  have h0a : active start term k 0 = true := (hn 0).2 hn0
  have hk : start + 32 * (k : Int) ≤ term := by
    rw [active_iff] at h0a
    omega
  obtain ⟨hoff, _, hpad⟩ := compRun_full D cbufd start term wib ibufs k hk
  have hsucc := compRun_succ D cbufd start term wib k (compInit start wib ibufs)
  generalize compRun D cbufd start term wib k (compInit start wib ibufs) = st at *
  have hhdr : ∀ s, s ∈ passHeader (active start term k) st.off
        (fun l => headerCode (passDelta cbufd start k st l))
        (passCodes cbufd start term wib k st) wib →
      ∃ l, l < n ∧ l % 2 = 1 ∧ s.1 = cur D cbufd start k + ((l / 2 : Nat) : Int) := by
    intro s hs
    obtain ⟨l, hl, ha, ho, rfl⟩ := mem_passHeader_iff.1 hs
    refine ⟨l, (hn l).1 ha, odd_lane l ho, ?_⟩
    simp only
    rw [hoff l hl, Nat.shiftRight_eq_div_pow]
  refine ⟨hoff, ?_, hhdr, ?_, ?_⟩
  · constructor
    · rintro ⟨b, hb⟩
      obtain ⟨l, hl, hodd, he⟩ := hhdr _ hb
      simp only at he
      omega
    · intro hj
      refine ⟨toByte (intOr (passCodes cbufd start term wib k st (iindex wib (2 * j + 1) - 1))
          (intShl (headerCode (passDelta cbufd start k st (2 * j + 1))) 4)),
        mem_passHeader_iff.2 ⟨2 * j + 1, by omega, (hn _).2 hj, ?_, ?_⟩⟩
      · rw [Nat.and_one_is_mod]; omega
      · have e3 : (2 * j + 1) >>> 1 = j := by
          rw [Nat.shiftRight_eq_div_pow]; omega
        rw [hoff _ (by omega), e3]
  · rw [hsucc]
    rfl
  · intro hodd
    constructor
    · intro s hs
      rw [List.mem_append] at hs
      rcases hs with hs | hs
      · obtain ⟨l, t, hl, ht, rfl⟩ := mem_passPayload hs
        rw [passBeg_eq cbufd start term wib k st (cur D cbufd start k)
          (fun l hl => hoff l (active_lt hl)) hpad l hl]
        have hnn := pre_nonneg (fun l => (passDelta cbufd start k st l).bcount)
          (fun l => (delta_bcount_range _ _).1) l
        simp only
        omega
      · obtain ⟨l, hl, hlo, he⟩ := hhdr s hs
        rw [he]
        omega
    · intro s hs
      rw [hsucc]
      simp only [compPass, List.mem_append]
      left; right
      exact mem_passPayload_of (n - 1) (by omega) ((hn _).2 (by omega)) hs

/-- C24, at the single chunk `[0, 1)` of the trace `[1]`: one active lane, no header byte is
stored, the payload byte is. -/
theorem tail_header_stores_witness :
    (∀ l, l < 32 →
      (compRun 1 oneWord 0 1 0 0 (compInit 0 0 zeroScratch)).off l
        = cur 1 oneWord 0 0) ∧
    ((∃ b, (cur 1 oneWord 0 0 + (0 : Int), b) ∈
        passHeader (active 0 1 0)
          (compRun 1 oneWord 0 1 0 0 (compInit 0 0 zeroScratch)).off
          (fun l => headerCode (passDelta oneWord 0 0
            (compRun 1 oneWord 0 1 0 0 (compInit 0 0 zeroScratch)) l))
          (passCodes oneWord 0 1 0 0
            (compRun 1 oneWord 0 1 0 0 (compInit 0 0 zeroScratch))) 0)
      ↔ 2 * 0 + 1 < 1) ∧
    (∀ s, s ∈ passHeader (active 0 1 0)
          (compRun 1 oneWord 0 1 0 0 (compInit 0 0 zeroScratch)).off
          (fun l => headerCode (passDelta oneWord 0 0
            (compRun 1 oneWord 0 1 0 0 (compInit 0 0 zeroScratch)) l))
          (passCodes oneWord 0 1 0 0
            (compRun 1 oneWord 0 1 0 0 (compInit 0 0 zeroScratch))) 0 →
      ∃ l, l < 1 ∧ l % 2 = 1 ∧ s.1 = cur 1 oneWord 0 0 + ((l / 2 : Nat) : Int)) ∧
    (compRun 1 oneWord 0 1 0 (0 + 1) (compInit 0 0 zeroScratch)).stores
      = (compRun 1 oneWord 0 1 0 0 (compInit 0 0 zeroScratch)).stores
        ++ passPayload (active 0 1 0)
            (passBeg oneWord 0 1 0 0
              (compRun 1 oneWord 0 1 0 0 (compInit 0 0 zeroScratch)))
            (passDelta oneWord 0 0
              (compRun 1 oneWord 0 1 0 0 (compInit 0 0 zeroScratch)))
        ++ passHeader (active 0 1 0)
            (compRun 1 oneWord 0 1 0 0 (compInit 0 0 zeroScratch)).off
            (fun l => headerCode (passDelta oneWord 0 0
              (compRun 1 oneWord 0 1 0 0 (compInit 0 0 zeroScratch)) l))
            (passCodes oneWord 0 1 0 0
              (compRun 1 oneWord 0 1 0 0 (compInit 0 0 zeroScratch))) 0 ∧
    (1 % 2 = 1 →
      (∀ s, s ∈ passPayload (active 0 1 0)
            (passBeg oneWord 0 1 0 0
              (compRun 1 oneWord 0 1 0 0 (compInit 0 0 zeroScratch)))
            (passDelta oneWord 0 0
              (compRun 1 oneWord 0 1 0 0 (compInit 0 0 zeroScratch)))
          ++ passHeader (active 0 1 0)
            (compRun 1 oneWord 0 1 0 0 (compInit 0 0 zeroScratch)).off
            (fun l => headerCode (passDelta oneWord 0 0
              (compRun 1 oneWord 0 1 0 0 (compInit 0 0 zeroScratch)) l))
            (passCodes oneWord 0 1 0 0
              (compRun 1 oneWord 0 1 0 0 (compInit 0 0 zeroScratch))) 0 →
        s.1 ≠ cur 1 oneWord 0 0 + (((1 - 1) / 2 : Nat) : Int)) ∧
      (∀ s, s ∈ payloadStores
            (passBeg oneWord 0 1 0 0
              (compRun 1 oneWord 0 1 0 0 (compInit 0 0 zeroScratch)) (1 - 1))
            (passDelta oneWord 0 0
              (compRun 1 oneWord 0 1 0 0 (compInit 0 0 zeroScratch)) (1 - 1)).diff
            (passDelta oneWord 0 0
              (compRun 1 oneWord 0 1 0 0 (compInit 0 0 zeroScratch)) (1 - 1)).bcount →
        s ∈ (compRun 1 oneWord 0 1 0 (0 + 1) (compInit 0 0 zeroScratch)).stores)) :=
  tail_header_stores 1 oneWord 0 1 0 zeroScratch 0 1 0 (by decide) (by decide)
    (fun l => by rw [active_iff]; omega)

/-! ## Two runs on traces that agree on the chunk -/

theorem active_succ {start term : Int} {k l : Nat} (h : active start term (k + 1) l = true) :
    active start term k l = true ∧ active start term k 31 = true := by
  rw [active_iff] at h ⊢
  rw [active_iff]
  push_cast at h
  omega

theorem passDelta_congr (c c' : Int → Nat) (start term : Int) (k : Nat) (st st' : CompState)
    (hagree : ∀ i, start ≤ i → i < term → c i = c' i) (l : Nat)
    (hl : active start term k l = true) (hprev : st.prev l = st'.prev l) :
    passDelta c start k st l = passDelta c' start k st' l := by
  unfold passDelta
  have ha := (active_iff _ _ _ _).1 hl
  rw [hprev, hagree (laneIndex start k l) (by rw [laneIndex_eq]; omega)
    (by rw [laneIndex_eq]; omega)]

/-- One pass keeps two runs in step: the lanes of the next pass have the same cursor and the
same prediction, the stores made and the cursor of lane 31 are the same. -/
theorem compPass_congr (D : Int) (c c' : Int → Nat) (start term : Int) (wib wib' k : Nat)
    (st st' : CompState) (hD1 : 1 ≤ D) (hD32 : D ≤ 32)
    (hagree : ∀ i, start ≤ i → i < term → c i = c' i)
    (hreg : ∀ l, active start term k l = true → st.off l = st'.off l ∧ st.prev l = st'.prev l)
    (hpad : ∀ j, wib * 48 ≤ j → j < iindex wib 0 → st.ibufs j = 0)
    (hpad' : ∀ j, wib' * 48 ≤ j → j < iindex wib' 0 → st'.ibufs j = 0)
    (hstores : st.stores = st'.stores) (h31 : st.off 31 = st'.off 31) :
    (∀ l, active start term (k + 1) l = true →
      (compPass D c start term wib k st).off l = (compPass D c' start term wib' k st').off l ∧
      (compPass D c start term wib k st).prev l = (compPass D c' start term wib' k st').prev l) ∧
    (∀ j, wib * 48 ≤ j → j < iindex wib 0 → (compPass D c start term wib k st).ibufs j = 0) ∧
    (∀ j, wib' * 48 ≤ j → j < iindex wib' 0 →
      (compPass D c' start term wib' k st').ibufs j = 0) ∧
    (compPass D c start term wib k st).stores = (compPass D c' start term wib' k st').stores ∧
    (compPass D c start term wib k st).off 31 = (compPass D c' start term wib' k st').off 31 := by
  have hlt : ∀ l, active start term k l = true → l < 32 := fun l h => active_lt h
  have hdown : ∀ l l', l' ≤ l → active start term k l = true → active start term k l' = true :=
    fun l l' h h' => active_down h h'
  have hd : ∀ l, active start term k l = true →
      passDelta c start k st l = passDelta c' start k st' l :=
    fun l hl => passDelta_congr c c' start term k st st' hagree l hl (hreg l hl).2
  have hpre : ∀ l n, n ≤ l + 1 → active start term k l = true →
      pre (fun x => (passDelta c start k st x).bcount) n
        = pre (fun x => (passDelta c' start k st' x).bcount) n := by
    intro l n hn hl
    apply pre_congr
    intro x hx
    show (passDelta c start k st x).bcount = (passDelta c' start k st' x).bcount
    rw [hd x (hdown l x (by omega) hl)]
  have hbeg : ∀ l, active start term k l = true →
      passBeg c start term wib k st l = passBeg c' start term wib' k st' l := by
    intro l hl
    unfold passBeg passScan
    rw [scan_store_excl wib _ _ _ hlt hdown hpad l hl,
      scan_store_excl wib' _ _ _ hlt hdown hpad' l hl, (hreg l hl).1, hpre l l (by omega) hl]
  have htmp : active start term k 31 = true →
      passTmp c start term wib k st = passTmp c' start term wib' k st' := by
    intro hl
    unfold passTmp passScan
    rw [scan_store_last wib _ _ _ hlt hdown hpad hl,
      scan_store_last wib' _ _ _ hlt hdown hpad' hl, hpre 31 32 (by omega) hl]
  have hpay : passPayload (active start term k) (passBeg c start term wib k st)
        (passDelta c start k st)
      = passPayload (active start term k) (passBeg c' start term wib' k st')
        (passDelta c' start k st') := by
    unfold passPayload
    congr 1
    funext l
    by_cases hl : active start term k l = true
    · rw [if_pos hl, if_pos hl, hbeg l hl, hd l hl]
    · rw [if_neg hl, if_neg hl]
  have hhdr : passHeader (active start term k) st.off
        (fun l => headerCode (passDelta c start k st l)) (passCodes c start term wib k st) wib
      = passHeader (active start term k) st'.off
        (fun l => headerCode (passDelta c' start k st' l))
        (passCodes c' start term wib' k st') wib' := by
    unfold passHeader
    congr 1
    funext l
    by_cases hl : active start term k l = true ∧ l &&& 1 ≠ 0
    · rw [if_pos hl, if_pos hl]
      have hodd := odd_lane l hl.2
      have e1 : iindex wib l - 1 = iindex wib (l - 1) := by simp only [iindex_eq]; omega
      have e2 : iindex wib' l - 1 = iindex wib' (l - 1) := by simp only [iindex_eq]; omega
      have hl1 := hdown l (l - 1) (by omega) hl.1
      rw [e1, e2, passCodes_active _ _ _ _ _ _ _ hl1, passCodes_active _ _ _ _ _ _ _ hl1]
      simp only [hd l hl.1, hd (l - 1) hl1, (hreg l hl.1).1]
    · rw [if_neg hl, if_neg hl]
  refine ⟨?_, ?_, ?_, ?_, ?_⟩
  · intro l hl
    obtain ⟨hk, hk31⟩ := active_succ hl
    have ha := (active_iff _ _ _ _).1 hl
    simp only [compPass]
    rw [if_pos hk, if_pos hk, if_pos hk, if_pos hk, (hreg l hk).1, htmp hk31]
    refine ⟨rfl, ?_⟩
    have hm0 : 0 ≤ (l : Int) % D := Int.emod_nonneg _ (by omega)
    have hm1 : (l : Int) % D < D := Int.emod_lt_of_pos _ (by omega)
    apply hagree
    · rw [laneIndex_eq, offset_eq D l hD1]; omega
    · rw [laneIndex_eq, offset_eq D l hD1]; push_cast at ha; omega
  · intro j h1 h2
    rw [compPass_ibufs_below _ _ _ _ _ _ _ _ h2]
    exact hpad j h1 h2
  · intro j h1 h2
    rw [compPass_ibufs_below _ _ _ _ _ _ _ _ h2]
    exact hpad' j h1 h2
  · simp only [compPass]
    rw [hstores, hpay, hhdr]
  · simp only [compPass]
    by_cases hl : active start term k 31 = true
    · rw [if_pos hl, if_pos hl, h31, htmp hl]
    · rw [if_neg hl, if_neg hl, h31]

theorem compRun_congr (D : Int) (c c' : Int → Nat) (start term : Int) (wib wib' : Nat)
    (ibufs ibufs' : Nat → Int) (hD1 : 1 ≤ D) (hD32 : D ≤ 32)
    (hagree : ∀ i, start ≤ i → i < term → c i = c' i) (n : Nat) :
    (∀ l, active start term n l = true →
      (compRun D c start term wib n (compInit start wib ibufs)).off l
        = (compRun D c' start term wib' n (compInit start wib' ibufs')).off l ∧
      (compRun D c start term wib n (compInit start wib ibufs)).prev l
        = (compRun D c' start term wib' n (compInit start wib' ibufs')).prev l) ∧
    (∀ j, wib * 48 ≤ j → j < iindex wib 0 →
      (compRun D c start term wib n (compInit start wib ibufs)).ibufs j = 0) ∧
    (∀ j, wib' * 48 ≤ j → j < iindex wib' 0 →
      (compRun D c' start term wib' n (compInit start wib' ibufs')).ibufs j = 0) ∧
    (compRun D c start term wib n (compInit start wib ibufs)).stores
      = (compRun D c' start term wib' n (compInit start wib' ibufs')).stores ∧
    (compRun D c start term wib n (compInit start wib ibufs)).off 31
      = (compRun D c' start term wib' n (compInit start wib' ibufs')).off 31 := by
  induction n with
  | zero =>
    exact ⟨fun l _ => ⟨rfl, rfl⟩, fun j h1 h2 => clearScratch_pad wib ibufs j h1 h2,
      fun j h1 h2 => clearScratch_pad wib' ibufs' j h1 h2, rfl, rfl⟩
  | succ n ih =>
    obtain ⟨h1, h2, h3, h4, h5⟩ := ih
    rw [compRun_succ, compRun_succ]
    exact compPass_congr D c c' start term wib wib' n _ _ hD1 hD32 hagree h1 h2 h3 h4 h5

/-- C23: for `1 ≤ D ≤ 32`, if two traces agree on every index of the chunk `[start, term)` of
a warp, then `CompressionKernel` with the same `D` and boundaries stores the same bytes at the
same positions, in the same order, for that chunk and the same offset-table entry for both
traces, whatever the traces hold outside `[start, term)` and whatever the scratch array held
before. -/
theorem chunk_independence (D : Int) (cbufd cbufd' : Int → Nat) (cutd : Nat → Int)
    (wib wib' warp : Nat) (ibufs ibufs' : Nat → Int) (hD1 : 1 ≤ D) (hD32 : D ≤ 32)
    (hagree : ∀ i, chunkStart cutd warp ≤ i → i < chunkTerm cutd warp → cbufd i = cbufd' i) :
    (CompressionKernel D cbufd cutd wib warp ibufs).stores
      = (CompressionKernel D cbufd' cutd wib' warp ibufs').stores ∧
    offdEntry D cbufd cutd wib warp ibufs = offdEntry D cbufd' cutd wib' warp ibufs' := by
  have h := compRun_congr D cbufd cbufd' (chunkStart cutd warp) (chunkTerm cutd warp) wib wib'
    ibufs ibufs' hD1 hD32 hagree (numPasses (chunkStart cutd warp) (chunkTerm cutd warp))
  exact ⟨h.2.2.2.1, h.2.2.2.2⟩

/-- C23, at the chunk `[2, 4)` of `[0x010203, 0, 5, 7]` and of `[0, 0, 5, 7]`. -/
theorem chunk_independence_witness :
    (CompressionKernel 1 pairTrace pairCuts 0 1 zeroScratch).stores
      = (CompressionKernel 1 (fun i => if i = 2 then 5 else if i = 3 then 7 else 0) pairCuts 0 1
          zeroScratch).stores ∧
    offdEntry 1 pairTrace pairCuts 0 1 zeroScratch
      = offdEntry 1 (fun i => if i = 2 then 5 else if i = 3 then 7 else 0) pairCuts 0 1
          zeroScratch :=
  chunk_independence 1 pairTrace (fun i => if i = 2 then 5 else if i = 3 then 7 else 0) pairCuts
    0 0 1 zeroScratch zeroScratch (by decide) (by decide) (by
      intro i h1 h2
      have h1' : (2 : Int) ≤ i := h1
      have h2' : i < 4 := h2
      have : i = 2 ∨ i = 3 := by omega
      rcases this with rfl | rfl <;> rfl)

/-! ## The round trip of chunks of full subchunks -/

theorem passDelta_full (D : Int) (cbufd : Int → Nat) (start term : Int) (wib : Nat)
    (ibufs : Nat → Int) (k : Nat) (hk : start + 32 * (k : Int) ≤ term) (l : Nat) (hl : l < 32) :
    passDelta cbufd start k (compRun D cbufd start term wib k (compInit start wib ibufs)) l
      = dlt D cbufd start k l := by
  unfold passDelta dlt
  rw [(compRun_full D cbufd start term wib ibufs k hk).2.1 l hl]

theorem mem_compRun_succ (D : Int) (cbufd : Int → Nat) (start term : Int) (wib : Nat)
    (ibufs : Nat → Int) (k : Nat) (h31 : active start term k 31 = true) (s : Int × Nat) :
    s ∈ (compRun D cbufd start term wib (k + 1) (compInit start wib ibufs)).stores ↔
      s ∈ (compRun D cbufd start term wib k (compInit start wib ibufs)).stores ∨
      (∃ l t : Nat, l < 32 ∧ (t : Int) < (dlt D cbufd start k l).bcount ∧
        s = (payloadAddr D cbufd start k l + (t : Int),
          ((dlt D cbufd start k l).diff >>> (8 * t)) % 256)) ∨
      (∃ j : Nat, j < 16 ∧
        s = (cur D cbufd start k + (j : Int), headerByte D cbufd start k j)) := by
  have hfull := active_full h31
  have hk : start + 32 * (k : Int) ≤ term := by omega
  obtain ⟨hoff, hprev, hpad⟩ := compRun_full D cbufd start term wib ibufs k hk
  have hact : ∀ l, l < 32 → active start term k l = true := fun l hl =>
    active_down (by omega) h31
  have hd := passDelta_full D cbufd start term wib ibufs k hk
  have hoff' : ∀ l, active start term k l = true →
      (compRun D cbufd start term wib k (compInit start wib ibufs)).off l
        = cur D cbufd start k := fun l hl => hoff l (active_lt hl)
  have hbeg : ∀ l, l < 32 →
      passBeg cbufd start term wib k (compRun D cbufd start term wib k (compInit start wib ibufs)) l
        = payloadAddr D cbufd start k l := by
    intro l hl
    rw [passBeg_eq cbufd start term wib k _ (cur D cbufd start k) hoff' hpad l (hact l hl)]
    unfold payloadAddr
    congr 1
    apply pre_congr
    intro x hx
    exact congrArg Delta.bcount (hd x (by omega))
  rw [compRun_succ]
  simp only [compPass, List.mem_append]
  constructor
  · rintro ((h | h) | h)
    · exact Or.inl h
    · obtain ⟨l, t, hl, ht, hs⟩ := mem_passPayload h
      have hl32 := active_lt hl
      rw [hd l hl32] at ht hs
      rw [hbeg l hl32] at hs
      exact Or.inr (Or.inl ⟨l, t, hl32, ht, hs⟩)
    · obtain ⟨l, hl32, hl, hodd, hs⟩ := mem_passHeader_iff.1 h
      have hodd' := odd_lane l hodd
      have e1 : iindex wib l - 1 = iindex wib (l - 1) := by simp only [iindex_eq]; omega
      rw [e1, passCodes_active _ _ _ _ _ _ _ (hact (l - 1) (by omega)), hoff l hl32,
        hd (l - 1) (by omega)] at hs
      simp only [hd l hl32] at hs
      refine Or.inr (Or.inr ⟨l / 2, by omega, ?_⟩)
      rw [hs]
      unfold headerByte
      have e2 : 2 * (l / 2) = l - 1 := by omega
      have e3 : 2 * (l / 2) + 1 = l := by omega
      have e4 : l >>> 1 = l / 2 := Nat.shiftRight_eq_div_pow l 1
      rw [e2, e4]
      have e5 : l - 1 + 1 = l := by omega
      rw [e5]
  · rintro (h | ⟨l, t, hl, ht, hs⟩ | ⟨j, hj, hs⟩)
    · exact Or.inl (Or.inl h)
    · refine Or.inl (Or.inr (mem_passPayload_of l hl (hact l hl) ?_))
      rw [hd l hl, hbeg l hl]
      exact mem_payloadStores_iff.2 ⟨t, ht, hs⟩
    · refine Or.inr (mem_passHeader_iff.2 ⟨2 * j + 1, by omega, hact _ (by omega), ?_, ?_⟩)
      · have : (2 * j + 1) &&& 1 = 1 := by
          rw [Nat.and_one_is_mod]; omega
        omega
      · have e1 : iindex wib (2 * j + 1) - 1 = iindex wib (2 * j) := by
          simp only [iindex_eq]; omega
        rw [e1, passCodes_active _ _ _ _ _ _ _ (hact (2 * j) (by omega)), hoff _ (by omega),
          hd (2 * j) (by omega)]
        simp only [hd (2 * j + 1) (by omega)]
        have e4 : (2 * j + 1) >>> 1 = j := by rw [Nat.shiftRight_eq_div_pow]; omega
        rw [e4, hs]
        rfl

theorem mem_compRun_iff (D : Int) (cbufd : Int → Nat) (start term : Int) (wib : Nat)
    (ibufs : Nat → Int) (n : Nat) (hn : start + 32 * (n : Int) ≤ term) (s : Int × Nat) :
    s ∈ (compRun D cbufd start term wib n (compInit start wib ibufs)).stores ↔
      Emitted D cbufd start n s := by
  induction n with
  | zero =>
    rw [compRun_zero]
    constructor
    · intro h
      exact absurd h (List.not_mem_nil s)
    · rintro ⟨k, hk, _⟩
      omega
  | succ n ih =>
    have h31 : active start term n 31 = true := by
      rw [active_iff]; push_cast at hn; omega
    rw [mem_compRun_succ D cbufd start term wib ibufs n h31 s, ih (by push_cast at hn; omega)]
    constructor
    · rintro (⟨k, hk, h⟩ | h)
      · exact ⟨k, by omega, h⟩
      · exact ⟨n, by omega, h⟩
    · rintro ⟨k, hk, h⟩
      by_cases e : k = n
      · subst e
        exact Or.inr h
      · exact Or.inl ⟨k, by omega, h⟩

theorem cur_mono (D : Int) (cbufd : Int → Nat) (start : Int) {k k' : Nat} (h : k ≤ k') :
    cur D cbufd start k ≤ cur D cbufd start k' := by
  induction k' with
  | zero =>
    have : k = 0 := by omega
    subst this
    exact le_refl _
  | succ n ih =>
    by_cases e : k = n + 1
    · subst e
      exact le_refl _
    · have h1 := ih (by omega)
      have h2 := cur_succ D cbufd start n
      have h3 := tot_range D cbufd start n
      omega

theorem payloadAddr_succ (D : Int) (cbufd : Int → Nat) (start : Int) (k l : Nat) :
    payloadAddr D cbufd start k (l + 1)
      = payloadAddr D cbufd start k l + (dlt D cbufd start k l).bcount := by
  unfold payloadAddr
  simp only [pre]
  ring

theorem payloadAddr_mono (D : Int) (cbufd : Int → Nat) (start : Int) (k : Nat) {l l' : Nat}
    (h : l ≤ l') : payloadAddr D cbufd start k l ≤ payloadAddr D cbufd start k l' := by
  unfold payloadAddr
  have := pre_mono (fun x => (dlt D cbufd start k x).bcount)
    (fun x => (dlt_bcount_range D cbufd start k x).1) h
  omega

theorem payloadAddr_range (D : Int) (cbufd : Int → Nat) (start : Int) (k l : Nat)
    (hl : l ≤ 32) :
    cur D cbufd start k + 16 ≤ payloadAddr D cbufd start k l ∧
      payloadAddr D cbufd start k l ≤ cur D cbufd start (k + 1) := by
  have h0 : payloadAddr D cbufd start k 0 = cur D cbufd start k + 16 := by
    unfold payloadAddr
    simp only [pre]
    ring
  have h32 : payloadAddr D cbufd start k 32 = cur D cbufd start (k + 1) := by
    rw [cur_succ, tot_eq]
    unfold payloadAddr
    ring
  have h1 := payloadAddr_mono D cbufd start k (Nat.zero_le l)
  have h2 := payloadAddr_mono D cbufd start k hl
  omega

/-- What the first `n` full passes store lies between the cursor of a pass and the cursor of
the next one, and an address receives one value only. -/
theorem Emitted_range (D : Int) (cbufd : Int → Nat) (start : Int) (n : Nat) (s : Int × Nat)
    (h : Emitted D cbufd start n s) :
    cur D cbufd start 0 ≤ s.1 ∧ s.1 < cur D cbufd start n := by
  obtain ⟨k, hk, h⟩ := h
  have h1 := cur_mono D cbufd start (Nat.zero_le k)
  have h2 : cur D cbufd start (k + 1) ≤ cur D cbufd start n := cur_mono D cbufd start hk
  rcases h with ⟨l, t, hl, ht, hs⟩ | ⟨j, hj, hs⟩
  · have h3 := payloadAddr_range D cbufd start k l (by omega)
    have h4 := payloadAddr_range D cbufd start k (l + 1) (by omega)
    have h5 := payloadAddr_succ D cbufd start k l
    rw [hs]
    show _ ≤ payloadAddr D cbufd start k l + (t : Int) ∧
      payloadAddr D cbufd start k l + (t : Int) < _
    omega
  · have h3 := payloadAddr_range D cbufd start k 0 (by omega)
    rw [hs]
    show _ ≤ cur D cbufd start k + (j : Int) ∧ cur D cbufd start k + (j : Int) < _
    omega

theorem Emitted_unique (D : Int) (cbufd : Int → Nat) (start : Int) (n n' : Nat)
    (s s' : Int × Nat) (h : Emitted D cbufd start n s) (h' : Emitted D cbufd start n' s')
    (e : s.1 = s'.1) : s.2 = s'.2 := by
  obtain ⟨k, _, h⟩ := h
  obtain ⟨k', _, h'⟩ := h'
  have r : cur D cbufd start k ≤ s.1 ∧ s.1 < cur D cbufd start (k + 1) := by
    have := Emitted_range D cbufd start (k + 1) s ⟨k, by omega, h⟩
    rcases h with ⟨l, t, hl, ht, hs⟩ | ⟨j, hj, hs⟩
    · have h3 := payloadAddr_range D cbufd start k l (by omega)
      refine ⟨?_, this.2⟩
      rw [hs]
      show _ ≤ payloadAddr D cbufd start k l + (t : Int)
      omega
    · refine ⟨?_, this.2⟩
      rw [hs]
      show _ ≤ cur D cbufd start k + (j : Int)
      omega
  have r' : cur D cbufd start k' ≤ s'.1 ∧ s'.1 < cur D cbufd start (k' + 1) := by
    have := Emitted_range D cbufd start (k' + 1) s' ⟨k', by omega, h'⟩
    rcases h' with ⟨l, t, hl, ht, hs⟩ | ⟨j, hj, hs⟩
    · have h3 := payloadAddr_range D cbufd start k' l (by omega)
      refine ⟨?_, this.2⟩
      rw [hs]
      show _ ≤ payloadAddr D cbufd start k' l + (t : Int)
      omega
    · refine ⟨?_, this.2⟩
      rw [hs]
      show _ ≤ cur D cbufd start k' + (j : Int)
      omega
  have hk : k = k' := by
    rcases Nat.lt_trichotomy k k' with hlt | heq | hgt
    · have : cur D cbufd start (k + 1) ≤ cur D cbufd start k' := cur_mono D cbufd start hlt
      omega
    · exact heq
    · have : cur D cbufd start (k' + 1) ≤ cur D cbufd start k := cur_mono D cbufd start hgt
      omega
  subst hk
  rcases h with ⟨l, t, hl, ht, hs⟩ | ⟨j, hj, hs⟩ <;>
    rcases h' with ⟨l', t', hl', ht', hs'⟩ | ⟨j', hj', hs'⟩
  · rw [hs, hs'] at e
    have e' : payloadAddr D cbufd start k l + (t : Int)
        = payloadAddr D cbufd start k l' + (t' : Int) := e
    have a1 := payloadAddr_succ D cbufd start k l
    have a2 := payloadAddr_succ D cbufd start k l'
    have hll : l = l' := by
      rcases Nat.lt_trichotomy l l' with hlt | heq | hgt
      · have := payloadAddr_mono D cbufd start k (show l + 1 ≤ l' from hlt)
        omega
      · exact heq
      · have := payloadAddr_mono D cbufd start k (show l' + 1 ≤ l from hgt)
        omega
    subst hll
    have htt : t = t' := by omega
    subst htt
    rw [hs, hs']
  · rw [hs, hs'] at e
    have e' : payloadAddr D cbufd start k l + (t : Int) = cur D cbufd start k + (j' : Int) := e
    have h3 := payloadAddr_range D cbufd start k l (by omega)
    omega
  · rw [hs, hs'] at e
    have e' : cur D cbufd start k + (j : Int) = payloadAddr D cbufd start k l' + (t' : Int) := e
    have h3 := payloadAddr_range D cbufd start k l' (by omega)
    omega
  · rw [hs, hs'] at e
    have e' : cur D cbufd start k + (j : Int) = cur D cbufd start k + (j' : Int) := e
    have : j = j' := by omega
    subst this
    rw [hs, hs']

theorem applyStores_not_mem (xs : List (Int × Nat)) (m : Int → Nat) (a : Int)
    (h : ∀ s, s ∈ xs → s.1 ≠ a) : applyStores xs m a = m a := by
  induction xs generalizing m with
  | nil => rfl
  | cons x xs ih =>
    have e : applyStores (x :: xs) m = applyStores xs (fun b => if b = x.1 then x.2 else m b) :=
      rfl
    rw [e, ih _ (fun s hs => h s (List.mem_cons_of_mem _ hs))]
    have := h x (List.mem_cons_self _ _)
    exact if_neg (fun e => this e.symm)

theorem applyStores_unique (xs : List (Int × Nat)) (m : Int → Nat) (a : Int) (v : Nat)
    (hmem : (a, v) ∈ xs) (h : ∀ s, s ∈ xs → s.1 = a → s.2 = v) :
    applyStores xs m a = v := by
  induction xs generalizing m with
  | nil => exact absurd hmem (List.not_mem_nil _)
  | cons x xs ih =>
    have e : applyStores (x :: xs) m = applyStores xs (fun b => if b = x.1 then x.2 else m b) :=
      rfl
    rw [e]
    by_cases hx : ∃ s, s ∈ xs ∧ s.1 = a
    · obtain ⟨s, hs, hsa⟩ := hx
      have hv := h s (List.mem_cons_of_mem _ hs) hsa
      have : (a, v) ∈ xs := by
        have e2 : s = (a, v) := Prod.ext hsa hv
        rw [← e2]
        exact hs
      exact ih _ this (fun s hs => h s (List.mem_cons_of_mem _ hs))
    · rw [applyStores_not_mem xs _ a (fun s hs e => hx ⟨s, hs, e⟩)]
      rcases List.mem_cons.1 hmem with e1 | e1
      · rw [← e1]
        exact if_pos rfl
      · exact absurd ⟨(a, v), e1, rfl⟩ hx

theorem numPasses_full (start term : Int) (hle : start ≤ term)
    (hfull : (term - start) % 32 = 0) :
    start + 32 * (numPasses start term : Int) = term := by
  rw [numPasses_cast _ _ hle]
  omega

theorem chunk_order (cutd : Nat → Int) (nwarps : Nat) (h0 : 0 ≤ cutd 0)
    (hmono : ∀ j, j + 1 < nwarps → cutd j ≤ cutd (j + 1)) (w w' : Nat) (hlt : w < w')
    (hw' : w' < nwarps) : chunkTerm cutd w ≤ chunkStart cutd w' := by
  have hgen : ∀ n, w + 1 + n < nwarps → chunkTerm cutd w ≤ chunkStart cutd (w + 1 + n) := by
    intro n
    induction n with
    | zero => intro _; rw [chunkStart_succ]; exact le_refl _
    | succ n ih =>
      intro hn
      have := ih (by omega)
      have hv' := chunk_valid cutd nwarps h0 hmono (w + 1 + n) (by omega)
      have e : w + 1 + (n + 1) = (w + 1 + n) + 1 := by omega
      rw [e, chunkStart_succ]
      unfold chunkTerm at hv'
      omega
  have e : w' = w + 1 + (w' - w - 1) := by omega
  rw [e]
  exact hgen _ (by omega)

theorem kernel_mem_iff (D : Int) (cbufd : Int → Nat) (cutd : Nat → Int) (wib warp : Nat)
    (ibufs : Nat → Int) (hle : chunkStart cutd warp ≤ chunkTerm cutd warp)
    (hfull : (chunkTerm cutd warp - chunkStart cutd warp) % 32 = 0) (s : Int × Nat) :
    s ∈ (CompressionKernel D cbufd cutd wib warp ibufs).stores ↔
      Emitted D cbufd (chunkStart cutd warp)
        (numPasses (chunkStart cutd warp) (chunkTerm cutd warp)) s :=
  mem_compRun_iff D cbufd (chunkStart cutd warp) (chunkTerm cutd warp) wib ibufs _
    (le_of_eq (numPasses_full _ _ hle hfull)) s

theorem foldl_applyStores (f : Nat → List (Int × Nat)) (ws : List Nat) (m : Int → Nat) :
    ws.foldl (fun m w => applyStores (f w) m) m = applyStores (ws.flatMap f) m := by
  induction ws generalizing m with
  | nil => rfl
  | cons w ws ih =>
    rw [List.foldl_cons, ih, List.flatMap_cons, applyStores_append]

/-- The closed form of the cursor at the end of a chunk of full subchunks is at most the start
cursor of the next chunk. -/
theorem cur_le_term (D : Int) (cbufd : Int → Nat) (start term : Int) (h0 : 0 ≤ start)
    (hle : start ≤ term) (hfull : (term - start) % 32 = 0) :
    cur D cbufd start (numPasses start term) ≤ startOff term := by
  have h1 := (cur_range D cbufd start (numPasses start term)).2
  have h2 := numPasses_full start term hle hfull
  rw [startOff_eq start h0] at h1
  rw [startOff_eq term (by omega)]
  omega

/-- The compressed buffer holds, at the address of every store of a chunk of full subchunks,
the value of that store: no later store of any warp replaces it with another value. -/
theorem compressedBytes_emitted (D : Int) (cbufd : Int → Nat) (cutd : Nat → Int)
    (nwarps wpb : Nat) (ibufs : Nat → Int) (dbufd : Int → Nat) (h0 : 0 ≤ cutd 0)
    (hmono : ∀ j, j + 1 < nwarps → cutd j ≤ cutd (j + 1))
    (hfull : ∀ w, w < nwarps → (chunkTerm cutd w - chunkStart cutd w) % 32 = 0)
    (w : Nat) (hw : w < nwarps) (a : Int) (v : Nat)
    (h : Emitted D cbufd (chunkStart cutd w)
      (numPasses (chunkStart cutd w) (chunkTerm cutd w)) (a, v)) :
    compressedBytes D cbufd cutd nwarps wpb ibufs dbufd a = v := by
  unfold compressedBytes
  rw [foldl_applyStores (fun w => (CompressionKernel D cbufd cutd (w % wpb) w ibufs).stores)]
  have hv := fun w hw => chunk_valid cutd nwarps h0 hmono w hw
  apply applyStores_unique
  · rw [List.mem_flatMap]
    exact ⟨w, List.mem_range.2 hw,
      (kernel_mem_iff D cbufd cutd _ w ibufs (hv w hw).2 (hfull w hw) _).2 h⟩
  · intro s hs hsa
    rw [List.mem_flatMap] at hs
    obtain ⟨w', hw', hs⟩ := hs
    rw [List.mem_range] at hw'
    rw [kernel_mem_iff D cbufd cutd _ w' ibufs (hv w' hw').2 (hfull w' hw') _] at hs
    have r := Emitted_range _ _ _ _ _ h
    have r' := Emitted_range _ _ _ _ _ hs
    have c := cur_le_term D cbufd _ _ (hv w hw).1 (hv w hw).2 (hfull w hw)
    have c' := cur_le_term D cbufd _ _ (hv w' hw').1 (hv w' hw').2 (hfull w' hw')
    have z : ∀ x, cur D cbufd x 0 = startOff x := fun _ => rfl
    rw [z] at r r'
    rcases Nat.lt_trichotomy w w' with hlt | heq | hgt
    · have := startOff_mono _ _ (by have := (hv w hw); omega)
        (chunk_order cutd nwarps h0 hmono w w' hlt hw')
      have e : s.1 = a := hsa
      have e' : ((a, v) : Int × Nat).1 = a := rfl
      omega
    · subst heq
      exact Emitted_unique _ _ _ _ _ _ _ hs h hsa
    · have := startOff_mono _ _ (by have := (hv w' hw'); omega)
        (chunk_order cutd nwarps h0 hmono w' w hgt hw)
      have e : s.1 = a := hsa
      have e' : ((a, v) : Int × Nat).1 = a := rfl
      omega

theorem decompPass_off (signedChar : Bool) (D : Int) (dbufd : Int → Nat) (start term : Int)
    (wib k : Nat) (st : DecompState) (l : Nat) :
    (decompPass signedChar D dbufd start term wib k st).off l
      = if active start term k l = true
        then st.off l + ((WARPSIZE / 2 : Nat) : Int)
          + decScan signedChar dbufd start term wib k st (lastidx wib)
        else st.off l := rfl

theorem decompPass_ibufs (signedChar : Bool) (D : Int) (dbufd : Int → Nat) (start term : Int)
    (wib k : Nat) (st : DecompState) :
    (decompPass signedChar D dbufd start term wib k st).ibufs
      = decScan signedChar dbufd start term wib k st := rfl

theorem decompPass_fbufd (signedChar : Bool) (D : Int) (dbufd : Int → Nat) (start term : Int)
    (wib k : Nat) (st : DecompState) (a : Int) :
    (decompPass signedChar D dbufd start term wib k st).fbufd a
      = if 0 ≤ a - laneIndex start k 0 ∧
          active start term k (a - laneIndex start k 0).toNat = true
        then add64 (st.prev (a - laneIndex start k 0).toNat)
          (decDiff signedChar dbufd start term wib k st (a - laneIndex start k 0).toNat)
        else st.fbufd a := rfl

theorem nibble_decode (signedChar : Bool) (a b : Int) (ha0 : 0 ≤ a) (ha : a < 16)
    (hb0 : 0 ≤ b) (hb : b < 16) :
    intAnd (charToInt signedChar (toByte (intOr a (intShl b 4)))) 7 = intAnd a 7 ∧
    intAnd (charToInt signedChar (toByte (intOr a (intShl b 4)))) 8 = intAnd a 8 ∧
    intAnd (intSar (charToInt signedChar (toByte (intOr a (intShl b 4)))) 4) 7 = intAnd b 7 ∧
    intAnd (intSar (charToInt signedChar (toByte (intOr a (intShl b 4)))) 4) 8 = intAnd b 8 := by
  rw [byte_pack a b ha0 ha hb0 hb]
  obtain ⟨a', rfl⟩ := Int.eq_ofNat_of_zero_le ha0
  obtain ⟨b', rfl⟩ := Int.eq_ofNat_of_zero_le hb0
  have e : ((a' : Int) + 16 * (b' : Int)).toNat = a' + 16 * b' := by omega
  rw [e]
  have hB : a' + 16 * b' < 256 := by omega
  obtain ⟨h1, h2, h3, h4⟩ := nibble_split signedChar (a' + 16 * b') hB
  rw [h1, h2, h3, h4, intAnd_seven, intAnd_seven, intAnd_eight, intAnd_eight]
  refine ⟨?_, ?_, ?_, ?_⟩ <;> omega

theorem decodeCount_congr (c c' : Int) (h : intAnd c 7 = intAnd c' 7) :
    decodeCount c = decodeCount c' := by
  unfold decodeCount
  simp only [h]

/-- The sign and magnitude of a delta, applied to the prediction, give the value back. -/
theorem delta_decode (value prev : Nat) (hv : value < 2 ^ 64) (hp : prev < 2 ^ 64) :
    add64 prev (if intAnd (headerCode (delta value prev)) 8 ≠ 0
        then neg64 (delta value prev).diff else (delta value prev).diff) = value := by
  have hd : sub64 value prev < 2 ^ 64 := sub64_lt _ _
  have hcode : (delta value prev).code = if 2 ^ 63 ≤ sub64 value prev then 8 else 0 :=
    signCode_eq _ hd
  have hdiff : (delta value prev).diff
      = (if 2 ^ 63 ≤ sub64 value prev then neg64 (sub64 value prev) else sub64 value prev) := by
    show (if signCode (sub64 value prev) ≠ 0 then _ else _) = _
    rw [signCode_eq _ hd]
    by_cases h : 2 ^ 63 ≤ sub64 value prev
    · simp [h]
    · simp [h]
  rw [(headerCode_parts value prev).2.2.1, hdiff, hcode]
  by_cases h : 2 ^ 63 ≤ sub64 value prev
  · simp only [h, if_true]
    rw [if_pos (by norm_num), neg64_neg64 _ hd]
    exact add64_sub64 value prev hv hp
  · simp only [h, if_false]
    rw [if_neg (by norm_num)]
    exact add64_sub64 value prev hv hp

theorem delta_diff_lt_pow (v p : Nat) :
    (delta v p).diff < 256 ^ (delta v p).bcount.toNat := by
  have hr := delta_bcount_range v p
  have hb := delta_bcount_eq v p
  have h64 := delta_diff_lt v p
  have hbr := byteCount_range (delta v p).diff
  apply (byteCount_le_iff _ _ h64 (by omega)).1
  rw [Int.toNat_of_nonneg hr.1, hb]
  split <;> omega

theorem decCodes_pad (signedChar : Bool) (dbufd : Int → Nat) (start term : Int) (wib k : Nat)
    (st : DecompState) (j : Nat) (hj : j < iindex wib 0) :
    decCodes signedChar dbufd start term wib k st j = st.ibufs j := by
  unfold decCodes
  rw [storeNext_pad _ _ _ _ _ hj, storeLanes_pad _ _ _ _ _ hj]

theorem decCodes_full (signedChar : Bool) (D : Int) (cbufd : Int → Nat) (start term : Int)
    (wib k : Nat) (M : Int → Nat) (st : DecompState)
    (h31 : active start term k 31 = true)
    (hH : ∀ j : Nat, j < 16 → M (cur D cbufd start k + (j : Int)) = headerByte D cbufd start k j)
    (hoff : ∀ l, l < 32 → st.off l = cur D cbufd start k) (l : Nat) (hl : l < 32) :
    intAnd (decCodes signedChar M start term wib k st (iindex wib l)) 7
      = intAnd (headerCode (dlt D cbufd start k l)) 7 ∧
    intAnd (decCodes signedChar M start term wib k st (iindex wib l)) 8
      = intAnd (headerCode (dlt D cbufd start k l)) 8 := by
  rw [decCodes_eq signedChar M start term wib k st l h31 hl]
  have hrE := headerCode_range (cbufd (laneIndex start k (2 * (l / 2))))
    (pred D cbufd start k (2 * (l / 2)))
  have hrO := headerCode_range (cbufd (laneIndex start k (2 * (l / 2) + 1)))
    (pred D cbufd start k (2 * (l / 2) + 1))
  have hn := nibble_decode signedChar _ _ hrE.1 hrE.2 hrO.1 hrO.2
  have hb : ∀ x, x < 32 → x / 2 = l / 2 →
      decHeader signedChar M st x
        = charToInt signedChar (toByte (intOr
            (headerCode (delta (cbufd (laneIndex start k (2 * (l / 2))))
              (pred D cbufd start k (2 * (l / 2)))))
            (intShl (headerCode (delta (cbufd (laneIndex start k (2 * (l / 2) + 1)))
              (pred D cbufd start k (2 * (l / 2) + 1)))) 4))) := by
    intro x hx hxl
    unfold decHeader
    have e4 : x >>> 1 = l / 2 := by rw [Nat.shiftRight_eq_div_pow]; omega
    rw [hoff x hx, e4, hH (l / 2) (by omega)]
    rfl
  by_cases hpar : l % 2 = 0
  · rw [if_pos hpar, hb l hl rfl]
    have e : 2 * (l / 2) = l := by omega
    have e' : headerCode (dlt D cbufd start k l)
        = headerCode (delta (cbufd (laneIndex start k (2 * (l / 2))))
            (pred D cbufd start k (2 * (l / 2)))) := by
      rw [e]
      rfl
    rw [e']
    exact ⟨hn.1, hn.2.1⟩
  · rw [if_neg hpar, hb (l - 1) (by omega) (by omega)]
    have e : 2 * (l / 2) + 1 = l := by omega
    have e' : headerCode (dlt D cbufd start k l)
        = headerCode (delta (cbufd (laneIndex start k (2 * (l / 2) + 1)))
            (pred D cbufd start k (2 * (l / 2) + 1))) := by
      rw [e]
      rfl
    rw [e']
    exact ⟨hn.2.2.1, hn.2.2.2⟩

/-- In a pass of 32 lanes that starts at the cursor of the encoder and finds the header bytes
of the encoder, the decoder computes the byte counts, the payload addresses and the next
cursor of the encoder, whether plain `char` is signed or not. -/
theorem decompPass_full_cursor (signedChar : Bool) (D : Int) (cbufd : Int → Nat)
    (start term : Int) (wib k : Nat) (M : Int → Nat) (st : DecompState)
    (h31 : active start term k 31 = true)
    (hH : ∀ j : Nat, j < 16 → M (cur D cbufd start k + (j : Int)) = headerByte D cbufd start k j)
    (hoff : ∀ l, l < 32 → st.off l = cur D cbufd start k)
    (hpad : ∀ j, wib * 48 ≤ j → j < iindex wib 0 → st.ibufs j = 0) :
    (∀ l, l < 32 → decCount signedChar M start term wib k st l = (dlt D cbufd start k l).bcount) ∧
    (∀ l, l < 32 → decBeg signedChar M start term wib k st l = payloadAddr D cbufd start k l) ∧
    (∀ l, l < 32 →
      (decompPass signedChar D M start term wib k st).off l = cur D cbufd start (k + 1)) ∧
    (∀ j, wib * 48 ≤ j → j < iindex wib 0 →
      (decompPass signedChar D M start term wib k st).ibufs j = 0) := by
  have hact : ∀ l, l < 32 → active start term k l = true :=
    fun l hl => active_down (by omega) h31
  have hlt : ∀ l, active start term k l = true → l < 32 := fun l h => active_lt h
  have hdown : ∀ l l', l' ≤ l → active start term k l = true → active start term k l' = true :=
    fun l l' h h' => active_down h h'
  have hcnt : ∀ l, l < 32 →
      decCount signedChar M start term wib k st l = (dlt D cbufd start k l).bcount := by
    intro l hl
    unfold decCount
    rw [decodeCount_congr _ _ (decCodes_full signedChar D cbufd start term wib k M st h31 hH
      hoff l hl).1]
    exact (headerCode_parts _ _).2.2.2
  have hpad' : ∀ j, wib * 48 ≤ j → j < iindex wib 0 →
      decCodes signedChar M start term wib k st j = 0 := by
    intro j h1 h2
    rw [decCodes_pad _ _ _ _ _ _ _ _ h2]
    exact hpad j h1 h2
  have hpre : ∀ n, n ≤ 32 →
      pre (decCount signedChar M start term wib k st) n
        = pre (fun x => (dlt D cbufd start k x).bcount) n := by
    intro n hn
    apply pre_congr
    intro x hx
    exact hcnt x (by omega)
  refine ⟨hcnt, ?_, ?_, ?_⟩
  · intro l hl
    unfold decBeg decScan
    rw [scan_store_excl wib _ _ _ hlt hdown hpad' l (hact l hl), hoff l hl, hpre l (by omega)]
    rfl
  · intro l hl
    rw [decompPass_off, if_pos (hact l hl)]
    unfold decScan
    rw [scan_store_last wib _ _ _ hlt hdown hpad' h31, hoff l hl, hpre 32 (le_refl _), cur_succ,
      tot_eq]
    show _ + 16 + _ = _
    ring
  · intro j h1 h2
    rw [decompPass_ibufs_below _ _ _ _ _ _ _ _ _ h2]
    exact hpad j h1 h2

/-- In such a pass, where plain `char` is unsigned and the payload bytes of the encoder are in
place, the decoder writes the 32 words of the subchunk and loads the predictions of the next
pass. -/
theorem decompPass_full_words (D : Int) (cbufd : Int → Nat)
    (start term : Int) (wib k : Nat) (M : Int → Nat) (st : DecompState)
    (hD1 : 1 ≤ D) (hD32 : D ≤ 32) (hv : ∀ i, cbufd i < 2 ^ 64)
    (h31 : active start term k 31 = true)
    (hH : ∀ j : Nat, j < 16 → M (cur D cbufd start k + (j : Int)) = headerByte D cbufd start k j)
    (hP : ∀ l t : Nat, l < 32 → (t : Int) < (dlt D cbufd start k l).bcount →
      M (payloadAddr D cbufd start k l + (t : Int))
        = ((dlt D cbufd start k l).diff >>> (8 * t)) % 256)
    (hoff : ∀ l, l < 32 → st.off l = cur D cbufd start k)
    (hpad : ∀ j, wib * 48 ≤ j → j < iindex wib 0 → st.ibufs j = 0)
    (hprev : ∀ l, l < 32 → st.prev l = pred D cbufd start k l) :
    (∀ l, l < 32 → (decompPass false D M start term wib k st).fbufd (laneIndex start k l)
      = cbufd (laneIndex start k l)) ∧
    (∀ a, a < laneIndex start k 0 ∨ laneIndex start (k + 1) 0 ≤ a →
      (decompPass false D M start term wib k st).fbufd a = st.fbufd a) ∧
    (∀ l, l < 32 →
      (decompPass false D M start term wib k st).prev l = pred D cbufd start (k + 1) l) := by
  have hact : ∀ l, l < 32 → active start term k l = true :=
    fun l hl => active_down (by omega) h31
  obtain ⟨hcnt, hbeg, _, _⟩ :=
    decompPass_full_cursor false D cbufd start term wib k M st h31 hH hoff hpad
  have hp64 : ∀ l, pred D cbufd start k l < 2 ^ 64 := by
    intro l
    unfold pred
    split
    · norm_num
    · exact hv _
  have hdiff : ∀ l, l < 32 →
      decDiff false M start term wib k st l
        = if intAnd (headerCode (dlt D cbufd start k l)) 8 ≠ 0
          then neg64 (dlt D cbufd start k l).diff else (dlt D cbufd start k l).diff := by
    intro l hl
    unfold decDiff
    rw [(decCodes_full false D cbufd start term wib k M st h31 hH hoff l hl).2, hcnt l hl,
      hbeg l hl]
    have hr := dlt_bcount_range D cbufd start k l
    have hread : readPayload false M (payloadAddr D cbufd start k l)
        (dlt D cbufd start k l).bcount = (dlt D cbufd start k l).diff := by
      unfold readPayload
      have hlt := delta_diff_lt_pow (cbufd (laneIndex start k l)) (pred D cbufd start k l)
      have hlt' : (dlt D cbufd start k l).diff < 256 ^ (dlt D cbufd start k l).bcount.toNat :=
        hlt
      rcases readPayload_fold M (payloadAddr D cbufd start k l) (dlt D cbufd start k l).diff
        (dlt D cbufd start k l).bcount.toNat
        (fun t ht => hP l t hl (by omega)) 0 with h | h
      · rw [h]
        have h64 : (256 : Nat) ^ (dlt D cbufd start k l).bcount.toNat ≤ 2 ^ 64 := by
          rw [pow256]
          exact Nat.pow_le_pow_right (by norm_num) (by omega)
        rw [Nat.zero_mul, Nat.zero_add, Nat.mod_eq_of_lt hlt', Nat.mod_eq_of_lt (by omega)]
      · norm_num at h
    rw [hread]
  have hword : ∀ l, l < 32 →
      (decompPass false D M start term wib k st).fbufd (laneIndex start k l)
        = cbufd (laneIndex start k l) := by
    intro l hl
    have e : laneIndex start k l - laneIndex start k 0 = (l : Int) := by
      simp only [laneIndex_eq]; push_cast; ring
    rw [decompPass_fbufd, e, Int.toNat_ofNat, if_pos ⟨by omega, hact l hl⟩, hprev l hl,
      hdiff l hl]
    exact delta_decode _ _ (hv _) (hp64 l)
  refine ⟨hword, ?_, ?_⟩
  · intro a ha
    rw [decompPass_fbufd, if_neg]
    rintro ⟨h1, h2⟩
    rw [active_iff] at h2
    simp only [laneIndex_eq] at ha h1 h2
    push_cast at ha h1 h2
    omega
  · intro l hl
    rw [decompPass_prev _ _ _ _ _ _ _ _ l (hact l hl), pred_succ D cbufd start k l hD1]
    have hm0 : 0 ≤ (l : Int) % D := Int.emod_nonneg _ (by omega)
    have hm1 : (l : Int) % D < D := Int.emod_lt_of_pos _ (by omega)
    have hx : ∃ x : Nat, x < 32 ∧ laneIndex start k l + offset D l = laneIndex start k x := by
      refine ⟨(32 - D + (l : Int) % D).toNat, by omega, ?_⟩
      rw [laneIndex_eq, laneIndex_eq, offset_eq D l hD1, Int.toNat_of_nonneg (by omega)]
      ring
    obtain ⟨x, hx32, hx⟩ := hx
    rw [hx, hword x hx32, ← hx, laneIndex_eq, offset_eq D l hD1]
    congr 1
    ring

/-- The decoder follows the cursor of the encoder through every full subchunk whose header
bytes it finds in the compressed buffer, whether plain `char` is signed or not. -/
theorem decompRun_full_cursor (signedChar : Bool) (D : Int) (cbufd : Int → Nat)
    (start term : Int) (wib : Nat) (ibufs : Nat → Int) (fbufd M : Int → Nat) (n : Nat)
    (hn : start + 32 * (n : Int) ≤ term)
    (hM : ∀ s, Emitted D cbufd start n s → M s.1 = s.2) :
    (∀ l, l < 32 →
      (decompRun signedChar D M start term wib n (decompInit start wib ibufs fbufd)).off l
        = cur D cbufd start n) ∧
    (∀ j, wib * 48 ≤ j → j < iindex wib 0 →
      (decompRun signedChar D M start term wib n (decompInit start wib ibufs fbufd)).ibufs j
        = 0) := by
  induction n with
  | zero =>
    rw [decompRun_zero]
    exact ⟨fun l _ => rfl, fun j h1 h2 => clearScratch_pad wib ibufs j h1 h2⟩
  | succ n ih =>
    have h31 : active start term n 31 = true := by
      rw [active_iff]; push_cast at hn; omega
    obtain ⟨hoff, hpad⟩ := ih (by push_cast at hn; omega)
      (fun s ⟨k, hk, h⟩ => hM s ⟨k, by omega, h⟩)
    rw [decompRun_succ]
    have hH : ∀ j : Nat, j < 16 →
        M (cur D cbufd start n + (j : Int)) = headerByte D cbufd start n j :=
      fun j hj => hM (_, _) ⟨n, by omega, Or.inr ⟨j, hj, rfl⟩⟩
    obtain ⟨_, _, h3, h4⟩ :=
      decompPass_full_cursor signedChar D cbufd start term wib n M _ h31 hH hoff hpad
    exact ⟨h3, h4⟩

/-- Where plain `char` is unsigned, the decoder rebuilds every word of the full subchunks
whose bytes it finds in the compressed buffer, and leaves the other words alone. -/
theorem decompRun_full_words (D : Int) (cbufd : Int → Nat)
    (start term : Int) (wib : Nat) (ibufs : Nat → Int) (fbufd M : Int → Nat) (n : Nat)
    (hD1 : 1 ≤ D) (hD32 : D ≤ 32) (hv : ∀ i, cbufd i < 2 ^ 64)
    (hn : start + 32 * (n : Int) ≤ term)
    (hM : ∀ s, Emitted D cbufd start n s → M s.1 = s.2) :
    (∀ l, l < 32 →
      (decompRun false D M start term wib n (decompInit start wib ibufs fbufd)).prev l
        = pred D cbufd start n l) ∧
    (∀ a, start ≤ a → a < start + 32 * (n : Int) →
      (decompRun false D M start term wib n (decompInit start wib ibufs fbufd)).fbufd a
        = cbufd a) ∧
    (∀ a, a < start ∨ start + 32 * (n : Int) ≤ a →
      (decompRun false D M start term wib n (decompInit start wib ibufs fbufd)).fbufd a
        = fbufd a) := by
  induction n with
  | zero =>
    rw [decompRun_zero]
    refine ⟨fun l _ => rfl, ?_, fun a _ => rfl⟩
    intro a h1 h2
    simp at h2
    omega
  | succ n ih =>
    have h31 : active start term n 31 = true := by
      rw [active_iff]; push_cast at hn; omega
    have hn' : start + 32 * (n : Int) ≤ term := by push_cast at hn; omega
    have hM' : ∀ s, Emitted D cbufd start n s → M s.1 = s.2 :=
      fun s ⟨k, hk, h⟩ => hM s ⟨k, by omega, h⟩
    obtain ⟨hprev, hin, hout⟩ := ih hn' hM'
    obtain ⟨hoff, hpad⟩ :=
      decompRun_full_cursor false D cbufd start term wib ibufs fbufd M n hn' hM'
    rw [decompRun_succ]
    have hH : ∀ j : Nat, j < 16 →
        M (cur D cbufd start n + (j : Int)) = headerByte D cbufd start n j :=
      fun j hj => hM (_, _) ⟨n, by omega, Or.inr ⟨j, hj, rfl⟩⟩
    have hP : ∀ l t : Nat, l < 32 → (t : Int) < (dlt D cbufd start n l).bcount →
        M (payloadAddr D cbufd start n l + (t : Int))
          = ((dlt D cbufd start n l).diff >>> (8 * t)) % 256 :=
      fun l t hl ht => hM (_, _) ⟨n, by omega, Or.inl ⟨l, t, hl, ht, rfl⟩⟩
    obtain ⟨hw, hrest, hnext⟩ :=
      decompPass_full_words D cbufd start term wib n M _ hD1 hD32 hv h31 hH hP hoff hpad hprev
    refine ⟨hnext, ?_, ?_⟩
    · intro a h1 h2
      by_cases hlow : a < start + 32 * (n : Int)
      · rw [hrest a (Or.inl (by rw [laneIndex_eq]; push_cast; omega))]
        exact hin a h1 hlow
      · have e : a = laneIndex start n (a - start - 32 * (n : Int)).toNat := by
          rw [laneIndex_eq, Int.toNat_of_nonneg (by omega)]
          ring
        rw [e]
        exact hw _ (by push_cast at h2; omega)
    · intro a ha
      rw [hrest a (by simp only [laneIndex_eq]; push_cast; push_cast at ha; omega)]
      exact hout a (by push_cast at ha; omega)

theorem decompressedWords_succ (signedChar : Bool) (D : Int) (dbufd : Int → Nat)
    (cutd : Nat → Int) (m wpb : Nat) (ibufs : Nat → Int) (fbufd : Int → Nat) :
    decompressedWords signedChar D dbufd cutd (m + 1) wpb ibufs fbufd
      = (DecompressionKernel signedChar D dbufd cutd (m % wpb) m ibufs
          (decompressedWords signedChar D dbufd cutd m wpb ibufs fbufd)).fbufd := by
  unfold decompressedWords
  rw [List.range_succ, List.foldl_append]
  rfl

/-- Where plain `char` is unsigned, the warps `0 .. m-1` of `DecompressionKernel` rebuild the
words of their chunks of full subchunks from a buffer that holds the stores of those chunks. -/
theorem decompressedWords_full (D : Int) (cbufd : Int → Nat) (cutd : Nat → Int)
    (nwarps wpb : Nat) (ibufs : Nat → Int) (fbufd M : Int → Nat)
    (hD1 : 1 ≤ D) (hD32 : D ≤ 32) (hv : ∀ i, cbufd i < 2 ^ 64) (h0 : 0 ≤ cutd 0)
    (hmono : ∀ j, j + 1 < nwarps → cutd j ≤ cutd (j + 1))
    (hfull : ∀ w, w < nwarps → (chunkTerm cutd w - chunkStart cutd w) % 32 = 0)
    (hM : ∀ w, w < nwarps → ∀ s, Emitted D cbufd (chunkStart cutd w)
      (numPasses (chunkStart cutd w) (chunkTerm cutd w)) s → M s.1 = s.2)
    (m : Nat) (hm : m ≤ nwarps) (i : Int) (hi0 : 0 ≤ i) (hi : i < chunkStart cutd m) :
    decompressedWords false D M cutd m wpb ibufs fbufd i = cbufd i := by
  induction m generalizing i with
  | zero =>
    have : chunkStart cutd 0 = 0 := rfl
    omega
  | succ m ih =>
    rw [decompressedWords_succ]
    have hval := chunk_valid cutd nwarps h0 hmono m (by omega)
    have hnp := numPasses_full _ _ hval.2 (hfull m (by omega))
    obtain ⟨_, hin, hout⟩ := decompRun_full_words D cbufd (chunkStart cutd m) (chunkTerm cutd m)
      (m % wpb) ibufs (decompressedWords false D M cutd m wpb ibufs fbufd) M
      (numPasses (chunkStart cutd m) (chunkTerm cutd m)) hD1 hD32 hv (le_of_eq hnp)
      (hM m (by omega))
    rw [chunkStart_succ] at hi
    have hi' : i < chunkTerm cutd m := hi
    show (decompRun false D M (chunkStart cutd m) (chunkTerm cutd m) (m % wpb)
      (numPasses (chunkStart cutd m) (chunkTerm cutd m))
      (decompInit (chunkStart cutd m) (m % wpb) ibufs
        (decompressedWords false D M cutd m wpb ibufs fbufd))).fbufd i = cbufd i
    by_cases hlow : i < chunkStart cutd m
    · rw [hout i (Or.inl hlow)]
      exact ih (by omega) i hi0 hlow
    · exact hin i (by omega) (by omega)

/-- Where plain `char` is unsigned, for `1 ≤ D ≤ 32`, words below `2^64` and non-decreasing
chunk boundaries that are multiples of 32, `DecompressionKernel` applied to the buffer that
`CompressionKernel` produced with the same `D` and boundaries reproduces every word of the
trace. -/
theorem round_trip_full_unsigned (D : Int) (cbufd : Int → Nat) (cutd : Nat → Int)
    (nwarps wpb wpb' : Nat) (ibufs ibufs' : Nat → Int) (dbufd fbufd : Int → Nat)
    (hD1 : 1 ≤ D) (hD32 : D ≤ 32) (hv : ∀ i, cbufd i < 2 ^ 64) (h0 : 0 ≤ cutd 0)
    (hmono : ∀ j, j + 1 < nwarps → cutd j ≤ cutd (j + 1))
    (hfull : ∀ w, w < nwarps → (chunkTerm cutd w - chunkStart cutd w) % 32 = 0)
    (i : Int) (hi0 : 0 ≤ i) (hi : i < chunkStart cutd nwarps) :
    decompressedWords false D (compressedBytes D cbufd cutd nwarps wpb ibufs dbufd) cutd nwarps
      wpb' ibufs' fbufd i = cbufd i :=
  decompressedWords_full D cbufd cutd nwarps wpb' ibufs' fbufd _ hD1 hD32 hv h0 hmono hfull
    (fun w hw s hs => compressedBytes_emitted D cbufd cutd nwarps wpb ibufs dbufd h0 hmono hfull
      w hw s.1 s.2 hs) nwarps (le_refl _) i hi0 hi

/-- Whether plain `char` is signed or not, for non-decreasing chunk boundaries that are
multiples of 32 the cursor of the decoder after every subchunk of a chunk is the cursor of the
encoder after that subchunk, and its cursor after the chunk is the chunk's entry of the offset
table. -/
theorem cursors_agree_full (signedChar : Bool) (D : Int) (cbufd : Int → Nat) (cutd : Nat → Int)
    (nwarps wpb wib wib' : Nat) (ibufs ibufs' : Nat → Int) (dbufd fbufd : Int → Nat)
    (h0 : 0 ≤ cutd 0) (hmono : ∀ j, j + 1 < nwarps → cutd j ≤ cutd (j + 1))
    (hfull : ∀ w, w < nwarps → (chunkTerm cutd w - chunkStart cutd w) % 32 = 0)
    (w : Nat) (hw : w < nwarps) :
    (∀ k l, k ≤ numPasses (chunkStart cutd w) (chunkTerm cutd w) → l < 32 →
      (decompRun signedChar D (compressedBytes D cbufd cutd nwarps wpb ibufs dbufd)
        (chunkStart cutd w) (chunkTerm cutd w) wib' k
        (decompInit (chunkStart cutd w) wib' ibufs' fbufd)).off l
      = (compRun D cbufd (chunkStart cutd w) (chunkTerm cutd w) wib k
          (compInit (chunkStart cutd w) wib ibufs)).off l) ∧
    (DecompressionKernel signedChar D (compressedBytes D cbufd cutd nwarps wpb ibufs dbufd) cutd
      wib' w ibufs' fbufd).off 31 = offdEntry D cbufd cutd wib w ibufs := by
  have hval := chunk_valid cutd nwarps h0 hmono w hw
  have hnp := numPasses_full _ _ hval.2 (hfull w hw)
  have hgen : ∀ k l, k ≤ numPasses (chunkStart cutd w) (chunkTerm cutd w) → l < 32 →
      (decompRun signedChar D (compressedBytes D cbufd cutd nwarps wpb ibufs dbufd)
        (chunkStart cutd w) (chunkTerm cutd w) wib' k
        (decompInit (chunkStart cutd w) wib' ibufs' fbufd)).off l
      = (compRun D cbufd (chunkStart cutd w) (chunkTerm cutd w) wib k
          (compInit (chunkStart cutd w) wib ibufs)).off l := by
    intro k l hk hl
    have hk' : chunkStart cutd w + 32 * (k : Int) ≤ chunkTerm cutd w := by
      have : (k : Int) ≤ (numPasses (chunkStart cutd w) (chunkTerm cutd w) : Int) := by
        exact_mod_cast hk
      omega
    rw [(compRun_full D cbufd _ _ wib ibufs k hk').1 l hl]
    refine (decompRun_full_cursor signedChar D cbufd _ _ wib' ibufs' fbufd _ k hk' ?_).1 l hl
    intro s ⟨k', hk'', h⟩
    exact compressedBytes_emitted D cbufd cutd nwarps wpb ibufs dbufd h0 hmono hfull w hw s.1 s.2
      ⟨k', by omega, h⟩
  exact ⟨hgen, hgen _ 31 (le_refl _) (by omega)⟩

/-! ## The round trip of a chunk of one full subchunk -/

set_option maxRecDepth 100000 in
/-- C21, at the trace that holds 0x80 at index 0 and 0 elsewhere, with `D = 1` and the single
chunk `[0, 32)` of one full subchunk: where plain `char` is signed, `DecompressionKernel`
applied to the bytes of `CompressionKernel` decodes word 0 as 0xFFFFFFFFFFFFFF80 and not as
the 0x80 of the trace, because the payload byte 0x80 is sign-extended when it is or-ed into
the 64-bit accumulator; where plain `char` is unsigned the same run decodes 0x80. In both
cases the cursor of the decoder after the subchunk equals the cursor of the encoder. -/
theorem restricted_round_trip_sign_extension :
    highBit 0 = 0x80 ∧
    (chunkTerm fullCut 0 - chunkStart fullCut 0) % 32 = 0 ∧
    decompressedWords true 1 (compressedBytes 1 highBit fullCut 1 1 zeroScratch zeroBuf)
      fullCut 1 1 zeroScratch zeroBuf 0 = 0xFFFFFFFFFFFFFF80 ∧
    decompressedWords false 1 (compressedBytes 1 highBit fullCut 1 1 zeroScratch zeroBuf)
      fullCut 1 1 zeroScratch zeroBuf 0 = 0x80 ∧
    (DecompressionKernel true 1 (compressedBytes 1 highBit fullCut 1 1 zeroScratch zeroBuf)
      fullCut 0 0 zeroScratch zeroBuf).off 31 = offdEntry 1 highBit fullCut 0 0 zeroScratch ∧
    (DecompressionKernel false 1 (compressedBytes 1 highBit fullCut 1 1 zeroScratch zeroBuf)
      fullCut 0 0 zeroScratch zeroBuf).off 31 = offdEntry 1 highBit fullCut 0 0 zeroScratch := by
  decide

end FPDC
